import Mathlib

/-!
ts-go-compiler: tokenizer, type checker, code generator and pipeline.

A shallow embedding of `lexer/lexer.go`, `token/token.go`,
`typecheck/typecheck.go`, `codegen/codegen.go` and `compiler/compiler.go`,
followed by the properties proved about them.

Go strings are byte sequences; a byte is a `Fin 256`.  The lexer keeps the
whole input and indexes into it exactly as the Go struct does.  Loops that the
Go code writes as `for cond { l.readChar() }` are given a step budget and
return `none` when the budget runs out; the theorems show that a budget of
`len(input) - readPosition + 3` always suffices.
-/

namespace TsGo

/-! ## Bytes and strings -/

/-- A Go `byte`. -/
abbrev Byte := Fin 256

/-- A Go `string`: an immutable sequence of bytes. -/
abbrev GoString := List Byte

/-- The bytes of an ASCII string literal of the source. -/
def str (s : String) : GoString :=
  s.toList.map (fun c => ⟨c.toNat % 256, Nat.mod_lt _ (by decide)⟩)

/-- Go's conversion `string(b)` of a byte `b`: an integer converted to a string
yields the UTF-8 encoding of the code point with that value, so a byte below
`0x80` gives the one-byte string and a byte from `0x80` up gives two bytes. -/
def string (b : Byte) : GoString :=
  if b.val < 128 then [b]
  else [⟨192 + b.val / 64, by omega⟩, ⟨128 + b.val % 64, by omega⟩]

/-- Go's slice expression `s[i:j]` (for `i ≤ j ≤ len(s)`). -/
def slice (s : GoString) (i j : Nat) : GoString := (s.drop i).take (j - i)

/-- Go's `unicode.IsSpace(rune(b))` on the Latin-1 range: tab, newline, vertical
tab, form feed, carriage return, space, U+0085 and U+00A0. -/
def isSpace (b : Byte) : Bool :=
  (9 ≤ b.val && b.val ≤ 13) || b.val == 32 || b.val == 133 || b.val == 160

/-- Go's `unicode.IsLetter(rune(b))` on the Latin-1 range. -/
def unicodeIsLetter (b : Byte) : Bool :=
  (65 ≤ b.val && b.val ≤ 90) || (97 ≤ b.val && b.val ≤ 122) ||
  b.val == 170 || b.val == 181 || b.val == 186 ||
  (192 ≤ b.val && b.val ≤ 214) || (216 ≤ b.val && b.val ≤ 246) || 248 ≤ b.val

/-- The lexer's `isLetter`: a Unicode letter or an underscore. -/
def isLetter (ch : Byte) : Bool := unicodeIsLetter ch || ch == 95

/-- The lexer's `isDigit`: `unicode.IsDigit(rune(ch))`, which on the Latin-1
range is `'0' ≤ ch ≤ '9'`. -/
def isDigit (ch : Byte) : Bool := 48 ≤ ch.val && ch.val ≤ 57

/-! ## Tokens (`token/token.go`) -/

/-- The constants of `token.TokenType`, in declaration order. -/
inductive TokenType
  | ILLEGAL | EOF | IDENT | INT | STRING | EQ | NOT_EQ
  | ASSIGN | PLUS | MINUS | BANG | ASTERISK | SLASH | LT | GT
  | COMMA | SEMICOLON | COLON | LPAREN | RPAREN | LBRACE | RBRACE
  | FUNCTION | LET | CONST | VAR | RETURN | IF | ELSE | CONSOLE | LOG | DOT
  | TRUE | FALSE
  deriving DecidableEq, Repr

/-- The struct `token.Token`; `Typ` is the Go field `Type`. -/
structure Token where
  Typ : TokenType
  Literal : GoString
  Line : Nat
  Column : Nat
  deriving DecidableEq, Repr

/-! ## The lexer (`lexer/lexer.go`) -/

/-- The struct `Lexer`. -/
structure Lexer where
  input : GoString
  position : Nat
  readPosition : Nat
  ch : Byte
  line : Nat
  column : Nat
  deriving DecidableEq, Repr

/-- `Lexer.readChar`: at the end of the input only `ch` changes. -/
def readChar (l : Lexer) : Lexer :=
  if l.readPosition ≥ l.input.length then { l with ch := 0 }
  else
    let c := l.input.getD l.readPosition 0
    let l1 : Lexer :=
      { l with ch := c, position := l.readPosition,
               readPosition := l.readPosition + 1, column := l.column + 1 }
    if c = 10 then { l1 with line := l1.line + 1, column := 0 } else l1

/-- `lexer.New`. -/
def New (input : GoString) : Lexer :=
  readChar { input := input, position := 0, readPosition := 0, ch := 0, line := 1, column := 0 }

/-- `Lexer.peekChar`. -/
def peekChar (l : Lexer) : Byte :=
  if l.readPosition ≥ l.input.length then 0 else l.input.getD l.readPosition 0

/-- The loop `for cond(l.ch) { l.readChar() }` with a step budget: `none` when
the budget is used up before the condition turns false. -/
def readWhile (cond : Byte → Bool) : Nat → Lexer → Option Lexer
  | 0, _ => none
  | fuel + 1, l => if cond l.ch then readWhile cond fuel (readChar l) else some l

/-- `Lexer.skipWhitespace`. -/
def skipWhitespace (fuel : Nat) (l : Lexer) : Option Lexer := readWhile isSpace fuel l

/-- The loop condition of `skipLineComment`: `l.ch != '\n' && l.ch != 0`. -/
def notEol (ch : Byte) : Bool := ch != 10 && ch != 0

/-- `Lexer.skipLineComment`. -/
def skipLineComment (fuel : Nat) (l : Lexer) : Option Lexer :=
  readWhile notEol fuel (readChar l)

/-- The `for { ... }` loop of `skipBlockComment`. -/
def blockLoop : Nat → Lexer → Option Lexer
  | 0, _ => none
  | fuel + 1, l =>
    if l.ch = 0 then some l
    else if l.ch = 42 ∧ peekChar l = 47 then some (readChar (readChar l))
    else blockLoop fuel (readChar l)

/-- `Lexer.skipBlockComment`. -/
def skipBlockComment (fuel : Nat) (l : Lexer) : Option Lexer :=
  blockLoop fuel (readChar (readChar l))

/-- `Lexer.readIdentifier`. -/
def readIdentifier (fuel : Nat) (l : Lexer) : Option (GoString × Lexer) :=
  let position := l.position
  match readWhile isLetter fuel l with
  | none => none
  | some l1 => some (slice l1.input position l1.position, l1)

/-- `Lexer.readNumber`. -/
def readNumber (fuel : Nat) (l : Lexer) : Option (GoString × Lexer) :=
  let position := l.position
  match readWhile isDigit fuel l with
  | none => none
  | some l1 => some (slice l1.input position l1.position, l1)

/-- The loop condition of `readString`: `l.ch != quote && l.ch != 0`. -/
def notQuote (quote : Byte) (ch : Byte) : Bool := ch != quote && ch != 0

/-- `Lexer.readString`. -/
def readString (fuel : Nat) (quote : Byte) (l : Lexer) : Option (GoString × Lexer) :=
  let l0 := readChar l
  let position := l0.position
  match readWhile (notQuote quote) fuel l0 with
  | none => none
  | some l1 => some (slice l1.input position l1.position, l1)

/-- The function `lookupIdent`. -/
def lookupIdent (ident : GoString) : TokenType :=
  if ident = str "function" then .FUNCTION
  else if ident = str "let" then .LET
  else if ident = str "const" then .CONST
  else if ident = str "var" then .VAR
  else if ident = str "return" then .RETURN
  else if ident = str "if" then .IF
  else if ident = str "else" then .ELSE
  else if ident = str "console" then .CONSOLE
  else if ident = str "log" then .LOG
  else if ident = str "." then .DOT
  else .IDENT

/-- `Lexer.NextToken` with a step budget shared by its loops and its recursive
re-entry after a comment.  A composite literal `token.Token{Type: .., Literal: ..}`
leaves `Line` and `Column` at their zero value. -/
def NextTokenFuel : Nat → Lexer → Option (Token × Lexer)
  | 0, _ => none
  | fuel + 1, l0 =>
    match skipWhitespace fuel l0 with
    | none => none
    | some l =>
      let tok : Token := { Typ := .ILLEGAL, Literal := [], Line := l.line, Column := l.column }
      if l.ch = 61 then some ({ Typ := .ASSIGN, Literal := string l.ch, Line := 0, Column := 0 }, readChar l)
      else if l.ch = 43 then some ({ Typ := .PLUS, Literal := string l.ch, Line := 0, Column := 0 }, readChar l)
      else if l.ch = 45 then some ({ Typ := .MINUS, Literal := string l.ch, Line := 0, Column := 0 }, readChar l)
      else if l.ch = 33 then some ({ Typ := .BANG, Literal := string l.ch, Line := 0, Column := 0 }, readChar l)
      else if l.ch = 42 then some ({ Typ := .ASTERISK, Literal := string l.ch, Line := 0, Column := 0 }, readChar l)
      else if l.ch = 47 then
        if peekChar l = 47 then
          match skipLineComment fuel l with
          | none => none
          | some l2 => NextTokenFuel fuel l2
        else if peekChar l = 42 then
          match skipBlockComment fuel l with
          | none => none
          | some l2 => NextTokenFuel fuel l2
        else some ({ Typ := .SLASH, Literal := string l.ch, Line := 0, Column := 0 }, readChar l)
      else if l.ch = 60 then some ({ Typ := .LT, Literal := string l.ch, Line := 0, Column := 0 }, readChar l)
      else if l.ch = 62 then some ({ Typ := .GT, Literal := string l.ch, Line := 0, Column := 0 }, readChar l)
      else if l.ch = 44 then some ({ Typ := .COMMA, Literal := string l.ch, Line := 0, Column := 0 }, readChar l)
      else if l.ch = 59 then some ({ Typ := .SEMICOLON, Literal := string l.ch, Line := 0, Column := 0 }, readChar l)
      else if l.ch = 58 then some ({ Typ := .COLON, Literal := string l.ch, Line := 0, Column := 0 }, readChar l)
      else if l.ch = 40 then some ({ Typ := .LPAREN, Literal := string l.ch, Line := 0, Column := 0 }, readChar l)
      else if l.ch = 41 then some ({ Typ := .RPAREN, Literal := string l.ch, Line := 0, Column := 0 }, readChar l)
      else if l.ch = 123 then some ({ Typ := .LBRACE, Literal := string l.ch, Line := 0, Column := 0 }, readChar l)
      else if l.ch = 125 then some ({ Typ := .RBRACE, Literal := string l.ch, Line := 0, Column := 0 }, readChar l)
      else if l.ch = 46 then some ({ Typ := .DOT, Literal := string l.ch, Line := 0, Column := 0 }, readChar l)
      else if l.ch = 34 then
        match readString fuel 34 l with
        | none => none
        | some (s, l2) => some ({ tok with Typ := .STRING, Literal := s }, readChar l2)
      else if l.ch = 39 then
        match readString fuel 39 l with
        | none => none
        | some (s, l2) => some ({ tok with Typ := .STRING, Literal := s }, readChar l2)
      else if l.ch = 0 then some ({ tok with Literal := [], Typ := .EOF }, readChar l)
      else if isLetter l.ch then
        match readIdentifier fuel l with
        | none => none
        | some (s, l2) => some ({ tok with Literal := s, Typ := lookupIdent s }, l2)
      else if isDigit l.ch then
        match readNumber fuel l with
        | none => none
        | some (s, l2) => some ({ tok with Typ := .INT, Literal := s }, l2)
      else some ({ Typ := .ILLEGAL, Literal := string l.ch, Line := 0, Column := 0 }, readChar l)

/-- A step budget that is enough for one call of `NextToken` from `l`. -/
def fuelBound (l : Lexer) : Nat := l.input.length - l.readPosition + 3

/-- `Lexer.NextToken`: the token returned and the lexer state left behind.  The
`none` branch is never taken (`NextTokenFuel_fuelBound`). -/
def NextToken (l : Lexer) : Token × Lexer :=
  match NextTokenFuel (fuelBound l) l with
  | some r => r
  | none => ({ Typ := .EOF, Literal := [], Line := l.line, Column := l.column }, l)

/-- The lexer state after `k` calls of `NextToken`. -/
def afterCalls : Nat → Lexer → Lexer
  | 0, l => l
  | k + 1, l => afterCalls k (NextToken l).2

/-- The token returned by call number `k` (counting from 0) of `NextToken`. -/
def nthToken (k : Nat) (l : Lexer) : Token := (NextToken (afterCalls k l)).1

/-- The (kind, literal) pairs of at most `k` calls of `NextToken`, stopping
after the first `EOF`. -/
def tokensFrom : Nat → Lexer → List (TokenType × GoString)
  | 0, _ => []
  | k + 1, l =>
    let r := NextToken l
    (r.1.Typ, r.1.Literal) :: (if r.1.Typ = .EOF then [] else tokensFrom k r.2)

/-- The (kind, literal) pairs returned by `NextToken` on `s` up to and including
the first `EOF`, as the loop of `TestComment` collects them; `len(s) + 1` calls
always reach it. -/
def tokens (s : GoString) : List (TokenType × GoString) :=
  tokensFrom (s.length + 1) (New s)

/-! ## Specification vocabulary -/

/-- The number of input bytes the lexer has not consumed yet: the bytes after
`readPosition`, plus the current byte unless it is the NUL that marks the end. -/
def remaining (l : Lexer) : Nat :=
  l.input.length - l.readPosition + (if l.ch = 0 then 0 else 1)

/-- The arm of the `switch` in `NextToken` that a current byte selects. -/
inductive CharClass
  | punct (t : TokenType)
  | slash
  | quote
  | eof
  | letter
  | digit
  | illegal
  deriving DecidableEq, Repr

/-- The arm selected by byte `c`, tested in the order of the `switch`. -/
def classify (c : Byte) : CharClass :=
  if c = 61 then .punct .ASSIGN
  else if c = 43 then .punct .PLUS
  else if c = 45 then .punct .MINUS
  else if c = 33 then .punct .BANG
  else if c = 42 then .punct .ASTERISK
  else if c = 47 then .slash
  else if c = 60 then .punct .LT
  else if c = 62 then .punct .GT
  else if c = 44 then .punct .COMMA
  else if c = 59 then .punct .SEMICOLON
  else if c = 58 then .punct .COLON
  else if c = 40 then .punct .LPAREN
  else if c = 41 then .punct .RPAREN
  else if c = 123 then .punct .LBRACE
  else if c = 125 then .punct .RBRACE
  else if c = 46 then .punct .DOT
  else if c = 34 then .quote
  else if c = 39 then .quote
  else if c = 0 then .eof
  else if isLetter c then .letter
  else if isDigit c then .digit
  else .illegal

/-- The part of `NextToken` after `skipWhitespace`, for a lexer `l` whose
current byte starts no comment, by the arm that byte selects. -/
def scanToken (fuel : Nat) (l : Lexer) : Option (Token × Lexer) :=
  let tok : Token := { Typ := .ILLEGAL, Literal := [], Line := l.line, Column := l.column }
  match classify l.ch with
  | .punct t => some ({ Typ := t, Literal := string l.ch, Line := 0, Column := 0 }, readChar l)
  | .slash => some ({ Typ := .SLASH, Literal := string l.ch, Line := 0, Column := 0 }, readChar l)
  | .quote =>
    match readString fuel l.ch l with
    | none => none
    | some (s, l2) => some ({ tok with Typ := .STRING, Literal := s }, readChar l2)
  | .eof => some ({ tok with Literal := [], Typ := .EOF }, readChar l)
  | .letter =>
    match readIdentifier fuel l with
    | none => none
    | some (s, l2) => some ({ tok with Literal := s, Typ := lookupIdent s }, l2)
  | .digit =>
    match readNumber fuel l with
    | none => none
    | some (s, l2) => some ({ tok with Typ := .INT, Literal := s }, l2)
  | .illegal => some ({ Typ := .ILLEGAL, Literal := string l.ch, Line := 0, Column := 0 }, readChar l)

/-- The current byte is NUL only at the real end of the input. -/
def eofOnlyAtEnd (l : Lexer) : Prop := l.ch = 0 → l.input.length ≤ l.readPosition

/-- The single-byte operators and punctuation of the specification with the
kind each one maps to. -/
def operatorTable : List (Byte × TokenType) :=
  [(61, .ASSIGN), (43, .PLUS), (45, .MINUS), (33, .BANG), (42, .ASTERISK), (60, .LT),
   (62, .GT), (44, .COMMA), (59, .SEMICOLON), (58, .COLON), (40, .LPAREN), (41, .RPAREN),
   (123, .LBRACE), (125, .RBRACE), (46, .DOT)]

/-! ## Syntax tree (package `ast`) -/

mutual
/-- Modelled from the spec: the expression nodes of package `ast`, whose
declarations are not among the sources.  The variants and fields are those the
checker and the generator use: `nil` is the nil interface value, `Other` stands
for every further node kind and carries the type name that `%T` prints. -/
inductive Expression
  | nil
  | IntegerLiteral (Token : Token) (Value : Int)
  | StringLiteral (Value : GoString)
  | Identifier (Value : GoString)
  | FunctionLiteral (Parameters : List GoString) (Body : List Statement)
  | Other (typeName : GoString)
/-- Modelled from the spec: the statement nodes of package `ast`.  `Name` of a
let statement is the `Value` of its identifier node; `Other` stands for every
further statement kind. -/
inductive Statement
  | LetStatement (Name : GoString) (Value : Expression)
  | ReturnStatement (ReturnValue : Expression)
  | ExpressionStatement (Expression : Expression)
  | BlockStatement (Statements : List Statement)
  | Other
end

/-- Modelled from the spec: `ast.Program`, the ordered top-level statements. -/
structure Program where
  Statements : List Statement

/-- What `fmt.Sprintf("%T", expr)` prints for an expression. -/
def Expression.typeName : Expression → GoString
  | .nil => str "<nil>"
  | .IntegerLiteral _ _ => str "*ast.IntegerLiteral"
  | .StringLiteral _ => str "*ast.StringLiteral"
  | .Identifier _ => str "*ast.Identifier"
  | .FunctionLiteral _ _ => str "*ast.FunctionLiteral"
  | .Other n => n

/-! ## The type checker (`typecheck/typecheck.go`) -/

/-- A value of the interface `Type`: nil or a `*BasicType` with its `Name`. -/
inductive Ty
  | nil
  | basic (Name : GoString)
  deriving DecidableEq, Repr

/-- The struct `TypeEnvironment`: the map `store` (`none` for an absent key) and
the `outer` pointer. -/
inductive TypeEnvironment
  | mk (store : GoString → Option Ty) (outer : Option TypeEnvironment)

/-- `NewTypeEnvironment`. -/
def NewTypeEnvironment : TypeEnvironment := .mk (fun _ => none) none

/-- `TypeEnvironment.Get`. -/
def TypeEnvironment.Get : TypeEnvironment → GoString → Ty × Bool
  | .mk store outer, name =>
    match store name with
    | some obj => (obj, true)
    | none =>
      match outer with
      | some o => o.Get name
      | none => (.nil, false)

/-- `TypeEnvironment.Set`: the map update `env.store[name] = val`. -/
def TypeEnvironment.Set : TypeEnvironment → GoString → Ty → TypeEnvironment
  | .mk store outer, name, val => .mk (fun k => if k = name then some val else store k) outer

/-- The struct `TypeChecker`. -/
structure TypeChecker where
  errors : List GoString
  env : TypeEnvironment

/-- `typecheck.New`. -/
def TypeChecker.New : TypeChecker := { errors := [], env := NewTypeEnvironment }

/-- `TypeChecker.addError`. -/
def TypeChecker.addError (tc : TypeChecker) (msg : GoString) : TypeChecker :=
  { tc with errors := tc.errors ++ [msg] }

/-- `TypeChecker.checkIdentifier`, on the `Value` of the identifier node. -/
def TypeChecker.checkIdentifier (tc : TypeChecker) (value : GoString) : Ty × TypeChecker :=
  match tc.env.Get value with
  | (val, true) => (val, tc)
  | (_, false) =>
    (.basic (str "unknown"), tc.addError (str "undefined variable: " ++ value))

/-- `TypeChecker.checkExpression`. -/
def TypeChecker.checkExpression (tc : TypeChecker) : Expression → Ty × TypeChecker
  | .IntegerLiteral _ _ => (.basic (str "number"), tc)
  | .StringLiteral _ => (.basic (str "string"), tc)
  | .Identifier value => tc.checkIdentifier value
  | .FunctionLiteral _ _ => (.basic (str "function"), tc)
  | e => (.basic (str "unknown"), tc.addError (str "unknown expression type: " ++ e.typeName))

/-- `TypeChecker.checkLetStatement`. -/
def TypeChecker.checkLetStatement (tc : TypeChecker) (name : GoString) :
    Expression → Ty × TypeChecker
  | .nil => (.basic (str "any"), { tc with env := tc.env.Set name (.basic (str "any")) })
  | value =>
    let r := tc.checkExpression value
    (r.1, { r.2 with env := r.2.env.Set name r.1 })

/-- `TypeChecker.checkReturnStatement`. -/
def TypeChecker.checkReturnStatement (tc : TypeChecker) : Expression → Ty × TypeChecker
  | .nil => (.basic (str "void"), tc)
  | returnValue => tc.checkExpression returnValue

mutual
/-- `TypeChecker.checkStatement`. -/
def TypeChecker.checkStatement (tc : TypeChecker) : Statement → Ty × TypeChecker
  | .LetStatement name value => tc.checkLetStatement name value
  | .ReturnStatement returnValue => tc.checkReturnStatement returnValue
  | .ExpressionStatement expression => tc.checkExpression expression
  | .BlockStatement statements => TypeChecker.checkBlockStatement tc .nil statements
  | .Other => (.basic (str "void"), tc)
/-- `TypeChecker.checkBlockStatement`: the loop over the statements of a block,
with the running `lastType` (nil before the first statement). -/
def TypeChecker.checkBlockStatement (tc : TypeChecker) (lastType : Ty) :
    List Statement → Ty × TypeChecker
  | [] => (lastType, tc)
  | stmt :: rest =>
    let r := TypeChecker.checkStatement tc stmt
    TypeChecker.checkBlockStatement r.2 r.1 rest
end

/-- The loop of `Check` over the top-level statements. -/
def TypeChecker.checkAll (tc : TypeChecker) : List Statement → TypeChecker
  | [] => tc
  | stmt :: rest => TypeChecker.checkAll (tc.checkStatement stmt).2 rest

/-- `TypeChecker.Check`: the diagnostics returned and the checker left behind. -/
def TypeChecker.Check (tc : TypeChecker) (program : Program) : List GoString × TypeChecker :=
  let tc1 := tc.checkAll program.Statements
  (tc1.errors, tc1)

/-- Lexer `l2` reads the input of `l1` from byte `d` on, and stands `d` bytes
further to the left in its own input, on the same byte. -/
def Shifted (d : Nat) (l1 l2 : Lexer) : Prop :=
  l2.input = l1.input.drop d ∧ d ≤ l1.input.length ∧
  l1.position = l2.position + d ∧ l1.readPosition = l2.readPosition + d ∧ l1.ch = l2.ch

/-- The lexer stands on byte `c` of its input `pre ++ c :: post`. -/
def At (l : Lexer) (pre : GoString) (c : Byte) (post : GoString) : Prop :=
  l.input = pre ++ c :: post ∧ l.position = pre.length ∧
  l.readPosition = pre.length + 1 ∧ l.ch = c

/-- The lexer has read past the last byte of its input. -/
def atEnd (l : Lexer) : Prop := l.ch = 0 ∧ l.input.length ≤ l.readPosition

/-- The lexer stands at the start of the remaining input `b`, with `pre`
behind it: on the first byte of `b`, or past the end when `b` is empty. -/
def StandsAt (l : Lexer) (pre : GoString) : GoString → Prop
  | [] => atEnd l
  | c :: post => At l pre c post

/-- The tokens `ts` are what the lexer returns while it crosses the bytes `a`
of its input, up to the whitespace byte `w` that follows them: from a lexer on
the first byte of `a ++ w :: X`, the collected tokens are `ts` followed by those
collected from the lexer `B` standing on `w`, whatever `X` is. -/
def PrefixTokens (a : GoString) (w : Byte) (ts : List (TokenType × GoString)) : Prop :=
  ∀ (X pre : GoString) (l : Lexer) (c : Byte) (post : GoString) (k : Nat),
    At l pre c post → c :: post = a ++ w :: X → remaining l < k →
    ∃ (B : Lexer) (k' : Nat), At B (pre ++ a) w X ∧ remaining B < k' ∧
      tokensFrom k l = ts ++ tokensFrom k' B

/-- The `outer` field of a `TypeEnvironment`. -/
def TypeEnvironment.outerEnv : TypeEnvironment → Option TypeEnvironment
  | .mk _ outer => outer

/-! ## The code generator (`codegen/codegen.go`) -/

/-- `Generator.generateJSExpression`; `fmt.Sprintf("\"%s\"", v)` puts the byte
34 before and after `v`. -/
def generateJSExpression : Expression → GoString
  | .nil => []
  | .IntegerLiteral tok _ => tok.Literal
  | .StringLiteral v => [34] ++ v ++ [34]
  | .Identifier v => v
  | _ => []

/-- `Generator.generateJSStatement`. -/
def generateJSStatement : Statement → GoString
  | .LetStatement name value =>
    str "let " ++ name ++ str " = " ++ generateJSExpression value ++ str ";"
  | .ReturnStatement returnValue => str "return " ++ generateJSExpression returnValue ++ str ";"
  | .ExpressionStatement expression => generateJSExpression expression ++ str ";"
  | _ => []

/-- The loop of `GenerateJavaScript`, writing into the buffer `out`. -/
def writeStatements (out : GoString) : List Statement → GoString
  | [] => out
  | stmt :: rest => writeStatements (out ++ generateJSStatement stmt ++ str "\n") rest

/-- `Generator.GenerateJavaScript`. -/
def GenerateJavaScript (program : Program) : GoString :=
  writeStatements [] program.Statements

/-! ## The pipeline (`compiler/compiler.go`) -/

/-- Go's `strings.Join`. -/
def Join : List GoString → GoString → GoString
  | [], _ => []
  | [a], _ => a
  | a :: b :: rest, sep => a ++ sep ++ Join (b :: rest) sep

/-- `Compiler.Compile`.  The parser (package `parser`, not among the sources)
is the parameter `parse`: from the lexer it is given to the program of
`ParseProgram` and the list of `Errors`.  The result is the output text and the
error, `none` for nil and `some msg` for `errors.New(msg)`. -/
def Compile (parse : Lexer → Program × List GoString) (input : GoString) :
    GoString × Option GoString :=
  let l := New input
  let program := (parse l).1
  if (parse l).2.length > 0 then
    ([], some (str "parse errors: " ++ Join (parse l).2 (str ", ")))
  else
    let errs := (TypeChecker.New.Check program).1
    if errs.length > 0 then ([], some (str "type error: " ++ errs.getD 0 []))
    else (GenerateJavaScript program, none)

/-! ## The mapping of the specification -/

/-- The specification's rendering of an expression: an integer literal is its
verbatim text, a string literal is re-quoted with double quotes, an identifier
is its name; nothing is said about other expressions. -/
def specExpression : Expression → Option GoString
  | .IntegerLiteral tok _ => some tok.Literal
  | .StringLiteral v => some ([34] ++ v ++ [34])
  | .Identifier v => some v
  | _ => none

/-- The specification's rendering of a statement: `let <name> = <expr>;`,
`return <expr>;` and `<expr>;`. -/
def specStatement : Statement → Option GoString
  | .LetStatement name value =>
    (specExpression value).map (fun e => str "let " ++ name ++ str " = " ++ e ++ str ";")
  | .ReturnStatement returnValue =>
    (specExpression returnValue).map (fun e => str "return " ++ e ++ str ";")
  | .ExpressionStatement expression =>
    (specExpression expression).map (fun e => e ++ str ";")
  | _ => none

/-- The specification's output for a program of such statements: every
rendering followed by one newline, in statement order. -/
def specProgram : List Statement → Option GoString
  | [] => some []
  | stmt :: rest =>
    match specStatement stmt, specProgram rest with
    | some line, some out => some (line ++ str "\n" ++ out)
    | _, _ => none

/-- The six type tags of the specification, as `*BasicType` values. -/
def sixTags : List Ty :=
  [.basic (str "number"), .basic (str "string"), .basic (str "function"),
   .basic (str "any"), .basic (str "void"), .basic (str "unknown")]

/-- Every name the environment chain resolves has one of the six tags. -/
def EnvTagged (env : TypeEnvironment) : Prop :=
  ∀ (name : GoString) (ty : Ty), env.Get name = (ty, true) → ty ∈ sixTags

/-- The lexer stands on a byte of its input or has read past the last one. -/
def Positioned (l : Lexer) : Prop :=
  (∃ (pre : GoString) (c : Byte) (post : GoString), At l pre c post) ∨ atEnd l

/-- The literal the lexer takes for a run of bytes satisfying `cond` at the
start of the remaining input `s`: the maximal run, and the run without its last
byte when it reaches the end of the input. -/
def runLiteral (cond : Byte → Bool) (s : GoString) : GoString :=
  if s.dropWhile cond = [] then (s.takeWhile cond).dropLast else s.takeWhile cond

/-- The kinds `lookupIdent` gives to a run of letters: `IDENT` and the keywords. -/
def identKinds : List TokenType :=
  [.IDENT, .FUNCTION, .LET, .CONST, .VAR, .RETURN, .IF, .ELSE, .CONSOLE, .LOG]

/-! ## The lexer with run-time panics made explicit -/

/-- The outcome of Go code that can panic at run time. -/
inductive Run (α : Type)
  | ok (a : α)
  | panic
  deriving DecidableEq, Repr

/-- Go's index expression `s[i]`: a run-time panic when `i` is out of range. -/
def indexGo (s : GoString) (i : Nat) : Run Byte :=
  match s[i]? with
  | some b => .ok b
  | none => .panic

/-- Go's slice expression `s[i:j]`: a run-time panic unless `i ≤ j ≤ len(s)`. -/
def sliceGo (s : GoString) (i j : Nat) : Run GoString :=
  if i ≤ j ∧ j ≤ s.length then .ok (slice s i j) else .panic

/-- Sequencing: a panic ends the computation. -/
def Run.andThen {α β : Type} (r : Run α) (f : α → Option (Run β)) : Option (Run β) :=
  match r with
  | .panic => some .panic
  | .ok a => f a

/-- Sequencing after a loop with a step budget (`none`: budget used up). -/
def andThenLoop {α β : Type} (r : Option (Run α)) (f : α → Option (Run β)) :
    Option (Run β) :=
  match r with
  | none => none
  | some r1 => r1.andThen f

/-- `Lexer.readChar`, with its index expression checked. -/
def readCharGo (l : Lexer) : Run Lexer :=
  if l.readPosition ≥ l.input.length then .ok { l with ch := 0 }
  else
    match indexGo l.input l.readPosition with
    | .panic => .panic
    | .ok c =>
      let l1 : Lexer :=
        { l with ch := c, position := l.readPosition,
                 readPosition := l.readPosition + 1, column := l.column + 1 }
      .ok (if c = 10 then { l1 with line := l1.line + 1, column := 0 } else l1)

/-- `lexer.New`, over the checked `readChar`. -/
def NewGo (input : GoString) : Run Lexer :=
  readCharGo { input := input, position := 0, readPosition := 0, ch := 0, line := 1, column := 0 }

/-- `Lexer.peekChar`, with its index expression checked. -/
def peekCharGo (l : Lexer) : Run Byte :=
  if l.readPosition ≥ l.input.length then .ok 0 else indexGo l.input l.readPosition

/-- The loop `for cond(l.ch) { l.readChar() }` over the checked `readChar`. -/
def readWhileGo (cond : Byte → Bool) : Nat → Lexer → Option (Run Lexer)
  | 0, _ => none
  | fuel + 1, l =>
    if cond l.ch then (readCharGo l).andThen (fun l1 => readWhileGo cond fuel l1)
    else some (.ok l)

/-- `Lexer.skipWhitespace`, checked. -/
def skipWhitespaceGo (fuel : Nat) (l : Lexer) : Option (Run Lexer) :=
  readWhileGo isSpace fuel l

/-- `Lexer.skipLineComment`, checked. -/
def skipLineCommentGo (fuel : Nat) (l : Lexer) : Option (Run Lexer) :=
  (readCharGo l).andThen (fun l1 => readWhileGo notEol fuel l1)

/-- The `for { ... }` loop of `skipBlockComment`, checked; `peekChar` is called
only when the current byte is `*`. -/
def blockLoopGo : Nat → Lexer → Option (Run Lexer)
  | 0, _ => none
  | fuel + 1, l =>
    if l.ch = 0 then some (.ok l)
    else if l.ch = 42 then
      (peekCharGo l).andThen fun p =>
        if p = 47 then
          (readCharGo l).andThen fun l1 => (readCharGo l1).andThen fun l2 => some (.ok l2)
        else (readCharGo l).andThen (fun l1 => blockLoopGo fuel l1)
    else (readCharGo l).andThen (fun l1 => blockLoopGo fuel l1)

/-- `Lexer.skipBlockComment`, checked. -/
def skipBlockCommentGo (fuel : Nat) (l : Lexer) : Option (Run Lexer) :=
  (readCharGo l).andThen fun l1 => (readCharGo l1).andThen (fun l2 => blockLoopGo fuel l2)

/-- `Lexer.readIdentifier`, with its slice expression checked. -/
def readIdentifierGo (fuel : Nat) (l : Lexer) : Option (Run (GoString × Lexer)) :=
  let position := l.position
  andThenLoop (readWhileGo isLetter fuel l) fun l1 =>
    (sliceGo l1.input position l1.position).andThen fun s => some (.ok (s, l1))

/-- `Lexer.readNumber`, with its slice expression checked. -/
def readNumberGo (fuel : Nat) (l : Lexer) : Option (Run (GoString × Lexer)) :=
  let position := l.position
  andThenLoop (readWhileGo isDigit fuel l) fun l1 =>
    (sliceGo l1.input position l1.position).andThen fun s => some (.ok (s, l1))

/-- `Lexer.readString`, with its slice expression checked. -/
def readStringGo (fuel : Nat) (quote : Byte) (l : Lexer) : Option (Run (GoString × Lexer)) :=
  (readCharGo l).andThen fun l0 =>
    let position := l0.position
    andThenLoop (readWhileGo (notQuote quote) fuel l0) fun l1 =>
      (sliceGo l1.input position l1.position).andThen fun s => some (.ok (s, l1))

/-- The end of `NextToken` after the switch: `l.readChar()` and `return tok`. -/
def returnAfterReadChar (tok : Token) (l : Lexer) : Option (Run (Token × Lexer)) :=
  (readCharGo l).andThen fun l1 => some (.ok (tok, l1))

/-- The arm `case '/'` of `NextToken`; `again` is the recursive call. -/
def slashArmGo (fuel : Nat) (l : Lexer) (again : Lexer → Option (Run (Token × Lexer))) :
    Option (Run (Token × Lexer)) :=
  (peekCharGo l).andThen fun p =>
    if p = 47 then andThenLoop (skipLineCommentGo fuel l) again
    else
      (peekCharGo l).andThen fun p2 =>
        if p2 = 42 then andThenLoop (skipBlockCommentGo fuel l) again
        else returnAfterReadChar { Typ := .SLASH, Literal := string l.ch, Line := 0, Column := 0 } l

/-- The arms `case '"'` and `case '\''` of `NextToken`. -/
def stringArmGo (fuel : Nat) (quote : Byte) (tok : Token) (l : Lexer) :
    Option (Run (Token × Lexer)) :=
  andThenLoop (readStringGo fuel quote l) fun r =>
    returnAfterReadChar { tok with Typ := .STRING, Literal := r.1 } r.2

/-- The identifier arm of the `default` case of `NextToken`. -/
def identifierArmGo (fuel : Nat) (tok : Token) (l : Lexer) : Option (Run (Token × Lexer)) :=
  andThenLoop (readIdentifierGo fuel l) fun r =>
    some (.ok ({ tok with Literal := r.1, Typ := lookupIdent r.1 }, r.2))

/-- The number arm of the `default` case of `NextToken`. -/
def numberArmGo (fuel : Nat) (tok : Token) (l : Lexer) : Option (Run (Token × Lexer)) :=
  andThenLoop (readNumberGo fuel l) fun r =>
    some (.ok ({ tok with Typ := .INT, Literal := r.1 }, r.2))

/-- `Lexer.NextToken` over the checked operations: `none` when the step budget
is used up, `some .panic` when an index or slice expression is out of range. -/
def NextTokenGoFuel : Nat → Lexer → Option (Run (Token × Lexer))
  | 0, _ => none
  | fuel + 1, l0 =>
    andThenLoop (skipWhitespaceGo fuel l0) fun l =>
      let tok : Token := { Typ := .ILLEGAL, Literal := [], Line := l.line, Column := l.column }
      if l.ch = 61 then returnAfterReadChar { Typ := .ASSIGN, Literal := string l.ch, Line := 0, Column := 0 } l
      else if l.ch = 43 then returnAfterReadChar { Typ := .PLUS, Literal := string l.ch, Line := 0, Column := 0 } l
      else if l.ch = 45 then returnAfterReadChar { Typ := .MINUS, Literal := string l.ch, Line := 0, Column := 0 } l
      else if l.ch = 33 then returnAfterReadChar { Typ := .BANG, Literal := string l.ch, Line := 0, Column := 0 } l
      else if l.ch = 42 then returnAfterReadChar { Typ := .ASTERISK, Literal := string l.ch, Line := 0, Column := 0 } l
      else if l.ch = 47 then slashArmGo fuel l (fun l2 => NextTokenGoFuel fuel l2)
      else if l.ch = 60 then returnAfterReadChar { Typ := .LT, Literal := string l.ch, Line := 0, Column := 0 } l
      else if l.ch = 62 then returnAfterReadChar { Typ := .GT, Literal := string l.ch, Line := 0, Column := 0 } l
      else if l.ch = 44 then returnAfterReadChar { Typ := .COMMA, Literal := string l.ch, Line := 0, Column := 0 } l
      else if l.ch = 59 then returnAfterReadChar { Typ := .SEMICOLON, Literal := string l.ch, Line := 0, Column := 0 } l
      else if l.ch = 58 then returnAfterReadChar { Typ := .COLON, Literal := string l.ch, Line := 0, Column := 0 } l
      else if l.ch = 40 then returnAfterReadChar { Typ := .LPAREN, Literal := string l.ch, Line := 0, Column := 0 } l
      else if l.ch = 41 then returnAfterReadChar { Typ := .RPAREN, Literal := string l.ch, Line := 0, Column := 0 } l
      else if l.ch = 123 then returnAfterReadChar { Typ := .LBRACE, Literal := string l.ch, Line := 0, Column := 0 } l
      else if l.ch = 125 then returnAfterReadChar { Typ := .RBRACE, Literal := string l.ch, Line := 0, Column := 0 } l
      else if l.ch = 46 then returnAfterReadChar { Typ := .DOT, Literal := string l.ch, Line := 0, Column := 0 } l
      else if l.ch = 34 then stringArmGo fuel 34 tok l
      else if l.ch = 39 then stringArmGo fuel 39 tok l
      else if l.ch = 0 then returnAfterReadChar { tok with Literal := [], Typ := .EOF } l
      else if isLetter l.ch then identifierArmGo fuel tok l
      else if isDigit l.ch then numberArmGo fuel tok l
      else returnAfterReadChar { Typ := .ILLEGAL, Literal := string l.ch, Line := 0, Column := 0 } l

/-- The positions of a lexer are in order: `position ≤ readPosition` and
`position ≤ len(input)`. -/
def WellFormed (l : Lexer) : Prop :=
  l.position ≤ l.readPosition ∧ l.position ≤ l.input.length

/-! ## Lemmas: the switch of `NextToken` by character class -/

theorem dispatch_eq {α : Type} (c p : Byte) (pu : TokenType → α)
    (lc bc sl q1 q2 eo le di il : α) :
    (if c = 61 then pu .ASSIGN
      else if c = 43 then pu .PLUS
      else if c = 45 then pu .MINUS
      else if c = 33 then pu .BANG
      else if c = 42 then pu .ASTERISK
      else if c = 47 then
        if p = 47 then lc
        else if p = 42 then bc
        else sl
      else if c = 60 then pu .LT
      else if c = 62 then pu .GT
      else if c = 44 then pu .COMMA
      else if c = 59 then pu .SEMICOLON
      else if c = 58 then pu .COLON
      else if c = 40 then pu .LPAREN
      else if c = 41 then pu .RPAREN
      else if c = 123 then pu .LBRACE
      else if c = 125 then pu .RBRACE
      else if c = 46 then pu .DOT
      else if c = 34 then q1
      else if c = 39 then q2
      else if c = 0 then eo
      else if isLetter c then le
      else if isDigit c then di
      else il) =
    (if c = 47 ∧ p = 47 then lc
     else if c = 47 ∧ p = 42 then bc
     else match classify c with
      | .punct t => pu t
      | .slash => sl
      | .quote => if c = 34 then q1 else q2
      | .eof => eo
      | .letter => le
      | .digit => di
      | .illegal => il) := by
  by_cases h61 : c = 61
  · subst h61; rfl
  by_cases h43 : c = 43
  · subst h43; rfl
  by_cases h45 : c = 45
  · subst h45; rfl
  by_cases h33 : c = 33
  · subst h33; rfl
  by_cases h42 : c = 42
  · subst h42; rfl
  by_cases h47 : c = 47
  · subst h47
    by_cases hp : p = 47
    · subst hp; rfl
    · by_cases hq : p = 42
      · subst hq; rfl
      · rw [if_neg (by decide), if_neg (by decide), if_neg (by decide), if_neg (by decide),
          if_neg (by decide), if_pos rfl, if_neg hp, if_neg hq, if_neg (fun h => hp h.2),
          if_neg (fun h => hq h.2)]
        rfl
  by_cases h60 : c = 60
  · subst h60; rfl
  by_cases h62 : c = 62
  · subst h62; rfl
  by_cases h44 : c = 44
  · subst h44; rfl
  by_cases h59 : c = 59
  · subst h59; rfl
  by_cases h58 : c = 58
  · subst h58; rfl
  by_cases h40 : c = 40
  · subst h40; rfl
  by_cases h41 : c = 41
  · subst h41; rfl
  by_cases h123 : c = 123
  · subst h123; rfl
  by_cases h125 : c = 125
  · subst h125; rfl
  by_cases h46 : c = 46
  · subst h46; rfl
  by_cases h34 : c = 34
  · subst h34; rfl
  by_cases h39 : c = 39
  · subst h39; rfl
  by_cases h0 : c = 0
  · subst h0; rfl
  have hc : classify c = if isLetter c then .letter else if isDigit c then .digit else .illegal := by
    unfold classify
    rw [if_neg h61, if_neg h43, if_neg h45, if_neg h33, if_neg h42, if_neg h47, if_neg h60, if_neg h62, if_neg h44, if_neg h59, if_neg h58, if_neg h40, if_neg h41, if_neg h123, if_neg h125, if_neg h46, if_neg h34, if_neg h39, if_neg h0]
  have e1 : ¬(c = 47 ∧ p = 47) := fun h => h47 h.1
  have e2 : ¬(c = 47 ∧ p = 42) := fun h => h47 h.1
  rw [if_neg e1, if_neg e2, hc, if_neg h61, if_neg h43, if_neg h45, if_neg h33, if_neg h42, if_neg h47, if_neg h60, if_neg h62, if_neg h44, if_neg h59, if_neg h58, if_neg h40, if_neg h41, if_neg h123, if_neg h125, if_neg h46, if_neg h34, if_neg h39, if_neg h0]
  by_cases hl : isLetter c = true
  · rw [if_pos hl, if_pos hl]
  · rw [if_neg hl, if_neg hl]
    by_cases hd : isDigit c = true
    · rw [if_pos hd, if_pos hd]
    · rw [if_neg hd, if_neg hd]

set_option maxRecDepth 100000 in
theorem classify_quote (c : Byte) (h : classify c = .quote) : c = 34 ∨ c = 39 := by
  revert c; decide

theorem classify_zero : classify 0 = .eof := by decide

theorem NextTokenFuel_succ (fuel : Nat) (l0 : Lexer) :
    NextTokenFuel (fuel + 1) l0 =
      match skipWhitespace fuel l0 with
      | none => none
      | some l =>
        if l.ch = 47 ∧ peekChar l = 47 then
          match skipLineComment fuel l with
          | none => none
          | some l2 => NextTokenFuel fuel l2
        else if l.ch = 47 ∧ peekChar l = 42 then
          match skipBlockComment fuel l with
          | none => none
          | some l2 => NextTokenFuel fuel l2
        else scanToken fuel l := by
  rw [NextTokenFuel]
  cases hws : skipWhitespace fuel l0 with
  | none => rfl
  | some l =>
    dsimp only
    refine (dispatch_eq l.ch (peekChar l)
      (fun t => some (({ Typ := t, Literal := string l.ch, Line := 0, Column := 0 } : Token), readChar l))
      _ _ _ _ _ _ _ _ _).trans ?_
    congr 1; congr 1
    unfold scanToken
    cases hcl : classify l.ch <;> simp only []
    rcases classify_quote _ hcl with h | h
    · rw [if_pos h, h]
    · rw [if_neg (by rw [h]; decide), h]

/-! ### readChar -/

theorem readChar_of_ge (l : Lexer) (h : l.input.length ≤ l.readPosition) :
    readChar l = { l with ch := 0 } := by
  unfold readChar; rw [if_pos h]

theorem readChar_of_lt (l : Lexer) (h : l.readPosition < l.input.length) :
    (readChar l).input = l.input ∧ (readChar l).position = l.readPosition ∧
    (readChar l).readPosition = l.readPosition + 1 ∧
    (readChar l).ch = l.input.getD l.readPosition 0 := by
  unfold readChar
  rw [if_neg (by omega)]
  dsimp only
  split_ifs with hc
  · exact ⟨rfl, rfl, rfl, rfl⟩
  · exact ⟨rfl, rfl, rfl, rfl⟩

theorem readChar_input (l : Lexer) : (readChar l).input = l.input := by
  rcases Nat.lt_or_ge l.readPosition l.input.length with h | h
  · exact (readChar_of_lt l h).1
  · rw [readChar_of_ge l h]

theorem readChar_remaining_le (l : Lexer) : remaining (readChar l) ≤ remaining l := by
  rcases Nat.lt_or_ge l.readPosition l.input.length with h | h
  · obtain ⟨h1, _, h3, _⟩ := readChar_of_lt l h
    unfold remaining
    rw [h1, h3]
    split_ifs <;> omega
  · rw [readChar_of_ge l h]
    unfold remaining
    simp only [if_true]
    omega

theorem readChar_remaining_lt (l : Lexer) (hch : l.ch ≠ 0) :
    remaining (readChar l) < remaining l := by
  rcases Nat.lt_or_ge l.readPosition l.input.length with h | h
  · obtain ⟨h1, _, h3, _⟩ := readChar_of_lt l h
    unfold remaining
    rw [h1, h3, if_neg hch]
    split_ifs <;> omega
  · rw [readChar_of_ge l h]
    unfold remaining
    simp only [if_true]
    rw [if_neg hch]
    omega

/-! ### The loops terminate within their budget -/

theorem readWhile_mono (cond : Byte → Bool) {n m : Nat} {l r : Lexer}
    (h : readWhile cond n l = some r) (hnm : n ≤ m) : readWhile cond m l = some r := by
  induction n generalizing m l with
  | zero => simp [readWhile] at h
  | succ n ih =>
    obtain ⟨m, rfl⟩ : ∃ k, m = k + 1 := ⟨m - 1, by omega⟩
    rw [readWhile] at h ⊢
    split_ifs at h ⊢ with hc
    · exact ih h (by omega)
    · exact h

theorem readWhile_total (cond : Byte → Bool) (h0 : cond 0 = false) (n : Nat) (l : Lexer)
    (hn : remaining l + 1 ≤ n) : ∃ r, readWhile cond n l = some r := by
  induction n generalizing l with
  | zero => omega
  | succ n ih =>
    rw [readWhile]
    split_ifs with hc
    · have hne : l.ch ≠ 0 := by rintro h; rw [h, h0] at hc; cases hc
      have := readChar_remaining_lt l hne
      exact ih _ (by omega)
    · exact ⟨l, rfl⟩

theorem readWhile_props (cond : Byte → Bool) {n : Nat} {l r : Lexer}
    (h : readWhile cond n l = some r) :
    r.input = l.input ∧ remaining r ≤ remaining l ∧ cond r.ch = false := by
  induction n generalizing l with
  | zero => simp [readWhile] at h
  | succ n ih =>
    rw [readWhile] at h
    split_ifs at h with hc
    · obtain ⟨h1, h2, h3⟩ := ih h
      have := readChar_remaining_le l
      exact ⟨h1.trans (readChar_input l), by omega, h3⟩
    · cases h
      exact ⟨rfl, le_refl _, by simpa using hc⟩

theorem blockLoop_mono {n m : Nat} {l r : Lexer}
    (h : blockLoop n l = some r) (hnm : n ≤ m) : blockLoop m l = some r := by
  induction n generalizing m l with
  | zero => simp [blockLoop] at h
  | succ n ih =>
    obtain ⟨m, rfl⟩ : ∃ k, m = k + 1 := ⟨m - 1, by omega⟩
    rw [blockLoop] at h ⊢
    split_ifs at h ⊢
    · exact h
    · exact h
    · exact ih h (by omega)

theorem blockLoop_total (n : Nat) (l : Lexer)
    (hn : remaining l + 1 ≤ n) : ∃ r, blockLoop n l = some r := by
  induction n generalizing l with
  | zero => omega
  | succ n ih =>
    rw [blockLoop]
    split_ifs with h0 h1
    · exact ⟨_, rfl⟩
    · exact ⟨_, rfl⟩
    · have := readChar_remaining_lt l h0
      exact ih _ (by omega)

theorem blockLoop_props {n : Nat} {l r : Lexer}
    (h : blockLoop n l = some r) :
    r.input = l.input ∧ remaining r ≤ remaining l := by
  induction n generalizing l with
  | zero => simp [blockLoop] at h
  | succ n ih =>
    rw [blockLoop] at h
    split_ifs at h with h0 h1
    · cases h; exact ⟨rfl, le_refl _⟩
    · cases h
      have := readChar_remaining_le l
      have := readChar_remaining_le (readChar l)
      exact ⟨by rw [readChar_input, readChar_input], by omega⟩
    · obtain ⟨h1, h2⟩ := ih h
      have := readChar_remaining_le l
      exact ⟨h1.trans (readChar_input l), by omega⟩

/-! ### One token -/

set_option maxRecDepth 100000 in
theorem classify_letter (c : Byte) (h : classify c = .letter) : isLetter c = true := by
  revert c; decide

set_option maxRecDepth 100000 in
theorem classify_digit (c : Byte) (h : classify c = .digit) : isDigit c = true := by
  revert c; decide

theorem classify_ne_zero (c : Byte) (h : classify c ≠ .eof) : c ≠ 0 := by
  rintro rfl; exact h classify_zero

theorem isLetter_zero : isLetter 0 = false := by decide
theorem isDigit_zero : isDigit 0 = false := by decide
theorem isSpace_zero : isSpace 0 = false := by decide
theorem notEol_zero : notEol 0 = false := by decide
theorem notQuote_zero (q : Byte) : notQuote q 0 = false := by simp [notQuote]

theorem readWhile_lt (cond : Byte → Bool) {n : Nat} {l r : Lexer}
    (h : readWhile cond n l = some r) (hc : cond l.ch = true) (hne : l.ch ≠ 0) :
    remaining r < remaining l := by
  cases n with
  | zero => simp [readWhile] at h
  | succ n =>
    rw [readWhile, if_pos hc] at h
    have := (readWhile_props cond h).2.1
    have := readChar_remaining_lt l hne
    omega

theorem scanToken_mono {n m : Nat} {l : Lexer} {r : Token × Lexer}
    (h : scanToken n l = some r) (hnm : n ≤ m) : scanToken m l = some r := by
  unfold scanToken at h ⊢
  cases hcl : classify l.ch <;> rw [hcl] at h <;> simp only [] at h ⊢
  any_goals exact h
  · unfold readString at h ⊢
    simp only [] at h ⊢
    cases hr : readWhile (notQuote l.ch) n (readChar l) with
    | none => rw [hr] at h; cases h
    | some l1 => rw [hr] at h; rw [readWhile_mono _ hr hnm]; exact h
  · unfold readIdentifier at h ⊢
    simp only [] at h ⊢
    cases hr : readWhile isLetter n l with
    | none => rw [hr] at h; cases h
    | some l1 => rw [hr] at h; rw [readWhile_mono _ hr hnm]; exact h
  · unfold readNumber at h ⊢
    simp only [] at h ⊢
    cases hr : readWhile isDigit n l with
    | none => rw [hr] at h; cases h
    | some l1 => rw [hr] at h; rw [readWhile_mono _ hr hnm]; exact h

theorem scanToken_total (n : Nat) (l : Lexer) (hn : remaining l + 1 ≤ n) :
    ∃ r, scanToken n l = some r := by
  unfold scanToken
  cases hcl : classify l.ch <;> simp only []
  any_goals exact ⟨_, rfl⟩
  · unfold readString
    simp only []
    have := readChar_remaining_le l
    obtain ⟨r, hr⟩ := readWhile_total (notQuote l.ch) (notQuote_zero _) n (readChar l) (by omega)
    rw [hr]; exact ⟨_, rfl⟩
  · unfold readIdentifier
    simp only []
    obtain ⟨r, hr⟩ := readWhile_total isLetter isLetter_zero n l hn
    rw [hr]; exact ⟨_, rfl⟩
  · unfold readNumber
    simp only []
    obtain ⟨r, hr⟩ := readWhile_total isDigit isDigit_zero n l hn
    rw [hr]; exact ⟨_, rfl⟩

theorem scanToken_props {n : Nat} {l : Lexer} {r : Token × Lexer}
    (h : scanToken n l = some r) :
    r.2.input = l.input ∧ remaining r.2 ≤ remaining l ∧
      (r.1.Typ ≠ .EOF → remaining r.2 < remaining l) := by
  unfold scanToken at h
  cases hcl : classify l.ch <;> rw [hcl] at h <;> simp only [] at h
  case eof =>
    cases h
    exact ⟨readChar_input l, readChar_remaining_le l, fun hne => absurd rfl hne⟩
  case quote =>
    have hne := classify_ne_zero l.ch (by rw [hcl]; decide)
    unfold readString at h
    simp only [] at h
    cases hr : readWhile (notQuote l.ch) n (readChar l) with
    | none => rw [hr] at h; cases h
    | some l1 =>
      rw [hr] at h; cases h
      obtain ⟨h1, h2, _⟩ := readWhile_props _ hr
      have := readChar_remaining_lt l hne
      have := readChar_remaining_le l1
      refine ⟨by rw [readChar_input, h1, readChar_input], by dsimp only; omega,
        fun _ => by dsimp only; omega⟩
  case letter =>
    have hne := classify_ne_zero l.ch (by rw [hcl]; decide)
    unfold readIdentifier at h
    simp only [] at h
    cases hr : readWhile isLetter n l with
    | none => rw [hr] at h; cases h
    | some l1 =>
      rw [hr] at h; cases h
      have := readWhile_lt _ hr (classify_letter _ hcl) hne
      exact ⟨(readWhile_props _ hr).1, by dsimp only; omega, fun _ => this⟩
  case digit =>
    have hne := classify_ne_zero l.ch (by rw [hcl]; decide)
    unfold readNumber at h
    simp only [] at h
    cases hr : readWhile isDigit n l with
    | none => rw [hr] at h; cases h
    | some l1 =>
      rw [hr] at h; cases h
      have := readWhile_lt _ hr (classify_digit _ hcl) hne
      exact ⟨(readWhile_props _ hr).1, by dsimp only; omega, fun _ => this⟩
  all_goals
    have hne := classify_ne_zero l.ch (by rw [hcl]; exact fun e => CharClass.noConfusion e)
    cases h
    have := readChar_remaining_lt l hne
    exact ⟨readChar_input l, by dsimp only; omega, fun _ => this⟩

theorem NextTokenFuel_mono {n m : Nat} {l : Lexer} {r : Token × Lexer}
    (h : NextTokenFuel n l = some r) (hnm : n ≤ m) : NextTokenFuel m l = some r := by
  induction n generalizing m l with
  | zero => simp [NextTokenFuel] at h
  | succ n ih =>
    obtain ⟨m, rfl⟩ : ∃ k, m = k + 1 := ⟨m - 1, by omega⟩
    have hnm' : n ≤ m := by omega
    rw [NextTokenFuel_succ] at h ⊢
    cases hws : skipWhitespace n l with
    | none => rw [hws] at h; cases h
    | some l1 =>
      rw [hws] at h
      rw [show skipWhitespace m l = some l1 from readWhile_mono _ hws hnm']
      dsimp only at h ⊢
      split_ifs at h ⊢ with h1 h2
      · cases hc : skipLineComment n l1 with
        | none => rw [hc] at h; cases h
        | some l2 =>
          rw [hc] at h
          rw [show skipLineComment m l1 = some l2 from readWhile_mono _ hc hnm']
          exact ih h hnm'
      · cases hc : skipBlockComment n l1 with
        | none => rw [hc] at h; cases h
        | some l2 =>
          rw [hc] at h
          rw [show skipBlockComment m l1 = some l2 from blockLoop_mono hc hnm']
          exact ih h hnm'
      · exact scanToken_mono h hnm'

theorem NextTokenFuel_props {n : Nat} {l : Lexer} {r : Token × Lexer}
    (h : NextTokenFuel n l = some r) :
    r.2.input = l.input ∧ remaining r.2 ≤ remaining l ∧
      (r.1.Typ ≠ .EOF → remaining r.2 < remaining l) := by
  induction n generalizing l with
  | zero => simp [NextTokenFuel] at h
  | succ n ih =>
    rw [NextTokenFuel_succ] at h
    cases hws : skipWhitespace n l with
    | none => rw [hws] at h; cases h
    | some l1 =>
      rw [hws] at h
      obtain ⟨w1, w2, _⟩ := readWhile_props _ hws
      dsimp only at h
      split_ifs at h with h1 h2
      · cases hc : skipLineComment n l1 with
        | none => rw [hc] at h; cases h
        | some l2 =>
          rw [hc] at h
          obtain ⟨c1, c2, _⟩ := readWhile_props _ hc
          rw [readChar_input] at c1
          have := readChar_remaining_lt l1 (by rw [h1.1]; decide)
          obtain ⟨i1, i2, i3⟩ := ih h
          exact ⟨by rw [i1, c1, w1], by omega, fun _ => by omega⟩
      · cases hc : skipBlockComment n l1 with
        | none => rw [hc] at h; cases h
        | some l2 =>
          rw [hc] at h
          obtain ⟨c1, c2⟩ := blockLoop_props hc
          rw [readChar_input, readChar_input] at c1
          have := readChar_remaining_lt l1 (by rw [h2.1]; decide)
          have := readChar_remaining_le (readChar l1)
          obtain ⟨i1, i2, i3⟩ := ih h
          exact ⟨by rw [i1, c1, w1], by omega, fun _ => by omega⟩
      · obtain ⟨i1, i2, i3⟩ := scanToken_props h
        exact ⟨by rw [i1, w1], by omega, fun hne => by have := i3 hne; omega⟩

theorem NextTokenFuel_total (n : Nat) (l : Lexer) (hn : remaining l + 2 ≤ n) :
    ∃ r, NextTokenFuel n l = some r := by
  induction n generalizing l with
  | zero => omega
  | succ n ih =>
    rw [NextTokenFuel_succ]
    obtain ⟨l1, hws⟩ := readWhile_total isSpace isSpace_zero n l (by omega)
    obtain ⟨w1, w2, _⟩ := readWhile_props _ hws
    rw [show skipWhitespace n l = some l1 from hws]
    dsimp only
    split_ifs with h1 h2
    · have := readChar_remaining_lt l1 (by rw [h1.1]; decide)
      obtain ⟨l2, hc⟩ := readWhile_total notEol notEol_zero n (readChar l1) (by omega)
      obtain ⟨c1, c2, _⟩ := readWhile_props _ hc
      rw [show skipLineComment n l1 = some l2 from hc]
      exact ih l2 (by omega)
    · have := readChar_remaining_lt l1 (by rw [h2.1]; decide)
      have := readChar_remaining_le (readChar l1)
      obtain ⟨l2, hc⟩ := blockLoop_total n (readChar (readChar l1)) (by omega)
      obtain ⟨c1, c2⟩ := blockLoop_props hc
      rw [show skipBlockComment n l1 = some l2 from hc]
      exact ih l2 (by omega)
    · exact scanToken_total n l1 (by omega)

theorem remaining_le_bound (l : Lexer) : remaining l + 2 ≤ fuelBound l := by
  unfold remaining fuelBound; split_ifs <;> omega

theorem NextTokenFuel_fuelBound (l : Lexer) :
    NextTokenFuel (fuelBound l) l = some (NextToken l) := by
  obtain ⟨r, hr⟩ := NextTokenFuel_total (fuelBound l) l (remaining_le_bound l)
  unfold NextToken
  rw [hr]

theorem NextTokenFuel_eq {n : Nat} {l : Lexer} (hn : remaining l + 2 ≤ n) :
    NextTokenFuel n l = some (NextToken l) := by
  obtain ⟨r, hr⟩ := NextTokenFuel_total n l hn
  rcases Nat.le_total n (fuelBound l) with h | h
  · have := NextTokenFuel_mono hr h
    rw [NextTokenFuel_fuelBound] at this
    rw [hr, this]
  · exact NextTokenFuel_mono (NextTokenFuel_fuelBound l) h

theorem NextTokenFuel_some {n : Nat} {l : Lexer} {r : Token × Lexer}
    (h : NextTokenFuel n l = some r) : NextToken l = r := by
  rcases Nat.le_total n (fuelBound l) with hle | hle
  · have := NextTokenFuel_mono h hle
    rw [NextTokenFuel_fuelBound] at this
    exact (Option.some.inj this)
  · have := NextTokenFuel_mono (NextTokenFuel_fuelBound l) hle
    rw [h] at this
    exact (Option.some.inj this).symm

theorem NextToken_props (l : Lexer) :
    (NextToken l).2.input = l.input ∧ remaining (NextToken l).2 ≤ remaining l ∧
      ((NextToken l).1.Typ ≠ .EOF → remaining (NextToken l).2 < remaining l) :=
  NextTokenFuel_props (NextTokenFuel_fuelBound l)

/-! ### Sequences of calls -/

theorem afterCalls_succ (k : Nat) (l : Lexer) :
    afterCalls (k + 1) l = (NextToken (afterCalls k l)).2 := by
  induction k generalizing l with
  | zero => rfl
  | succ k ih => rw [afterCalls, ih, afterCalls]

theorem afterCalls_input (k : Nat) (l : Lexer) : (afterCalls k l).input = l.input := by
  induction k with
  | zero => rfl
  | succ k ih => rw [afterCalls_succ, (NextToken_props _).1, ih]

theorem remaining_afterCalls (k : Nat) (l : Lexer)
    (h : ∀ j, j < k → (nthToken j l).Typ ≠ .EOF) :
    remaining (afterCalls k l) + k ≤ remaining l := by
  induction k with
  | zero => simp [afterCalls]
  | succ k ih =>
    have h1 := ih (fun j hj => h j (by omega))
    have h2 := (NextToken_props (afterCalls k l)).2.2 (h k (by omega))
    rw [afterCalls_succ]
    omega

theorem remaining_New (input : GoString) : remaining (New input) ≤ input.length := by
  unfold New
  cases input with
  | nil => decide
  | cons b t =>
    obtain ⟨h1, _, h3, _⟩ := readChar_of_lt
      { input := b :: t, position := 0, readPosition := 0, ch := 0, line := 1, column := 0 }
      (by simp)
    unfold remaining
    rw [h1, h3]
    split_ifs <;> simp

/-- C2: every call of `NextToken` terminates: from any lexer state every
budget of at least `fuelBound l` steps yields the result `NextToken l`, the
re-entry after a comment included; a call that returns a non-EOF token leaves
strictly fewer bytes unconsumed; and so one of the first `n + 1` calls on a fresh
lexer over `n` input bytes returns EOF. -/
theorem NextToken_terminates_reaches_EOF (input : GoString) :
    (∀ (l : Lexer) (extra : Nat),
        NextTokenFuel (fuelBound l + extra) l = some (NextToken l)) ∧
    (∀ l : Lexer, (NextToken l).1.Typ ≠ .EOF →
        remaining (NextToken l).2 < remaining l) ∧
    (∃ k, k ≤ input.length ∧ (nthToken k (New input)).Typ = .EOF) := by
  refine ⟨fun l extra => NextTokenFuel_eq (by have := remaining_le_bound l; omega),
    fun l => (NextToken_props l).2.2, ?_⟩
  by_contra hno
  have hall : ∀ j, j < input.length + 1 → (nthToken j (New input)).Typ ≠ .EOF :=
    fun j hj he => hno ⟨j, by omega, he⟩
  have h1 := remaining_afterCalls (input.length + 1) (New input) hall
  have h2 := remaining_New input
  omega

theorem NextToken_terminates_reaches_EOF_witness :
    ∃ k, k ≤ 2 ∧ (nthToken k (New (str "a;"))).Typ = .EOF :=
  (NextToken_terminates_reaches_EOF (str "a;")).2.2

/-! ### End of input on NUL-free sources -/


theorem getD_ne_zero {s : GoString} (hs : ∀ b ∈ s, b ≠ 0) {i : Nat} (hi : i < s.length) :
    s.getD i 0 ≠ 0 := by
  rw [List.getD_eq_getElem _ _ hi]
  exact hs _ (List.getElem_mem hi)

theorem readChar_eofOnlyAtEnd (l : Lexer) (hs : ∀ b ∈ l.input, b ≠ 0) :
    eofOnlyAtEnd (readChar l) := by
  intro h0
  rcases Nat.lt_or_ge l.readPosition l.input.length with h | h
  · obtain ⟨_, _, _, h4⟩ := readChar_of_lt l h
    rw [h4] at h0
    exact absurd h0 (getD_ne_zero hs h)
  · rw [readChar_of_ge l h]; exact h

theorem readWhile_eofOnlyAtEnd (cond : Byte → Bool) {n : Nat} {l r : Lexer}
    (hs : ∀ b ∈ l.input, b ≠ 0) (hl : eofOnlyAtEnd l)
    (h : readWhile cond n l = some r) : eofOnlyAtEnd r := by
  induction n generalizing l with
  | zero => simp [readWhile] at h
  | succ n ih =>
    rw [readWhile] at h
    split_ifs at h
    · exact ih (by rw [readChar_input]; exact hs) (readChar_eofOnlyAtEnd l hs) h
    · cases h; exact hl

theorem blockLoop_eofOnlyAtEnd {n : Nat} {l r : Lexer}
    (hs : ∀ b ∈ l.input, b ≠ 0) (hl : eofOnlyAtEnd l)
    (h : blockLoop n l = some r) : eofOnlyAtEnd r := by
  induction n generalizing l with
  | zero => simp [blockLoop] at h
  | succ n ih =>
    rw [blockLoop] at h
    split_ifs at h
    · cases h; exact hl
    · cases h; exact readChar_eofOnlyAtEnd _ (by rw [readChar_input]; exact hs)
    · exact ih (by rw [readChar_input]; exact hs) (readChar_eofOnlyAtEnd l hs) h

theorem lookupIdent_ne_EOF (s : GoString) : lookupIdent s ≠ .EOF := by
  unfold lookupIdent
  split_ifs <;> exact fun e => TokenType.noConfusion e

set_option maxRecDepth 100000 in
theorem classify_ne_punct_EOF (c : Byte) : classify c ≠ .punct .EOF := by
  revert c; decide

set_option maxRecDepth 100000 in
theorem classify_eof (c : Byte) (h : classify c = .eof) : c = 0 := by
  revert c; decide

theorem readChar_at_end (l : Lexer) (h0 : l.ch = 0) (hl : l.input.length ≤ l.readPosition) :
    readChar l = l := by
  rw [readChar_of_ge l hl]
  cases l; simp_all

/-- What `scanToken` leaves behind when it returns `EOF` (or anything else) on
a NUL-free input. -/
theorem scanToken_eofOnlyAtEnd {n : Nat} {l : Lexer} {r : Token × Lexer}
    (hs : ∀ b ∈ l.input, b ≠ 0) (hl : eofOnlyAtEnd l) (h : scanToken n l = some r) :
    eofOnlyAtEnd r.2 ∧ (r.1.Typ = .EOF → r.2.ch = 0) := by
  unfold scanToken at h
  cases hcl : classify l.ch <;> rw [hcl] at h <;> simp only [] at h
  case eof =>
    cases h
    exact ⟨readChar_eofOnlyAtEnd l hs, fun _ => by
      have h0 : l.ch = 0 := classify_eof _ hcl
      show (readChar l).ch = 0
      rw [readChar_at_end l h0 (hl h0)]; exact h0⟩
  case punct t =>
    cases h
    exact ⟨readChar_eofOnlyAtEnd l hs, fun e => by
      exfalso; simp only [] at e; subst e; exact classify_ne_punct_EOF _ hcl⟩
  case quote =>
    unfold readString at h
    simp only [] at h
    cases hr : readWhile (notQuote l.ch) n (readChar l) with
    | none => rw [hr] at h; cases h
    | some l1 =>
      rw [hr] at h; cases h
      have hi := (readWhile_props _ hr).1
      exact ⟨readChar_eofOnlyAtEnd l1 (by rw [hi, readChar_input]; exact hs),
        fun e => TokenType.noConfusion e⟩
  case letter =>
    unfold readIdentifier at h
    simp only [] at h
    cases hr : readWhile isLetter n l with
    | none => rw [hr] at h; cases h
    | some l1 =>
      rw [hr] at h; cases h
      exact ⟨readWhile_eofOnlyAtEnd _ hs hl hr, fun e => absurd e (lookupIdent_ne_EOF _)⟩
  case digit =>
    unfold readNumber at h
    simp only [] at h
    cases hr : readWhile isDigit n l with
    | none => rw [hr] at h; cases h
    | some l1 =>
      rw [hr] at h; cases h
      exact ⟨readWhile_eofOnlyAtEnd _ hs hl hr, fun e => TokenType.noConfusion e⟩
  all_goals
    cases h
    exact ⟨readChar_eofOnlyAtEnd l hs, fun e => TokenType.noConfusion e⟩

theorem NextTokenFuel_eofOnlyAtEnd {n : Nat} {l : Lexer} {r : Token × Lexer}
    (hs : ∀ b ∈ l.input, b ≠ 0) (hl : eofOnlyAtEnd l) (h : NextTokenFuel n l = some r) :
    eofOnlyAtEnd r.2 ∧ (r.1.Typ = .EOF → r.2.ch = 0) := by
  induction n generalizing l with
  | zero => simp [NextTokenFuel] at h
  | succ n ih =>
    rw [NextTokenFuel_succ] at h
    cases hws : skipWhitespace n l with
    | none => rw [hws] at h; cases h
    | some l1 =>
      rw [hws] at h
      have w1 := (readWhile_props _ hws).1
      have hs1 : ∀ b ∈ l1.input, b ≠ 0 := by rw [w1]; exact hs
      have hl1 := readWhile_eofOnlyAtEnd _ hs hl hws
      dsimp only at h
      split_ifs at h with h1 h2
      · cases hc : skipLineComment n l1 with
        | none => rw [hc] at h; cases h
        | some l2 =>
          rw [hc] at h
          have c1 := (readWhile_props _ hc).1
          rw [readChar_input] at c1
          exact ih (by rw [c1]; exact hs1)
            (readWhile_eofOnlyAtEnd _ (by rw [readChar_input]; exact hs1)
              (readChar_eofOnlyAtEnd l1 hs1) hc) h
      · cases hc : skipBlockComment n l1 with
        | none => rw [hc] at h; cases h
        | some l2 =>
          rw [hc] at h
          have c1 := (blockLoop_props hc).1
          rw [readChar_input, readChar_input] at c1
          exact ih (by rw [c1]; exact hs1)
            (blockLoop_eofOnlyAtEnd (by rw [readChar_input, readChar_input]; exact hs1)
              (readChar_eofOnlyAtEnd _ (by rw [readChar_input]; exact hs1)) hc) h
      · exact scanToken_eofOnlyAtEnd hs1 hl1 h

theorem New_eofOnlyAtEnd (input : GoString) (hs : ∀ b ∈ input, b ≠ 0) :
    eofOnlyAtEnd (New input) :=
  readChar_eofOnlyAtEnd _ hs

theorem New_input (input : GoString) : (New input).input = input := readChar_input _

/-- At the real end of the input `NextToken` returns `EOF` and changes nothing. -/
theorem NextToken_at_end (l : Lexer) (h0 : l.ch = 0) (hl : l.input.length ≤ l.readPosition) :
    NextToken l = ({ Typ := .EOF, Literal := [], Line := l.line, Column := l.column }, l) := by
  apply NextTokenFuel_some (n := 2)
  rw [NextTokenFuel_succ]
  have hws : skipWhitespace 1 l = some l := by
    unfold skipWhitespace
    rw [readWhile, h0, isSpace_zero]; rfl
  rw [hws]
  dsimp only
  rw [if_neg (fun h => absurd (h0.symm.trans h.1) (by decide)),
    if_neg (fun h => absurd (h0.symm.trans h.1) (by decide))]
  unfold scanToken
  rw [h0, classify_zero]
  dsimp only
  rw [readChar_at_end l h0 hl]

theorem afterCalls_eofOnlyAtEnd (input : GoString) (hs : ∀ b ∈ input, b ≠ 0) (k : Nat) :
    eofOnlyAtEnd (afterCalls k (New input)) := by
  induction k with
  | zero => exact New_eofOnlyAtEnd input hs
  | succ k ih =>
    rw [afterCalls_succ]
    exact (NextTokenFuel_eofOnlyAtEnd (by rw [afterCalls_input, New_input]; exact hs) ih
      (NextTokenFuel_fuelBound _)).1

/-- C1 (as amended): on an input without NUL bytes, once a call of `NextToken`
has returned `EOF`, every later call on the same lexer returns `EOF`. -/
theorem EOF_idempotent_of_no_NUL (input : GoString) (hs : ∀ b ∈ input, b ≠ 0)
    (j k : Nat) (hjk : j ≤ k) (hj : (nthToken j (New input)).Typ = .EOF) :
    (nthToken k (New input)).Typ = .EOF := by
  have key : ∀ d, (afterCalls (j + 1 + d) (New input)).ch = 0 ∧
      (afterCalls (j + 1 + d) (New input)).input.length ≤
        (afterCalls (j + 1 + d) (New input)).readPosition := by
    intro d
    induction d with
    | zero =>
      have hinv := afterCalls_eofOnlyAtEnd input hs j
      have hstep := NextTokenFuel_eofOnlyAtEnd
        (by rw [afterCalls_input, New_input]; exact hs) hinv (NextTokenFuel_fuelBound _)
      have h0 : (afterCalls (j + 1) (New input)).ch = 0 := by
        rw [afterCalls_succ]; exact hstep.2 hj
      exact ⟨h0, afterCalls_eofOnlyAtEnd input hs (j + 1) h0⟩
    | succ d ih =>
      have : j + 1 + (d + 1) = (j + 1 + d) + 1 := by omega
      rw [this, afterCalls_succ, NextToken_at_end _ ih.1 ih.2]
      exact ih
  rcases Nat.eq_or_lt_of_le hjk with rfl | hlt
  · exact hj
  · obtain ⟨d, rfl⟩ : ∃ d, k = j + 1 + d := ⟨k - (j + 1), by omega⟩
    unfold nthToken
    rw [NextToken_at_end _ (key d).1 (key d).2]

set_option maxRecDepth 100000 in
theorem EOF_idempotent_of_no_NUL_witness :
    (nthToken 3 (New (str "x;"))).Typ = .EOF :=
  EOF_idempotent_of_no_NUL (str "x;") (by decide) 2 3 (by decide) (by decide)

/-- C1 (counterexample): on the two-byte input NUL `;` the first call of
`NextToken` returns `EOF` and the second call returns `SEMICOLON`. -/
theorem EOF_not_idempotent_with_NUL :
    (nthToken 0 (New [0, 59])).Typ = .EOF ∧ (nthToken 1 (New [0, 59])).Typ = .SEMICOLON := by
  decide

/-! ### Tokens that need no loop -/

theorem skipWhitespace_of_not_space {n : Nat} {l : Lexer} (h : isSpace l.ch = false) :
    skipWhitespace (n + 1) l = some l := by
  unfold skipWhitespace
  rw [readWhile, h]; rfl

/-- When the current byte is neither whitespace nor the start of a comment,
`NextToken` is the arm of the switch. -/
theorem NextToken_of_scanToken {n : Nat} {l : Lexer} {r : Token × Lexer}
    (hsp : isSpace l.ch = false)
    (h1 : ¬(l.ch = 47 ∧ peekChar l = 47)) (h2 : ¬(l.ch = 47 ∧ peekChar l = 42))
    (h : scanToken n l = some r) : NextToken l = r := by
  apply NextTokenFuel_some (n := n + 2)
  rw [NextTokenFuel_succ, skipWhitespace_of_not_space hsp]
  dsimp only
  rw [if_neg h1, if_neg h2]
  exact scanToken_mono h (by omega)

theorem New_cons (b : Byte) (rest : GoString) :
    (New (b :: rest)).input = b :: rest ∧ (New (b :: rest)).position = 0 ∧
    (New (b :: rest)).readPosition = 1 ∧ (New (b :: rest)).ch = b := by
  obtain ⟨h1, h2, h3, h4⟩ := readChar_of_lt
    { input := b :: rest, position := 0, readPosition := 0, ch := 0, line := 1, column := 0 }
    (by simp)
  exact ⟨h1, h2, h3, h4⟩

set_option maxRecDepth 100000 in
theorem classify_punct_aux : ∀ c : Byte,
    (isSpace c = false ∧ c ≠ 47 ∧ c.val < 128 ∧ classify c ≠ .punct .EOF ∧
      classify c ≠ .punct .EQ ∧ classify c ≠ .punct .NOT_EQ) ∨
    classify c = .slash ∨ classify c = .quote ∨ classify c = .eof ∨ classify c = .letter ∨
    classify c = .digit ∨ classify c = .illegal := by
  decide

theorem classify_punct_not_space (c : Byte) (t : TokenType) (h : classify c = .punct t) :
    isSpace c = false ∧ c ≠ 47 ∧ c.val < 128 ∧ t ≠ .EOF ∧ t ≠ .EQ ∧ t ≠ .NOT_EQ := by
  rcases classify_punct_aux c with ⟨h1, h2, h3, h4, h5, h6⟩ | h' | h' | h' | h' | h' | h'
  · rw [h] at h4 h5 h6
    exact ⟨h1, h2, h3, fun e => h4 (by rw [e]), fun e => h5 (by rw [e]), fun e => h6 (by rw [e])⟩
  all_goals (rw [h] at h'; cases h')

theorem string_ascii (c : Byte) (h : c.val < 128) : string c = [c] := by
  unfold string; rw [if_pos h]

theorem NextToken_punct {l : Lexer} {t : TokenType} (h : classify l.ch = .punct t) :
    NextToken l = ({ Typ := t, Literal := [l.ch], Line := 0, Column := 0 }, readChar l) := by
  obtain ⟨hsp, h47, hlt, _⟩ := classify_punct_not_space _ _ h
  apply NextToken_of_scanToken (n := 0) hsp (fun e => h47 e.1) (fun e => h47 e.1)
  unfold scanToken
  rw [h]
  dsimp only
  rw [string_ascii _ hlt]

theorem peekChar_New_cons (b : Byte) (rest : GoString) :
    peekChar (New (b :: rest)) = rest.headD 0 := by
  obtain ⟨h1, _, h3, _⟩ := New_cons b rest
  unfold peekChar
  rw [h1, h3]
  cases rest with
  | nil => rfl
  | cons c t => simp

theorem NextToken_slash {l : Lexer} (h : l.ch = 47)
    (h1 : peekChar l ≠ 47) (h2 : peekChar l ≠ 42) :
    NextToken l = ({ Typ := .SLASH, Literal := [47], Line := 0, Column := 0 }, readChar l) := by
  apply NextToken_of_scanToken (n := 0) (by rw [h]; decide) (fun e => h1 e.2) (fun e => h2 e.2)
  unfold scanToken
  rw [h]
  rfl

/-- Every result of `NextToken` is produced by one arm of the switch. -/
theorem NextTokenFuel_scanToken {n : Nat} {l : Lexer} {r : Token × Lexer}
    (h : NextTokenFuel n l = some r) :
    ∃ (l1 : Lexer) (m : Nat), l1.input = l.input ∧ scanToken m l1 = some r := by
  induction n generalizing l with
  | zero => simp [NextTokenFuel] at h
  | succ n ih =>
    rw [NextTokenFuel_succ] at h
    cases hws : skipWhitespace n l with
    | none => rw [hws] at h; cases h
    | some l1 =>
      rw [hws] at h
      have w1 := (readWhile_props _ hws).1
      dsimp only at h
      split_ifs at h with h1 h2
      · cases hc : skipLineComment n l1 with
        | none => rw [hc] at h; cases h
        | some l2 =>
          rw [hc] at h
          have c1 := (readWhile_props _ hc).1
          rw [readChar_input] at c1
          obtain ⟨l3, m, e, hs⟩ := ih h
          exact ⟨l3, m, by rw [e, c1, w1], hs⟩
      · cases hc : skipBlockComment n l1 with
        | none => rw [hc] at h; cases h
        | some l2 =>
          rw [hc] at h
          have c1 := (blockLoop_props hc).1
          rw [readChar_input, readChar_input] at c1
          obtain ⟨l3, m, e, hs⟩ := ih h
          exact ⟨l3, m, by rw [e, c1, w1], hs⟩
      · exact ⟨l1, n, w1, h⟩

theorem lookupIdent_ne_EQ (s : GoString) : lookupIdent s ≠ .EQ ∧ lookupIdent s ≠ .NOT_EQ := by
  unfold lookupIdent
  split_ifs <;> exact ⟨fun e => TokenType.noConfusion e, fun e => TokenType.noConfusion e⟩

theorem scanToken_ne_EQ {n : Nat} {l : Lexer} {r : Token × Lexer}
    (h : scanToken n l = some r) : r.1.Typ ≠ .EQ ∧ r.1.Typ ≠ .NOT_EQ := by
  unfold scanToken at h
  cases hcl : classify l.ch <;> rw [hcl] at h <;> simp only [] at h
  case punct t =>
    cases h
    obtain ⟨_, _, _, _, h5, h6⟩ := classify_punct_not_space _ _ hcl
    exact ⟨h5, h6⟩
  case quote =>
    unfold readString at h
    simp only [] at h
    cases hr : readWhile (notQuote l.ch) n (readChar l) with
    | none => rw [hr] at h; cases h
    | some l1 =>
      rw [hr] at h; cases h
      exact ⟨fun e => TokenType.noConfusion e, fun e => TokenType.noConfusion e⟩
  case letter =>
    unfold readIdentifier at h
    simp only [] at h
    cases hr : readWhile isLetter n l with
    | none => rw [hr] at h; cases h
    | some l1 =>
      rw [hr] at h; cases h
      exact lookupIdent_ne_EQ _
  case digit =>
    unfold readNumber at h
    simp only [] at h
    cases hr : readWhile isDigit n l with
    | none => rw [hr] at h; cases h
    | some l1 =>
      rw [hr] at h; cases h
      exact ⟨fun e => TokenType.noConfusion e, fun e => TokenType.noConfusion e⟩
  all_goals
    cases h
    exact ⟨fun e => TokenType.noConfusion e, fun e => TokenType.noConfusion e⟩


theorem operatorTable_classify : ∀ p ∈ operatorTable, classify p.1 = .punct p.2 := by
  decide

/-- C8: each of the fifteen operator and punctuation bytes, followed by any
`rest`, lexes first to its own kind with that one byte as literal; a `/` not
followed by `/` or `*` lexes to `SLASH` with literal `/`; no call of `NextToken`
from any lexer state returns `EQ` or `NOT_EQ`, and `==` and `!=` lex as two
one-byte tokens each. -/
theorem single_byte_operators (rest : GoString) :
    (∀ p ∈ operatorTable,
      (nthToken 0 (New (p.1 :: rest))).Typ = p.2 ∧
      (nthToken 0 (New (p.1 :: rest))).Literal = [p.1]) ∧
    (rest.head? ≠ some 47 → rest.head? ≠ some 42 →
      (nthToken 0 (New (47 :: rest))).Typ = .SLASH ∧
      (nthToken 0 (New (47 :: rest))).Literal = [47]) ∧
    (∀ l : Lexer, (NextToken l).1.Typ ≠ .EQ ∧ (NextToken l).1.Typ ≠ .NOT_EQ) ∧
    tokens (str "==") = [(.ASSIGN, str "="), (.ASSIGN, str "="), (.EOF, [])] ∧
    tokens (str "!=") = [(.BANG, str "!"), (.ASSIGN, str "="), (.EOF, [])] := by
  refine ⟨?_, ?_, ?_, by decide, by decide⟩
  · intro p hp
    have hcl := operatorTable_classify p hp
    have hch := (New_cons p.1 rest).2.2.2
    unfold nthToken afterCalls
    rw [NextToken_punct (by rw [hch]; exact hcl), hch]
    exact ⟨rfl, rfl⟩
  · intro h1 h2
    have hch := (New_cons 47 rest).2.2.2
    have hp := peekChar_New_cons 47 rest
    unfold nthToken afterCalls
    rw [NextToken_slash hch (by rw [hp]; cases rest <;> simp_all)
      (by rw [hp]; cases rest <;> simp_all)]
    exact ⟨rfl, rfl⟩
  · intro l
    obtain ⟨l1, m, _, hs⟩ := NextTokenFuel_scanToken (NextTokenFuel_fuelBound l)
    exact scanToken_ne_EQ hs

theorem single_byte_operators_witness :
    (nthToken 0 (New (59 :: str "x"))).Typ = .SEMICOLON ∧
    (nthToken 0 (New (59 :: str "x"))).Literal = [59] :=
  (single_byte_operators (str "x")).1 (59, .SEMICOLON) (by decide)

/-! ### Literals at the end of the input, and bytes from 0x80 up -/

/-- C4 (evaluation): the keyword `let` as the whole input.  The current byte is
a letter and the maximal letter run is `let`, but `NextToken` returns `IDENT`
with the literal `le`: `readChar` leaves `position` on the last byte when the
input is exhausted, so `input[position:l.position]` stops one byte short. -/
theorem identifier_at_end_loses_last_byte :
    isLetter (New (str "let")).ch = true ∧
    (nthToken 0 (New (str "let"))).Typ = .IDENT ∧
    (nthToken 0 (New (str "let"))).Literal = str "le" ∧
    tokens (str "let") = [(.IDENT, str "le"), (.EOF, [])] := by
  decide

/-- C5 (evaluation): the one-byte input `5`.  The current byte is a digit, and
`NextToken` returns `INT` with the empty literal. -/
theorem number_at_end_loses_last_byte :
    isDigit (New (str "5")).ch = true ∧
    (nthToken 0 (New (str "5"))).Typ = .INT ∧
    (nthToken 0 (New (str "5"))).Literal = [] ∧
    tokens (str "10") = [(.INT, str "1"), (.EOF, [])] := by
  decide

/-- C7 (evaluation): the unterminated string `"ab`.  `NextToken` returns
`STRING` with the literal `a`, the body without its last byte, and then `EOF`. -/
theorem unterminated_string_loses_last_byte :
    tokens (34 :: str "ab") = [(.STRING, str "a"), (.EOF, [])] := by
  decide

theorem NextToken_illegal {l : Lexer} (h : classify l.ch = .illegal)
    (hsp : isSpace l.ch = false) :
    NextToken l =
      ({ Typ := .ILLEGAL, Literal := string l.ch, Line := 0, Column := 0 }, readChar l) := by
  have h47 : l.ch ≠ 47 := by rintro e; rw [e] at h; revert h; decide
  apply NextToken_of_scanToken (n := 0) hsp (fun e => h47 e.1) (fun e => h47 e.1)
  unfold scanToken
  rw [h]

/-- C9 (evaluation): the input `0xD7 0x90`, the UTF-8 encoding of U+05D0.  The
byte `0xD7` is not NUL, whitespace, an operator, a quote, a letter or a digit;
`NextToken` returns `ILLEGAL` and advances by one `readChar`, but the literal
`string(l.ch)` is the two bytes `0xC3 0x97`, not the byte `0xD7`. -/
theorem illegal_literal_of_high_byte :
    classify 215 = .illegal ∧ isSpace 215 = false ∧
    (New [215, 144]).ch = 215 ∧
    NextToken (New [215, 144]) =
      ({ Typ := .ILLEGAL, Literal := [195, 151], Line := 0, Column := 0 },
       readChar (New [215, 144])) := by
  decide

/-! ### Undefined identifiers -/

theorem checkIdentifier_unbound (tc : TypeChecker) (name : GoString)
    (h : (tc.env.Get name).2 = false) :
    tc.checkIdentifier name =
      (.basic (str "unknown"), tc.addError (str "undefined variable: " ++ name)) := by
  unfold TypeChecker.checkIdentifier
  rcases hg : tc.env.Get name with ⟨val, ok⟩
  rw [hg] at h
  simp only at h
  subst h
  rfl

theorem New_Get (name : GoString) : (TypeChecker.New.env.Get name) = (.nil, false) := rfl

/-- C10: checking the one-statement program `let x = y;` with a fresh checker
returns exactly the list with the one diagnostic `undefined variable: y`, for
all names `x` and `y`; and for every checker in whose environment chain `name`
is bound nowhere, the identifier expression `name` yields the type `unknown` and
appends exactly that one diagnostic, leaving the environment as it was. -/
theorem undefined_variable_diagnostic (x y : GoString) :
    (TypeChecker.New.Check ⟨[.LetStatement x (.Identifier y)]⟩).1 =
      [str "undefined variable: " ++ y] ∧
    (∀ (tc : TypeChecker) (name : GoString), (tc.env.Get name).2 = false →
      tc.checkExpression (.Identifier name) =
        (.basic (str "unknown"),
         { errors := tc.errors ++ [str "undefined variable: " ++ name], env := tc.env })) := by
  constructor
  · simp only [TypeChecker.Check, TypeChecker.checkAll, TypeChecker.checkStatement,
      TypeChecker.checkLetStatement, TypeChecker.checkExpression]
    rw [checkIdentifier_unbound _ _ (by rw [New_Get])]
    rfl
  · intro tc name h
    simp only [TypeChecker.checkExpression]
    rw [checkIdentifier_unbound tc name h]
    rfl

theorem undefined_variable_diagnostic_witness :
    TypeChecker.New.checkExpression (.Identifier (str "y")) =
      (.basic (str "unknown"),
       { errors := [] ++ [str "undefined variable: " ++ str "y"],
         env := TypeChecker.New.env }) :=
  (undefined_variable_diagnostic (str "x") (str "y")).2 TypeChecker.New (str "y") rfl

/-! ### Two lexers on a common suffix -/

theorem shifted_length {d : Nat} {l1 l2 : Lexer} (h : Shifted d l1 l2) :
    l1.input.length = l2.input.length + d := by
  obtain ⟨h1, h2, _⟩ := h
  rw [h1, List.length_drop]; omega

theorem shifted_readChar {d : Nat} {l1 l2 : Lexer} (h : Shifted d l1 l2) :
    Shifted d (readChar l1) (readChar l2) := by
  have hlen := (shifted_length h)
  obtain ⟨h1, h2, h3, h4, h5⟩ := h
  rcases Nat.lt_or_ge l2.readPosition l2.input.length with hlt | hge
  · obtain ⟨a1, a2, a3, a4⟩ := readChar_of_lt l1 (by omega)
    obtain ⟨b1, b2, b3, b4⟩ := readChar_of_lt l2 hlt
    refine ⟨by rw [a1, b1, h1], by rw [a1]; exact h2, by rw [a2, b2, h4],
      by rw [a3, b3, h4]; omega, ?_⟩
    rw [a4, b4, h1, h4, List.getD_eq_getElem?_getD, List.getD_eq_getElem?_getD,
      List.getElem?_drop, Nat.add_comm]
  · rw [readChar_of_ge l1 (by omega), readChar_of_ge l2 hge]
    exact ⟨h1, h2, h3, h4, rfl⟩

theorem shifted_peekChar {d : Nat} {l1 l2 : Lexer} (h : Shifted d l1 l2) :
    peekChar l1 = peekChar l2 := by
  have hlen := (shifted_length h)
  obtain ⟨h1, h2, h3, h4, h5⟩ := h
  unfold peekChar
  rcases Nat.lt_or_ge l2.readPosition l2.input.length with hlt | hge
  · rw [if_neg (by omega), if_neg (by omega), h1, h4, List.getD_eq_getElem?_getD,
      List.getD_eq_getElem?_getD, List.getElem?_drop, Nat.add_comm]
  · rw [if_pos (by omega), if_pos (by omega)]

theorem shifted_remaining {d : Nat} {l1 l2 : Lexer} (h : Shifted d l1 l2) :
    remaining l1 = remaining l2 := by
  have hlen := (shifted_length h)
  obtain ⟨h1, h2, h3, h4, h5⟩ := h
  unfold remaining
  rw [h5, hlen, h4]
  congr 1
  omega

theorem shifted_slice {d : Nat} {l1 l2 : Lexer} (h : Shifted d l1 l2) (p q : Nat) :
    slice l1.input (p + d) (q + d) = slice l2.input p q := by
  unfold slice
  rw [h.1, List.drop_drop, Nat.add_comm d p]
  congr 1
  omega

theorem shifted_readWhile (cond : Byte → Bool) {d n1 n2 : Nat} {l1 l2 r1 r2 : Lexer}
    (h : Shifted d l1 l2) (e1 : readWhile cond n1 l1 = some r1)
    (e2 : readWhile cond n2 l2 = some r2) : Shifted d r1 r2 := by
  induction n1 generalizing n2 l1 l2 with
  | zero => simp [readWhile] at e1
  | succ n1 ih =>
    cases n2 with
    | zero => simp [readWhile] at e2
    | succ n2 =>
      rw [readWhile] at e1 e2
      rw [h.2.2.2.2] at e1
      split_ifs at e1 e2
      · exact ih (shifted_readChar h) e1 e2
      · cases e1; cases e2; exact h

theorem shifted_blockLoop {d n1 n2 : Nat} {l1 l2 r1 r2 : Lexer}
    (h : Shifted d l1 l2) (e1 : blockLoop n1 l1 = some r1)
    (e2 : blockLoop n2 l2 = some r2) : Shifted d r1 r2 := by
  induction n1 generalizing n2 l1 l2 with
  | zero => simp [blockLoop] at e1
  | succ n1 ih =>
    cases n2 with
    | zero => simp [blockLoop] at e2
    | succ n2 =>
      rw [blockLoop] at e1 e2
      rw [h.2.2.2.2, (shifted_peekChar h)] at e1
      split_ifs at e1 e2
      · cases e1; cases e2; exact h
      · cases e1; cases e2; exact shifted_readChar (shifted_readChar h)
      · exact ih (shifted_readChar h) e1 e2

theorem shifted_scanToken {d n1 n2 : Nat} {l1 l2 : Lexer} {r1 r2 : Token × Lexer}
    (h : Shifted d l1 l2) (e1 : scanToken n1 l1 = some r1) (e2 : scanToken n2 l2 = some r2) :
    r1.1.Typ = r2.1.Typ ∧ r1.1.Literal = r2.1.Literal ∧ Shifted d r1.2 r2.2 := by
  have hch := h.2.2.2.2
  unfold scanToken at e1 e2
  rw [hch] at e1
  cases hcl : classify l2.ch <;> rw [hcl] at e1 e2 <;> simp only [] at e1 e2
  case quote =>
    unfold readString at e1 e2
    simp only [] at e1 e2
    cases hr1 : readWhile (notQuote l2.ch) n1 (readChar l1) with
    | none => rw [hr1] at e1; cases e1
    | some m1 =>
      cases hr2 : readWhile (notQuote l2.ch) n2 (readChar l2) with
      | none => rw [hr2] at e2; cases e2
      | some m2 =>
        rw [hr1] at e1; rw [hr2] at e2; cases e1; cases e2
        have hm := shifted_readWhile _ (shifted_readChar h) hr1 hr2
        refine ⟨rfl, ?_, (shifted_readChar hm)⟩
        dsimp only
        rw [(shifted_readChar h).2.2.1, hm.2.2.1]
        exact (shifted_slice hm) _ _
  case letter =>
    unfold readIdentifier at e1 e2
    simp only [] at e1 e2
    cases hr1 : readWhile isLetter n1 l1 with
    | none => rw [hr1] at e1; cases e1
    | some m1 =>
      cases hr2 : readWhile isLetter n2 l2 with
      | none => rw [hr2] at e2; cases e2
      | some m2 =>
        rw [hr1] at e1; rw [hr2] at e2; cases e1; cases e2
        have hm := shifted_readWhile _ h hr1 hr2
        have hs : slice m1.input l1.position m1.position = slice m2.input l2.position m2.position := by
          rw [h.2.2.1, hm.2.2.1]; exact (shifted_slice hm) _ _
        dsimp only
        rw [hs]
        exact ⟨rfl, rfl, hm⟩
  case digit =>
    unfold readNumber at e1 e2
    simp only [] at e1 e2
    cases hr1 : readWhile isDigit n1 l1 with
    | none => rw [hr1] at e1; cases e1
    | some m1 =>
      cases hr2 : readWhile isDigit n2 l2 with
      | none => rw [hr2] at e2; cases e2
      | some m2 =>
        rw [hr1] at e1; rw [hr2] at e2; cases e1; cases e2
        have hm := shifted_readWhile _ h hr1 hr2
        have hs : slice m1.input l1.position m1.position = slice m2.input l2.position m2.position := by
          rw [h.2.2.1, hm.2.2.1]; exact (shifted_slice hm) _ _
        dsimp only
        rw [hs]
        exact ⟨rfl, rfl, hm⟩
  all_goals
    cases e1; cases e2
    exact ⟨rfl, rfl, (shifted_readChar h)⟩

theorem shifted_NextTokenFuel {d n1 n2 : Nat} {l1 l2 : Lexer} {r1 r2 : Token × Lexer}
    (h : Shifted d l1 l2) (e1 : NextTokenFuel n1 l1 = some r1)
    (e2 : NextTokenFuel n2 l2 = some r2) :
    r1.1.Typ = r2.1.Typ ∧ r1.1.Literal = r2.1.Literal ∧ Shifted d r1.2 r2.2 := by
  induction n1 generalizing n2 l1 l2 with
  | zero => simp [NextTokenFuel] at e1
  | succ n1 ih =>
    cases n2 with
    | zero => simp [NextTokenFuel] at e2
    | succ n2 =>
      rw [NextTokenFuel_succ] at e1 e2
      cases hw1 : skipWhitespace n1 l1 with
      | none => rw [hw1] at e1; cases e1
      | some m1 =>
        cases hw2 : skipWhitespace n2 l2 with
        | none => rw [hw2] at e2; cases e2
        | some m2 =>
          rw [hw1] at e1; rw [hw2] at e2
          have hm : Shifted d m1 m2 := shifted_readWhile _ h hw1 hw2
          dsimp only at e1 e2
          rw [hm.2.2.2.2, (shifted_peekChar hm)] at e1
          split_ifs at e1 e2
          · cases hc1 : skipLineComment n1 m1 with
            | none => rw [hc1] at e1; cases e1
            | some k1 =>
              cases hc2 : skipLineComment n2 m2 with
              | none => rw [hc2] at e2; cases e2
              | some k2 =>
                rw [hc1] at e1; rw [hc2] at e2
                exact ih (shifted_readWhile _ (shifted_readChar hm) hc1 hc2) e1 e2
          · cases hc1 : skipBlockComment n1 m1 with
            | none => rw [hc1] at e1; cases e1
            | some k1 =>
              cases hc2 : skipBlockComment n2 m2 with
              | none => rw [hc2] at e2; cases e2
              | some k2 =>
                rw [hc1] at e1; rw [hc2] at e2
                exact ih (shifted_blockLoop (shifted_readChar (shifted_readChar hm)) hc1 hc2) e1 e2
          · exact (shifted_scanToken hm) e1 e2

theorem shifted_NextToken {d : Nat} {l1 l2 : Lexer} (h : Shifted d l1 l2) :
    (NextToken l1).1.Typ = (NextToken l2).1.Typ ∧
    (NextToken l1).1.Literal = (NextToken l2).1.Literal ∧
    Shifted d (NextToken l1).2 (NextToken l2).2 :=
  (shifted_NextTokenFuel h) (NextTokenFuel_fuelBound l1) (NextTokenFuel_fuelBound l2)

theorem shifted_tokensFrom {d : Nat} (k1 : Nat) :
    ∀ (k2 : Nat) (l1 l2 : Lexer), Shifted d l1 l2 → remaining l1 < k1 → remaining l2 < k2 →
      tokensFrom k1 l1 = tokensFrom k2 l2 := by
  induction k1 with
  | zero => intro k2 l1 l2 _ h1; omega
  | succ k1 ih =>
    intro k2 l1 l2 h h1 h2
    obtain ⟨k2, rfl⟩ : ∃ k, k2 = k + 1 := ⟨k2 - 1, by omega⟩
    obtain ⟨ht, hl, hs⟩ := (shifted_NextToken h)
    rw [tokensFrom, tokensFrom]
    rw [ht, hl]
    congr 1
    split_ifs with he
    · rfl
    · have p1 := (NextToken_props l1).2.2 (by rw [ht]; exact he)
      have p2 := (NextToken_props l2).2.2 he
      exact ih k2 _ _ hs (by omega) (by omega)

theorem tokensFrom_atEnd (k : Nat) (l : Lexer) (h : atEnd l) :
    tokensFrom (k + 1) l = [(.EOF, [])] := by
  rw [tokensFrom]
  rw [NextToken_at_end l h.1 h.2]
  rfl

theorem shifted_refl (l : Lexer) : Shifted 0 l l :=
  ⟨by rw [List.drop_zero], Nat.zero_le _, rfl, rfl, rfl⟩

/-- Beyond `remaining l + 1` calls the collected tokens do not change. -/
theorem tokensFrom_stable {k1 k2 : Nat} {l : Lexer} (h1 : remaining l < k1)
    (h2 : remaining l < k2) : tokensFrom k1 l = tokensFrom k2 l :=
  shifted_tokensFrom k1 k2 l l (shifted_refl l) h1 h2

/-! ### A lexer standing on a known byte -/

theorem At_New (c : Byte) (post : GoString) : At (New (c :: post)) [] c post := by
  obtain ⟨h1, h2, h3, h4⟩ := New_cons c post
  exact ⟨h1, h2, h3, h4⟩

theorem New_nil_atEnd : atEnd (New []) := by
  constructor <;> decide

theorem At_readChar_cons {l : Lexer} {pre post : GoString} {c c' : Byte}
    (h : At l pre c (c' :: post)) : At (readChar l) (pre ++ [c]) c' post := by
  obtain ⟨h1, h2, h3, h4⟩ := h
  obtain ⟨a1, a2, a3, a4⟩ := readChar_of_lt l (by rw [h1, h3]; simp)
  refine ⟨by rw [a1, h1]; simp, by rw [a2, h3]; simp, by rw [a3, h3]; simp, ?_⟩
  rw [a4, h1, h3, List.getD_eq_getElem?_getD,
    show pre ++ c :: c' :: post = (pre ++ [c]) ++ c' :: post by simp,
    List.getElem?_append_right (by simp)]
  simp

theorem At_readChar_nil {l : Lexer} {pre : GoString} {c : Byte}
    (h : At l pre c []) :
    atEnd (readChar l) ∧ (readChar l).input = l.input ∧ (readChar l).position = l.position := by
  obtain ⟨h1, h2, h3, h4⟩ := h
  have hge : l.input.length ≤ l.readPosition := by rw [h1, h3]; simp
  rw [readChar_of_ge l hge]
  exact ⟨⟨rfl, hge⟩, rfl, rfl⟩

theorem At_readWhile (cond : Byte → Bool) (seg : GoString) :
    ∀ (pre : GoString) (c : Byte) (post : GoString) (x : Byte) (post' : GoString)
      (l : Lexer) (n : Nat),
      At l pre c post → c :: post = seg ++ x :: post' → (∀ b ∈ seg, cond b = true) →
      cond x = false → seg.length < n →
      ∃ l', readWhile cond n l = some l' ∧ At l' (pre ++ seg) x post' := by
  induction seg with
  | nil =>
    intro pre c post x post' l n hat hsplit _ hx hn
    obtain ⟨n, rfl⟩ : ∃ k, n = k + 1 := ⟨n - 1, by simp at hn; omega⟩
    simp only [List.nil_append, List.cons.injEq] at hsplit
    obtain ⟨rfl, rfl⟩ := hsplit
    refine ⟨l, ?_, by simpa using hat⟩
    rw [readWhile, hat.2.2.2, hx]; rfl
  | cons s seg ih =>
    intro pre c post x post' l n hat hsplit hseg hx hn
    obtain ⟨n, rfl⟩ : ∃ k, n = k + 1 := ⟨n - 1, by simp at hn; omega⟩
    simp only [List.cons_append, List.cons.injEq] at hsplit
    obtain ⟨rfl, rfl⟩ := hsplit
    have hc : cond c = true := hseg c (List.mem_cons_self _ _)
    rw [readWhile, hat.2.2.2, if_pos hc]
    obtain ⟨c', post2, hcp⟩ : ∃ c' post2, seg ++ x :: post' = c' :: post2 := by
      cases seg with
      | nil => exact ⟨x, post', rfl⟩
      | cons a t => exact ⟨a, t ++ x :: post', rfl⟩
    rw [hcp] at hat
    obtain ⟨l', hl', hat'⟩ := ih (pre ++ [c]) c' post2 x post' (readChar l) n
      (At_readChar_cons hat) hcp.symm (fun b hb => hseg b (List.mem_cons_of_mem _ hb)) hx
      (by simp at hn; omega)
    exact ⟨l', hl', by simpa using hat'⟩

theorem At_shifted {l1 l2 : Lexer} {pre post : GoString} {c : Byte}
    (h1 : At l1 pre c post) (h2 : At l2 [] c post) : Shifted pre.length l1 l2 := by
  obtain ⟨a1, a2, a3, a4⟩ := h1
  obtain ⟨b1, b2, b3, b4⟩ := h2
  refine ⟨by rw [a1, b1]; simp, by rw [a1]; simp, by rw [a2, b2]; simp,
    by rw [a3, b3]; simp; omega, by rw [a4, b4]⟩

theorem At_remaining {l : Lexer} {pre post : GoString} {c : Byte} (h : At l pre c post) :
    remaining l ≤ post.length + 1 := by
  obtain ⟨a1, a2, a3, a4⟩ := h
  unfold remaining
  rw [a1, a3]
  simp only [List.length_append, List.length_cons]
  split_ifs <;> omega

theorem atEnd_remaining {l : Lexer} (h : atEnd l) : remaining l = 0 := by
  unfold remaining
  rw [if_pos h.1]
  have := h.2
  omega

theorem slice_middle (pre seg post : GoString) :
    slice (pre ++ seg ++ post) pre.length (pre ++ seg).length = seg := by
  unfold slice
  rw [List.append_assoc, List.drop_left, List.length_append, Nat.add_sub_cancel_left,
    List.take_left]

/-! ### String literals -/

theorem notQuote_body {q : Byte} {body : GoString} (hb : ∀ b ∈ body, b ≠ q ∧ b ≠ 0) :
    ∀ b ∈ body, notQuote q b = true := by
  intro b hbm
  obtain ⟨h1, h2⟩ := hb b hbm
  simp [notQuote, h1, h2]

theorem notQuote_self (q : Byte) : notQuote q q = false := by simp [notQuote]

theorem classify_of_quote {q : Byte} (hq : q = 34 ∨ q = 39) :
    classify q = .quote ∧ isSpace q = false ∧ q ≠ 47 := by
  rcases hq with rfl | rfl <;> decide

/-- `NextToken` on an opening quote whose string is closed. -/
theorem NextToken_string {l : Lexer} {pre body post : GoString} {q : Byte}
    (hq : q = 34 ∨ q = 39) (hb : ∀ b ∈ body, b ≠ q ∧ b ≠ 0)
    (hat : At l pre q (body ++ q :: post)) :
    ∃ l1, At l1 (pre ++ q :: body) q post ∧
      NextToken l =
        ({ Typ := .STRING, Literal := body, Line := l.line, Column := l.column },
         readChar l1) := by
  obtain ⟨hcl, hsp, h47⟩ := classify_of_quote hq
  obtain ⟨c0, post0, hcp⟩ : ∃ c0 post0, body ++ q :: post = c0 :: post0 := by
    cases body with
    | nil => exact ⟨q, post, rfl⟩
    | cons a t => exact ⟨a, t ++ q :: post, rfl⟩
  have hat0 : At (readChar l) (pre ++ [q]) c0 post0 := by
    rw [hcp] at hat; exact At_readChar_cons hat
  obtain ⟨l1, hl1, hat1⟩ := At_readWhile (notQuote q) body (pre ++ [q]) c0 post0 q post
    (readChar l) (body.length + 1) hat0 hcp.symm (notQuote_body hb) (notQuote_self q)
    (by omega)
  have hat1' : At l1 (pre ++ q :: body) q post := by simpa using hat1
  refine ⟨l1, hat1', ?_⟩
  have hch := hat.2.2.2
  apply NextToken_of_scanToken (n := body.length + 1) (by rw [hch]; exact hsp)
    (fun e => h47 (hch.symm.trans e.1)) (fun e => h47 (hch.symm.trans e.1))
  unfold scanToken
  rw [hch, hcl]
  dsimp only
  unfold readString
  dsimp only
  rw [hl1]
  dsimp only
  have hs : slice l1.input (readChar l).position l1.position = body := by
    rw [hat1.1, hat0.2.1, hat1.2.1]
    have := slice_middle (pre ++ [q]) body (q :: post)
    simpa using this
  rw [hs]

/-- C6: a quoted string `q body q` whose body contains neither `q` nor NUL is
lexed to a `STRING` token whose literal is exactly `body`, and the tokens that
follow are those of `rest` lexed alone. -/
theorem closed_string_token (q : Byte) (hq : q = 34 ∨ q = 39) (body rest : GoString)
    (hb : ∀ b ∈ body, b ≠ q ∧ b ≠ 0) :
    (nthToken 0 (New (q :: (body ++ q :: rest)))).Typ = .STRING ∧
    (nthToken 0 (New (q :: (body ++ q :: rest)))).Literal = body ∧
    tokens (q :: (body ++ q :: rest)) = (.STRING, body) :: tokens rest := by
  obtain ⟨l1, hat1, hnt⟩ := NextToken_string hq hb (At_New q (body ++ q :: rest))
  refine ⟨by unfold nthToken afterCalls; rw [hnt], by unfold nthToken afterCalls; rw [hnt], ?_⟩
  unfold tokens
  rw [tokensFrom, hnt]
  dsimp only
  rw [if_neg (fun e => TokenType.noConfusion e)]
  congr 1
  cases rest with
  | nil =>
    rw [show ([] : GoString).length + 1 = 0 + 1 from rfl, tokensFrom_atEnd 0 _ New_nil_atEnd]
    obtain ⟨n, hn⟩ : ∃ n, (q :: (body ++ [q])).length = n + 1 := ⟨_, rfl⟩
    rw [hn]
    exact tokensFrom_atEnd n _ (At_readChar_nil hat1).1
  | cons c rest =>
    have hat2 := At_readChar_cons hat1
    have hsh := At_shifted hat2 (At_New c rest)
    have hr := At_remaining hat2
    apply shifted_tokensFrom _ _ _ _ hsh
    · simp only [List.length_cons, List.length_append]; omega
    · rw [← shifted_remaining hsh]; simp only [List.length_cons]; omega

set_option maxRecDepth 100000 in
theorem closed_string_token_witness :
    tokens (34 :: (str "a\\b" ++ 34 :: str ";")) = (.STRING, str "a\\b") :: tokens (str ";") :=
  (closed_string_token 34 (Or.inl rfl) (str "a\\b") (str ";") (by decide)).2.2

/-! ### Skipping whitespace and comments -/

theorem tokensFrom_congr {l m : Lexer} (h : NextToken l = NextToken m) (k : Nat) :
    tokensFrom k l = tokensFrom k m := by
  cases k with
  | zero => rfl
  | succ k => rw [tokensFrom, tokensFrom, h]

/-- `NextToken` gives the same result from the state its `skipWhitespace` reaches. -/
theorem NextToken_skipWhitespace {n : Nat} {l m : Lexer} (h : skipWhitespace n l = some m) :
    NextToken l = NextToken m := by
  obtain ⟨w1, w2, w3⟩ := readWhile_props _ h
  have e1 : NextTokenFuel (n + remaining l + 1 + 1) l = some (NextToken l) :=
    NextTokenFuel_eq (by omega)
  have e2 : NextTokenFuel (n + remaining l + 1 + 1) m = some (NextToken m) :=
    NextTokenFuel_eq (by omega)
  rw [NextTokenFuel_succ, show skipWhitespace (n + remaining l + 1) l = some m from
    readWhile_mono _ h (by omega)] at e1
  rw [NextTokenFuel_succ, skipWhitespace_of_not_space w3] at e2
  exact Option.some.inj (e1.symm.trans e2)

theorem NextToken_skip_space {l : Lexer} (h : isSpace l.ch = true) :
    NextToken l = NextToken (readChar l) := by
  obtain ⟨m, hm⟩ := readWhile_total isSpace isSpace_zero (remaining (readChar l) + 1)
    (readChar l) (le_refl _)
  have h1 : skipWhitespace (remaining (readChar l) + 1 + 1) l = some m := by
    unfold skipWhitespace
    rw [readWhile, if_pos h]; exact hm
  rw [NextToken_skipWhitespace h1, NextToken_skipWhitespace hm]

theorem NextToken_line_comment {n : Nat} {l m : Lexer} (h1 : l.ch = 47)
    (h2 : peekChar l = 47) (h : skipLineComment n l = some m) :
    NextToken l = NextToken m := by
  obtain ⟨c1, c2, _⟩ := readWhile_props _ h
  have := readChar_remaining_le l
  have e1 : NextTokenFuel (n + remaining l + 2 + 1) l = some (NextToken l) :=
    NextTokenFuel_eq (by omega)
  have e2 : NextTokenFuel (n + remaining l + 2) m = some (NextToken m) :=
    NextTokenFuel_eq (by omega)
  rw [NextTokenFuel_succ, skipWhitespace_of_not_space (by rw [h1]; decide)] at e1
  dsimp only at e1
  rw [if_pos ⟨h1, h2⟩, show skipLineComment (n + remaining l + 2) l = some m from
    readWhile_mono _ h (by omega)] at e1
  exact Option.some.inj (e1.symm.trans e2)

theorem NextToken_block_comment {n : Nat} {l m : Lexer} (h1 : l.ch = 47)
    (h2 : peekChar l = 42) (h : skipBlockComment n l = some m) :
    NextToken l = NextToken m := by
  obtain ⟨c1, c2⟩ := blockLoop_props h
  have := readChar_remaining_le l
  have := readChar_remaining_le (readChar l)
  have e1 : NextTokenFuel (n + remaining l + 2 + 1) l = some (NextToken l) :=
    NextTokenFuel_eq (by omega)
  have e2 : NextTokenFuel (n + remaining l + 2) m = some (NextToken m) :=
    NextTokenFuel_eq (by omega)
  rw [NextTokenFuel_succ, skipWhitespace_of_not_space (by rw [h1]; decide)] at e1
  dsimp only at e1
  rw [if_neg (fun e => absurd (h2.symm.trans e.2) (by decide)), if_pos ⟨h1, h2⟩,
    show skipBlockComment (n + remaining l + 2) l = some m from
      blockLoop_mono h (by omega)] at e1
  exact Option.some.inj (e1.symm.trans e2)

/-! ### Lexers that stand on the same remaining input -/

theorem At_peekChar {l : Lexer} {pre post : GoString} {c c' : Byte}
    (h : At l pre c (c' :: post)) : peekChar l = c' := by
  obtain ⟨h1, h2, h3, h4⟩ := h
  unfold peekChar
  rw [if_neg (by rw [h1, h3]; simp), h1, h3, List.getD_eq_getElem?_getD,
    show pre ++ c :: c' :: post = (pre ++ [c]) ++ c' :: post by simp,
    List.getElem?_append_right (by simp)]
  simp

theorem At_peekChar_nil {l : Lexer} {pre : GoString} {c : Byte}
    (h : At l pre c []) : peekChar l = 0 := by
  obtain ⟨h1, h2, h3, h4⟩ := h
  unfold peekChar
  rw [if_pos (by rw [h1, h3]; simp)]

theorem StandsAt_readChar {l : Lexer} {pre post : GoString} {c : Byte}
    (h : At l pre c post) : StandsAt (readChar l) (pre ++ [c]) post := by
  cases post with
  | nil => exact (At_readChar_nil h).1
  | cons c' post => exact At_readChar_cons h

theorem StandsAt_New (b : GoString) : StandsAt (New b) [] b := by
  cases b with
  | nil => exact New_nil_atEnd
  | cons c post => exact At_New c post

theorem StandsAt_remaining {l : Lexer} {pre b : GoString} (h : StandsAt l pre b) :
    remaining l ≤ b.length := by
  cases b with
  | nil => rw [atEnd_remaining h]; exact Nat.zero_le _
  | cons c post => have := At_remaining h; simpa using this

/-- Two lexers that stand at the start of the same remaining input return the
same kinds and literals from there on. -/
theorem StandsAt_tokensFrom {l1 l2 : Lexer} {pre1 pre2 b : GoString} {k1 k2 : Nat}
    (h1 : StandsAt l1 pre1 b) (h2 : StandsAt l2 pre2 b)
    (hk1 : remaining l1 < k1) (hk2 : remaining l2 < k2) :
    tokensFrom k1 l1 = tokensFrom k2 l2 := by
  cases b with
  | nil =>
    obtain ⟨k1, rfl⟩ : ∃ k, k1 = k + 1 := ⟨k1 - 1, by omega⟩
    obtain ⟨k2, rfl⟩ : ∃ k, k2 = k + 1 := ⟨k2 - 1, by omega⟩
    rw [tokensFrom_atEnd k1 l1 h1, tokensFrom_atEnd k2 l2 h2]
  | cons c post =>
    have s1 := At_shifted h1 (At_New c post)
    have s2 := At_shifted h2 (At_New c post)
    have r1 := shifted_remaining s1
    rw [shifted_tokensFrom k1 (remaining l1 + 1) l1 (New (c :: post)) s1 hk1 (by omega),
      shifted_tokensFrom k2 (remaining l1 + 1) l2 (New (c :: post)) s2 hk2
        (by rw [← shifted_remaining s2, shifted_remaining s2, ← r1]; omega)]

/-! ### Identifiers and numbers inside the input -/

set_option maxRecDepth 100000 in
theorem classify_letter_digit_aux : ∀ c : Byte,
    (classify c = .letter → isSpace c = false ∧ c ≠ 47) ∧
    (classify c = .digit → isSpace c = false ∧ c ≠ 47) ∧
    (classify c = .slash → c = 47) ∧
    (isSpace c = true → isLetter c = false ∧ isDigit c = false) := by
  decide

theorem NextToken_identifier (run : GoString) {l : Lexer} {pre post post' : GoString}
    {x y : Byte}
    (hat : At l pre x post) (hcl : classify x = .letter)
    (hsplit : x :: post = run ++ y :: post') (hrun : ∀ b ∈ run, isLetter b = true)
    (hy : isLetter y = false) :
    ∃ l1, At l1 (pre ++ run) y post' ∧
      NextToken l =
        ({ Typ := lookupIdent run, Literal := run, Line := l.line, Column := l.column }, l1) := by
  obtain ⟨hsp, h47⟩ := (classify_letter_digit_aux x).1 hcl
  obtain ⟨l1, hl1, hat1⟩ := At_readWhile isLetter run pre x post y post' l (run.length + 1)
    hat hsplit hrun hy (by omega)
  refine ⟨l1, hat1, ?_⟩
  have hch := hat.2.2.2
  apply NextToken_of_scanToken (n := run.length + 1) (by rw [hch]; exact hsp)
    (fun e => h47 (hch.symm.trans e.1)) (fun e => h47 (hch.symm.trans e.1))
  unfold scanToken
  rw [hch, hcl]
  dsimp only
  unfold readIdentifier
  dsimp only
  rw [hl1]
  dsimp only
  have hs : slice l1.input l.position l1.position = run := by
    rw [hat1.1, hat.2.1, hat1.2.1]
    exact slice_middle pre run (y :: post')
  rw [hs]

theorem NextToken_number (run : GoString) {l : Lexer} {pre post post' : GoString}
    {x y : Byte}
    (hat : At l pre x post) (hcl : classify x = .digit)
    (hsplit : x :: post = run ++ y :: post') (hrun : ∀ b ∈ run, isDigit b = true)
    (hy : isDigit y = false) :
    ∃ l1, At l1 (pre ++ run) y post' ∧
      NextToken l =
        ({ Typ := .INT, Literal := run, Line := l.line, Column := l.column }, l1) := by
  obtain ⟨hsp, h47⟩ := (classify_letter_digit_aux x).2.1 hcl
  obtain ⟨l1, hl1, hat1⟩ := At_readWhile isDigit run pre x post y post' l (run.length + 1)
    hat hsplit hrun hy (by omega)
  refine ⟨l1, hat1, ?_⟩
  have hch := hat.2.2.2
  apply NextToken_of_scanToken (n := run.length + 1) (by rw [hch]; exact hsp)
    (fun e => h47 (hch.symm.trans e.1)) (fun e => h47 (hch.symm.trans e.1))
  unfold scanToken
  rw [hch, hcl]
  dsimp only
  unfold readNumber
  dsimp only
  rw [hl1]
  dsimp only
  have hs : slice l1.input l.position l1.position = run := by
    rw [hat1.1, hat.2.1, hat1.2.1]
    exact slice_middle pre run (y :: post')
  rw [hs]

/-- A byte sequence splits into its longest prefix of bytes satisfying `cond`
and a rest that is empty or starts with a byte that does not. -/
theorem run_split (cond : Byte → Bool) (a : GoString) :
    ∃ run a3 : GoString, a = run ++ a3 ∧ (∀ b ∈ run, cond b = true) ∧
      (∀ y t, a3 = y :: t → cond y = false) := by
  induction a with
  | nil => exact ⟨[], [], rfl, by simp, by simp⟩
  | cons x t ih =>
    by_cases hx : cond x = true
    · obtain ⟨run, a3, h1, h2, h3⟩ := ih
      refine ⟨x :: run, a3, by rw [h1]; rfl, ?_, h3⟩
      intro b hb
      rcases List.mem_cons.mp hb with rfl | hb
      · exact hx
      · exact h2 b hb
    · refine ⟨[], x :: t, rfl, by simp, ?_⟩
      intro y t' h
      cases h
      simpa using hx

theorem boundary_head (a3 : GoString) (w : Byte) (X : GoString) (cond : Byte → Bool)
    (h3 : ∀ y t, a3 = y :: t → cond y = false) (hw : cond w = false) :
    ∃ y post', y :: post' = a3 ++ w :: X ∧ cond y = false := by
  cases a3 with
  | nil => exact ⟨w, X, rfl, hw⟩
  | cons y t => exact ⟨y, t ++ w :: X, rfl, h3 y t rfl⟩

/-! ### Crossing a comment-free, quote-free stretch of input -/

theorem tokensFrom_cons {l : Lexer} {k : Nat} (h : (NextToken l).1.Typ ≠ .EOF) :
    tokensFrom (k + 1) l =
      ((NextToken l).1.Typ, (NextToken l).1.Literal) :: tokensFrom k (NextToken l).2 := by
  rw [tokensFrom, if_neg h]

theorem PrefixTokens_nil (w : Byte) : PrefixTokens [] w [] := by
  intro X pre l c post k hat hsplit hk
  simp only [List.nil_append, List.cons.injEq] at hsplit
  obtain ⟨rfl, rfl⟩ := hsplit
  exact ⟨l, k, by simpa using hat, hk, rfl⟩

theorem PrefixTokens_space {x w : Byte} {t : GoString} {ts : List (TokenType × GoString)}
    (hx : isSpace x = true) (ih : PrefixTokens t w ts) : PrefixTokens (x :: t) w ts := by
  intro X pre l c post k hat hsplit hk
  simp only [List.cons_append, List.cons.injEq] at hsplit
  obtain ⟨rfl, rfl⟩ := hsplit
  obtain ⟨c', post', hcp⟩ : ∃ c' post', c' :: post' = t ++ w :: X := by
    cases t with
    | nil => exact ⟨w, X, rfl⟩
    | cons a t => exact ⟨a, t ++ w :: X, rfl⟩
  rw [← hcp] at hat
  have hat' := At_readChar_cons hat
  have hle := readChar_remaining_le l
  obtain ⟨B, k', hB, hk', he⟩ := ih X (pre ++ [c]) (readChar l) c' post' k hat' hcp (by omega)
  refine ⟨B, k', by simpa using hB, hk', ?_⟩
  rw [tokensFrom_congr (NextToken_skip_space (by rw [hat.2.2.2]; exact hx)) k, he]

/-- One token that covers the bytes `tb` at the front of `a`. -/
theorem PrefixTokens_step (tb a3 : GoString) {a : GoString} {w : Byte}
    {p : TokenType × GoString}
    {ts : List (TokenType × GoString)} (hp : p.1 ≠ .EOF) (ha : a = tb ++ a3)
    (hstep : ∀ (X pre : GoString) (l : Lexer) (c : Byte) (post : GoString),
      At l pre c post → c :: post = a ++ w :: X →
      ∃ (y : Byte) (post' : GoString), y :: post' = a3 ++ w :: X ∧
        At (NextToken l).2 (pre ++ tb) y post' ∧
        ((NextToken l).1.Typ, (NextToken l).1.Literal) = p)
    (ih : PrefixTokens a3 w ts) : PrefixTokens a w (p :: ts) := by
  intro X pre l c post k hat hsplit hk
  obtain ⟨y, post', hyp, hat1, hpe⟩ := hstep X pre l c post hat hsplit
  have hne : (NextToken l).1.Typ ≠ .EOF := by
    have := congrArg Prod.fst hpe
    simp only at this
    rw [this]; exact hp
  obtain ⟨k, rfl⟩ : ∃ j, k = j + 1 := ⟨k - 1, by omega⟩
  have hlt := (NextToken_props l).2.2 hne
  obtain ⟨B, k', hB, hk', he⟩ := ih X (pre ++ tb) (NextToken l).2 y post' k hat1 hyp (by omega)
  refine ⟨B, k', by rw [ha]; simpa using hB, hk', ?_⟩
  rw [tokensFrom_cons hne, hpe, he]
  rfl

theorem prefix_tokens_exist (n : Nat) :
    ∀ a : GoString, a.length ≤ n → (∀ x ∈ a, x ≠ 34 ∧ x ≠ 39 ∧ x ≠ 47 ∧ x ≠ 0) →
      ∀ w : Byte, isSpace w = true → ∃ ts, PrefixTokens a w ts := by
  induction n with
  | zero =>
    intro a hlen _ w _
    have : a = [] := List.length_eq_zero.mp (by omega)
    subst this
    exact ⟨[], PrefixTokens_nil w⟩
  | succ n ih =>
    intro a hlen hsafe w hw
    cases a with
    | nil => exact ⟨[], PrefixTokens_nil w⟩
    | cons x t =>
      have hlen' : t.length ≤ n := by simpa using hlen
      have hsafe' : ∀ y ∈ t, y ≠ 34 ∧ y ≠ 39 ∧ y ≠ 47 ∧ y ≠ 0 :=
        fun y hy => hsafe y (List.mem_cons_of_mem _ hy)
      obtain ⟨hx34, hx39, hx47, hx0⟩ := hsafe x (List.mem_cons_self _ _)
      obtain ⟨hwl, hwd⟩ := (classify_letter_digit_aux w).2.2.2 hw
      by_cases hsp : isSpace x = true
      · obtain ⟨ts, hts⟩ := ih t hlen' hsafe' w hw
        exact ⟨ts, PrefixTokens_space hsp hts⟩
      · have hsp' : isSpace x = false := by simpa using hsp
        cases hcl : classify x with
        | slash => exact absurd ((classify_letter_digit_aux x).2.2.1 hcl) hx47
        | quote => rcases classify_quote x hcl with h | h <;> contradiction
        | eof => exact absurd (classify_eof x hcl) hx0
        | punct tt =>
          obtain ⟨ts, hts⟩ := ih t hlen' hsafe' w hw
          refine ⟨(tt, [x]) :: ts, PrefixTokens_step [x] t
            (classify_punct_not_space x tt hcl).2.2.2.1 rfl ?_ hts⟩
          intro X pre l c post hat hsplit
          simp only [List.cons_append, List.cons.injEq] at hsplit
          obtain ⟨rfl, rfl⟩ := hsplit
          obtain ⟨c', post', hcp⟩ : ∃ c' post', c' :: post' = t ++ w :: X := by
            cases t with
            | nil => exact ⟨w, X, rfl⟩
            | cons a t => exact ⟨a, t ++ w :: X, rfl⟩
          rw [← hcp] at hat
          have hnt := NextToken_punct (l := l) (t := tt) (by rw [hat.2.2.2]; exact hcl)
          refine ⟨c', post', hcp, ?_, ?_⟩
          · rw [hnt]; exact At_readChar_cons hat
          · rw [hnt, hat.2.2.2]
        | illegal =>
          obtain ⟨ts, hts⟩ := ih t hlen' hsafe' w hw
          refine ⟨(.ILLEGAL, string x) :: ts, PrefixTokens_step [x] t
            (fun e => TokenType.noConfusion e) rfl ?_ hts⟩
          intro X pre l c post hat hsplit
          simp only [List.cons_append, List.cons.injEq] at hsplit
          obtain ⟨rfl, rfl⟩ := hsplit
          obtain ⟨c', post', hcp⟩ : ∃ c' post', c' :: post' = t ++ w :: X := by
            cases t with
            | nil => exact ⟨w, X, rfl⟩
            | cons a t => exact ⟨a, t ++ w :: X, rfl⟩
          rw [← hcp] at hat
          have hnt := NextToken_illegal (l := l) (by rw [hat.2.2.2]; exact hcl)
            (by rw [hat.2.2.2]; exact hsp')
          refine ⟨c', post', hcp, ?_, ?_⟩
          · rw [hnt]; exact At_readChar_cons hat
          · rw [hnt, hat.2.2.2]
        | letter =>
          obtain ⟨run, a3, h1, h2, h3⟩ := run_split isLetter t
          have hlen3 : a3.length ≤ n := by
            have := congrArg List.length h1
            simp only [List.length_append] at this
            omega
          obtain ⟨ts, hts⟩ := ih a3 hlen3
            (fun y hy => hsafe' y (by rw [h1]; exact List.mem_append_right _ hy)) w hw
          refine ⟨(lookupIdent (x :: run), x :: run) :: ts,
            PrefixTokens_step (x :: run) a3
              (lookupIdent_ne_EOF _) (by rw [h1]; rfl) ?_ hts⟩
          intro X pre l c post hat hsplit
          simp only [List.cons_append, List.cons.injEq] at hsplit
          obtain ⟨rfl, rfl⟩ := hsplit
          obtain ⟨y, post', hyp, hy⟩ := boundary_head a3 w X isLetter h3 hwl
          obtain ⟨l1, hat1, hnt⟩ := NextToken_identifier (c :: run) hat hcl
            (by rw [hyp, h1]; simp)
            (fun b hb => by
              rcases List.mem_cons.mp hb with rfl | hb
              · exact classify_letter _ hcl
              · exact h2 b hb) hy
          refine ⟨y, post', hyp, by rw [hnt]; exact hat1, by rw [hnt]⟩
        | digit =>
          obtain ⟨run, a3, h1, h2, h3⟩ := run_split isDigit t
          have hlen3 : a3.length ≤ n := by
            have := congrArg List.length h1
            simp only [List.length_append] at this
            omega
          obtain ⟨ts, hts⟩ := ih a3 hlen3
            (fun y hy => hsafe' y (by rw [h1]; exact List.mem_append_right _ hy)) w hw
          refine ⟨(.INT, x :: run) :: ts,
            PrefixTokens_step (x :: run) a3
              (fun e => TokenType.noConfusion e) (by rw [h1]; rfl) ?_ hts⟩
          intro X pre l c post hat hsplit
          simp only [List.cons_append, List.cons.injEq] at hsplit
          obtain ⟨rfl, rfl⟩ := hsplit
          obtain ⟨y, post', hyp, hy⟩ := boundary_head a3 w X isDigit h3 hwd
          obtain ⟨l1, hat1, hnt⟩ := NextToken_number (c :: run) hat hcl
            (by rw [hyp, h1]; simp)
            (fun b hb => by
              rcases List.mem_cons.mp hb with rfl | hb
              · exact classify_digit _ hcl
              · exact h2 b hb) hy
          refine ⟨y, post', hyp, by rw [hnt]; exact hat1, by rw [hnt]⟩

/-! ### Comments -/

theorem line_comment_tokens {l l2 : Lexer} {pre pre2 c b : GoString} {k1 k2 : Nat}
    (hat : At l pre 47 (47 :: (c ++ 10 :: b))) (hc : ∀ x ∈ c, x ≠ 0 ∧ x ≠ 10)
    (h2 : StandsAt l2 pre2 (10 :: b)) (hk1 : remaining l < k1) (hk2 : remaining l2 < k2) :
    tokensFrom k1 l = tokensFrom k2 l2 := by
  have hat' := At_readChar_cons hat
  obtain ⟨m, hm, hatm⟩ := At_readWhile notEol (47 :: c) (pre ++ [47]) 47 (c ++ 10 :: b) 10 b
    (readChar l) (c.length + 2) hat' rfl
    (fun x hx => by
      rcases List.mem_cons.mp hx with rfl | hx
      · decide
      · obtain ⟨h0, h10⟩ := hc x hx
        simp [notEol, h0, h10])
    (by decide) (by simp)
  have hnt : NextToken l = NextToken m :=
    NextToken_line_comment hat.2.2.2 (At_peekChar hat) hm
  have hle := (readWhile_props _ hm).2.1
  have := readChar_remaining_le l
  rw [tokensFrom_congr hnt k1]
  exact StandsAt_tokensFrom (b := 10 :: b) hatm h2 (by omega) hk2

theorem At_blockLoop (c : GoString) :
    ∀ (pre : GoString) (c0 : Byte) (post0 b : GoString) (l : Lexer) (n : Nat),
      At l pre c0 post0 → c0 :: post0 = c ++ 42 :: 47 :: b → (∀ x ∈ c, x ≠ 0) →
      ¬ [42, 47] <:+: c → c.length < n →
      ∃ l', At l' (pre ++ c) 42 (47 :: b) ∧ blockLoop n l = some (readChar (readChar l')) := by
  induction c with
  | nil =>
    intro pre c0 post0 b l n hat hsplit _ _ hn
    obtain ⟨n, rfl⟩ : ∃ k, n = k + 1 := ⟨n - 1, by simp at hn; omega⟩
    simp only [List.nil_append, List.cons.injEq] at hsplit
    obtain ⟨rfl, rfl⟩ := hsplit
    refine ⟨l, by simpa using hat, ?_⟩
    rw [blockLoop, if_neg (by rw [hat.2.2.2]; decide),
      if_pos ⟨hat.2.2.2, At_peekChar hat⟩]
  | cons y c ih =>
    intro pre c0 post0 b l n hat hsplit hc0 hinf hn
    obtain ⟨n, rfl⟩ : ∃ k, n = k + 1 := ⟨n - 1, by simp at hn; omega⟩
    simp only [List.cons_append, List.cons.injEq] at hsplit
    obtain ⟨rfl, rfl⟩ := hsplit
    obtain ⟨c1, post1, hcp⟩ : ∃ c1 post1, c1 :: post1 = c ++ 42 :: 47 :: b := by
      cases c with
      | nil => exact ⟨42, 47 :: b, rfl⟩
      | cons a t => exact ⟨a, t ++ 42 :: 47 :: b, rfl⟩
    rw [← hcp] at hat
    have hnot : ¬(l.ch = 42 ∧ peekChar l = 47) := by
      rintro ⟨e1, e2⟩
      rw [hat.2.2.2] at e1
      rw [At_peekChar hat] at e2
      subst e1 e2
      cases c with
      | nil =>
        simp only [List.nil_append, List.cons.injEq] at hcp
        exact absurd hcp.1 (by decide)
      | cons a t =>
        simp only [List.cons_append, List.cons.injEq] at hcp
        apply hinf
        rw [← hcp.1]
        exact ⟨[], t, rfl⟩
    rw [blockLoop, if_neg (by rw [hat.2.2.2]; exact hc0 c0 (List.mem_cons_self _ _)),
      if_neg hnot]
    obtain ⟨l', hl', he⟩ := ih (pre ++ [c0]) c1 post1 b (readChar l) n (At_readChar_cons hat)
      hcp (fun x hx => hc0 x (List.mem_cons_of_mem _ hx))
      (fun ⟨s, t, hst⟩ => hinf ⟨c0 :: s, t, by rw [← hst]; rfl⟩)
      (by simp at hn; omega)
    exact ⟨l', by simpa using hl', he⟩

theorem block_comment_tokens {l l2 : Lexer} {pre pre2 c b : GoString} {k1 k2 : Nat}
    (hat : At l pre 47 (42 :: (c ++ 42 :: 47 :: b))) (hc0 : ∀ x ∈ c, x ≠ 0)
    (hinf : ¬ [42, 47] <:+: c)
    (h2 : StandsAt l2 pre2 b) (hk1 : remaining l < k1) (hk2 : remaining l2 < k2) :
    tokensFrom k1 l = tokensFrom k2 l2 := by
  obtain ⟨c1, post1, hcp⟩ : ∃ c1 post1, c1 :: post1 = c ++ 42 :: 47 :: b := by
    cases c with
    | nil => exact ⟨42, 47 :: b, rfl⟩
    | cons a t => exact ⟨a, t ++ 42 :: 47 :: b, rfl⟩
  have hat1 := At_readChar_cons hat
  rw [← hcp] at hat1
  have hat2 := At_readChar_cons hat1
  obtain ⟨l', hl', he⟩ := At_blockLoop c (pre ++ [47] ++ [42]) c1 post1 b
    (readChar (readChar l)) (c.length + 1) hat2 hcp hc0 hinf (by omega)
  have hnt : NextToken l = NextToken (readChar (readChar l')) :=
    NextToken_block_comment hat.2.2.2 (At_peekChar hat) he
  have hs : StandsAt (readChar (readChar l')) (pre ++ [47] ++ [42] ++ c ++ [42] ++ [47]) b :=
    StandsAt_readChar (At_readChar_cons hl')
  have hle := (blockLoop_props he).2
  have := readChar_remaining_le l
  have := readChar_remaining_le (readChar l)
  rw [tokensFrom_congr hnt k1]
  exact StandsAt_tokensFrom hs h2 (by omega) hk2

/-- Replacing `X1` by `X2` after a stretch `a` that is empty or ends in
whitespace and holds no quote, slash or NUL does not change the tokens, when
lexers standing at the start of `X1` and of `X2` return the same tokens. -/
theorem tokens_after_prefix (a X1 X2 : GoString)
    (ha : ∀ x ∈ a, x ≠ 34 ∧ x ≠ 39 ∧ x ≠ 47 ∧ x ≠ 0)
    (hlast : a = [] ∨ ∃ a' w, a = a' ++ [w] ∧ isSpace w = true)
    (hX : ∀ (l1 l2 : Lexer) (pre1 pre2 : GoString) (k1 k2 : Nat),
      StandsAt l1 pre1 X1 → StandsAt l2 pre2 X2 → remaining l1 < k1 → remaining l2 < k2 →
      tokensFrom k1 l1 = tokensFrom k2 l2) :
    tokens (a ++ X1) = tokens (a ++ X2) := by
  unfold tokens
  rcases hlast with rfl | ⟨a', w, rfl, hw⟩
  · simp only [List.nil_append]
    exact hX _ _ [] [] _ _ (StandsAt_New X1) (StandsAt_New X2)
      (by have := remaining_New X1; omega) (by have := remaining_New X2; omega)
  · obtain ⟨ts, hts⟩ := prefix_tokens_exist a'.length a' (le_refl _)
      (fun x hx => ha x (List.mem_append_left _ hx)) w hw
    have key : ∀ X : GoString, ∃ (B : Lexer) (k' : Nat), At B a' w X ∧ remaining B < k' ∧
        tokensFrom ((a' ++ [w] ++ X).length + 1) (New (a' ++ [w] ++ X)) =
          ts ++ tokensFrom k' B := by
      intro X
      obtain ⟨c, post, hcp⟩ : ∃ c post, c :: post = a' ++ w :: X := by
        cases a' with
        | nil => exact ⟨w, X, rfl⟩
        | cons x t => exact ⟨x, t ++ w :: X, rfl⟩
      have e : a' ++ [w] ++ X = c :: post := by rw [hcp]; simp
      rw [e]
      obtain ⟨B, k', hB, hk', he⟩ := hts X [] (New (c :: post)) c post ((c :: post).length + 1)
        (At_New c post) hcp (by have := remaining_New (c :: post); omega)
      exact ⟨B, k', by simpa using hB, hk', he⟩
    obtain ⟨B1, k1, hB1, hk1, e1⟩ := key X1
    obtain ⟨B2, k2, hB2, hk2, e2⟩ := key X2
    rw [e1, e2]
    congr 1
    rw [tokensFrom_congr (NextToken_skip_space (by rw [hB1.2.2.2]; exact hw)) k1,
      tokensFrom_congr (NextToken_skip_space (by rw [hB2.2.2.2]; exact hw)) k2]
    have := readChar_remaining_le B1
    have := readChar_remaining_le B2
    exact hX _ _ _ _ _ _ (StandsAt_readChar hB1) (StandsAt_readChar hB2) (by omega) (by omega)

/-- C3: comment transparency.  For sources `a` and `b`, where `a` holds no
quote, slash or NUL byte and is empty or ends in a whitespace byte, and a
comment text `c` without NUL: a line comment `// c` before a newline, with `c`
free of newlines, and a block comment `/* c */`, with `c` free of `*/`, leave
the sequence of (kind, literal) pairs up to the first `EOF` unchanged. -/
theorem comment_transparency (a b c : GoString)
    (ha : ∀ x ∈ a, x ≠ 34 ∧ x ≠ 39 ∧ x ≠ 47 ∧ x ≠ 0)
    (hlast : a = [] ∨ ∃ a' w, a = a' ++ [w] ∧ isSpace w = true)
    (hc : ∀ x ∈ c, x ≠ 0) :
    ((∀ x ∈ c, x ≠ 10) →
      tokens (a ++ str "//" ++ c ++ str "\n" ++ b) = tokens (a ++ str "\n" ++ b)) ∧
    (¬ str "*/" <:+: c →
      tokens (a ++ str "/*" ++ c ++ str "*/" ++ b) = tokens (a ++ b)) := by
  have s1 : str "//" = [47, 47] := by decide
  have s2 : str "\n" = [10] := by decide
  have s3 : str "/*" = [47, 42] := by decide
  have s4 : str "*/" = [42, 47] := by decide
  rw [s1, s2, s3, s4]
  constructor
  · intro hnl
    have e1 : a ++ [47, 47] ++ c ++ [10] ++ b = a ++ (47 :: 47 :: (c ++ 10 :: b)) := by simp
    have e2 : a ++ [10] ++ b = a ++ (10 :: b) := by simp
    rw [e1, e2]
    apply tokens_after_prefix a _ _ ha hlast
    intro l1 l2 pre1 pre2 k1 k2 h1 h2 hk1 hk2
    exact line_comment_tokens h1 (fun x hx => ⟨hc x hx, hnl x hx⟩) h2 hk1 hk2
  · intro hinf
    have e1 : a ++ [47, 42] ++ c ++ [42, 47] ++ b = a ++ (47 :: 42 :: (c ++ 42 :: 47 :: b)) := by
      simp
    rw [e1]
    apply tokens_after_prefix a _ _ ha hlast
    intro l1 l2 pre1 pre2 k1 k2 h1 h2 hk1 hk2
    exact block_comment_tokens h1 hc hinf h2 hk1 hk2

set_option maxRecDepth 100000 in
theorem comment_transparency_witness :
    tokens (str "x " ++ str "//" ++ str "c*/" ++ str "\n" ++ str "y;") =
      tokens (str "x " ++ str "\n" ++ str "y;") ∧
    tokens (str "x " ++ str "/*" ++ str "c\n*" ++ str "*/" ++ str "y;") =
      tokens (str "x " ++ str "y;") :=
  ⟨(comment_transparency (str "x ") (str "y;") (str "c*/") (by decide)
      (Or.inr ⟨str "x", 32, by decide, by decide⟩) (by decide)).1 (by decide),
   (comment_transparency (str "x ") (str "y;") (str "c\n*") (by decide)
      (Or.inr ⟨str "x", 32, by decide, by decide⟩) (by decide)).2 (by decide)⟩

/-! ### Environments -/

theorem Get_mk_found (store : GoString → Option Ty) (outer : Option TypeEnvironment)
    (name : GoString) (t : Ty) (h : store name = some t) :
    (TypeEnvironment.mk store outer).Get name = (t, true) := by
  delta TypeEnvironment.Get
  simp only []
  rw [h]

theorem Get_mk_outer (store : GoString → Option Ty) (o : TypeEnvironment)
    (name : GoString) (h : store name = none) :
    (TypeEnvironment.mk store (some o)).Get name = o.Get name := by
  delta TypeEnvironment.Get
  simp only []
  rw [h]

theorem Get_mk_missing (store : GoString → Option Ty)
    (name : GoString) (h : store name = none) :
    (TypeEnvironment.mk store none).Get name = (.nil, false) := by
  delta TypeEnvironment.Get
  simp only []
  rw [h]

theorem Get_Set_same (env : TypeEnvironment) (n : GoString) (t : Ty) :
    (env.Set n t).Get n = (t, true) := by
  cases env with
  | mk store outer =>
    rw [TypeEnvironment.Set]
    exact Get_mk_found _ _ n t (by simp)

theorem Get_Set_other (env : TypeEnvironment) (n m : GoString) (t : Ty) (h : m ≠ n) :
    (env.Set n t).Get m = env.Get m := by
  cases env with
  | mk store outer =>
    rw [TypeEnvironment.Set]
    cases hs : store m with
    | some v =>
      rw [Get_mk_found _ _ m v (by simp [h, hs]), Get_mk_found _ _ m v hs]
    | none =>
      cases outer with
      | none =>
        rw [Get_mk_missing _ m (by simp [h, hs]), Get_mk_missing _ m hs]
      | some o =>
        rw [Get_mk_outer _ o m (by simp [h, hs]), Get_mk_outer _ o m hs]

theorem outerEnv_Set (env : TypeEnvironment) (n : GoString) (t : Ty) :
    (env.Set n t).outerEnv = env.outerEnv := by
  cases env with
  | mk store outer => rfl

/-- C13: for an environment `inner` whose enclosing environment is `outer`:
after `inner.Set(n, t)` a `Get` of `n` on it returns `(t, true)`; its enclosing
environment is still `outer`, so `outer.Get(m)` is for every `m` what it was;
and every other name resolves on `inner` as before.  `Get` returns a type and a
flag only and assigns to nothing. -/
theorem Set_shadows_without_touching_outer (store : GoString → Option Ty)
    (outer : TypeEnvironment) (n : GoString) (t : Ty) :
    ((TypeEnvironment.mk store (some outer)).Set n t).Get n = (t, true) ∧
    ((TypeEnvironment.mk store (some outer)).Set n t).outerEnv = some outer ∧
    (∀ m, (((TypeEnvironment.mk store (some outer)).Set n t).outerEnv.map
        (fun o => o.Get m)) = some (outer.Get m)) ∧
    (∀ m, m ≠ n → ((TypeEnvironment.mk store (some outer)).Set n t).Get m =
        (TypeEnvironment.mk store (some outer)).Get m) :=
  ⟨Get_Set_same _ n t, rfl, fun _ => rfl, fun m h => Get_Set_other _ n m t h⟩

theorem Set_shadows_without_touching_outer_witness :
    ((TypeEnvironment.mk (fun _ => none)
        (some ((NewTypeEnvironment).Set (str "x") (.basic (str "number"))))).Set
        (str "x") (.basic (str "string"))).Get (str "y") =
      (TypeEnvironment.mk (fun _ => none)
        (some ((NewTypeEnvironment).Set (str "x") (.basic (str "number"))))).Get (str "y") :=
  (Set_shadows_without_touching_outer (fun _ => none)
    ((NewTypeEnvironment).Set (str "x") (.basic (str "number"))) (str "x")
    (.basic (str "string"))).2.2.2 (str "y") (by decide)

/-! ### Let statements -/

theorem checkExpression_env (tc : TypeChecker) (e : Expression) :
    (tc.checkExpression e).2.env = tc.env := by
  cases e <;> simp only [TypeChecker.checkExpression, TypeChecker.addError]
  case Identifier v =>
    unfold TypeChecker.checkIdentifier
    rcases hg : tc.env.Get v with ⟨val, ok⟩
    cases ok <;> rfl

theorem checkIdentifier_bound (tc : TypeChecker) (name : GoString) (ty : Ty)
    (h : tc.env.Get name = (ty, true)) : tc.checkIdentifier name = (ty, tc) := by
  unfold TypeChecker.checkIdentifier
  rw [h]

theorem checkLetStatement_of_ne_nil (tc : TypeChecker) (name : GoString) (value : Expression)
    (h : value ≠ .nil) :
    tc.checkLetStatement name value =
      ((tc.checkExpression value).1,
       { (tc.checkExpression value).2 with
         env := (tc.checkExpression value).2.env.Set name (tc.checkExpression value).1 }) := by
  cases value <;> first | exact absurd rfl h | rfl

/-- C11: checking a let statement binds its name, in the checker's
environment, to `any` when there is no initializer and otherwise to the type
inferred for the initializer, and leaves every other name as it resolved before.
An integer literal infers `number`, a string literal `string`, a function
literal `function` whatever its parameters and body, a bound identifier the type
it resolves to; in these cases and without initializer no diagnostic is added.
After `let x = 5; let y = "hello"; let z = x;` a fresh checker holds x: number,
y: string, z: number and no diagnostics. -/
theorem let_binds_inferred_type (tc : TypeChecker) (name : GoString) :
    ((tc.checkStatement (.LetStatement name .nil)).2.env.Get name =
        (.basic (str "any"), true) ∧
      (∀ m, m ≠ name →
        (tc.checkStatement (.LetStatement name .nil)).2.env.Get m = tc.env.Get m) ∧
      (tc.checkStatement (.LetStatement name .nil)).2.errors = tc.errors) ∧
    (∀ value : Expression, value ≠ .nil →
      (tc.checkStatement (.LetStatement name value)).2.env.Get name =
        ((tc.checkExpression value).1, true) ∧
      (∀ m, m ≠ name →
        (tc.checkStatement (.LetStatement name value)).2.env.Get m = tc.env.Get m) ∧
      (tc.checkStatement (.LetStatement name value)).2.errors =
        (tc.checkExpression value).2.errors) ∧
    (∀ (tok : Token) (v : Int),
      tc.checkExpression (.IntegerLiteral tok v) = (.basic (str "number"), tc)) ∧
    (∀ v : GoString, tc.checkExpression (.StringLiteral v) = (.basic (str "string"), tc)) ∧
    (∀ (ps : List GoString) (body : List Statement),
      tc.checkExpression (.FunctionLiteral ps body) = (.basic (str "function"), tc)) ∧
    (∀ (y : GoString) (ty : Ty), tc.env.Get y = (ty, true) →
      tc.checkExpression (.Identifier y) = (ty, tc)) ∧
    ((TypeChecker.New.checkAll
        [.LetStatement (str "x") (.IntegerLiteral ⟨.INT, str "5", 1, 9⟩ 5),
         .LetStatement (str "y") (.StringLiteral (str "hello")),
         .LetStatement (str "z") (.Identifier (str "x"))]).env.Get (str "x") =
        (.basic (str "number"), true) ∧
     (TypeChecker.New.checkAll
        [.LetStatement (str "x") (.IntegerLiteral ⟨.INT, str "5", 1, 9⟩ 5),
         .LetStatement (str "y") (.StringLiteral (str "hello")),
         .LetStatement (str "z") (.Identifier (str "x"))]).env.Get (str "y") =
        (.basic (str "string"), true) ∧
     (TypeChecker.New.checkAll
        [.LetStatement (str "x") (.IntegerLiteral ⟨.INT, str "5", 1, 9⟩ 5),
         .LetStatement (str "y") (.StringLiteral (str "hello")),
         .LetStatement (str "z") (.Identifier (str "x"))]).env.Get (str "z") =
        (.basic (str "number"), true) ∧
     (TypeChecker.New.checkAll
        [.LetStatement (str "x") (.IntegerLiteral ⟨.INT, str "5", 1, 9⟩ 5),
         .LetStatement (str "y") (.StringLiteral (str "hello")),
         .LetStatement (str "z") (.Identifier (str "x"))]).errors = []) := by
  refine ⟨⟨?_, ?_, ?_⟩, ?_, fun _ _ => rfl, fun _ => rfl, fun _ _ => rfl, ?_, ?_⟩
  · simp only [TypeChecker.checkStatement, TypeChecker.checkLetStatement]
    exact Get_Set_same _ _ _
  · intro m hm
    simp only [TypeChecker.checkStatement, TypeChecker.checkLetStatement]
    exact Get_Set_other _ _ _ _ hm
  · simp only [TypeChecker.checkStatement, TypeChecker.checkLetStatement]
  · intro value hv
    simp only [TypeChecker.checkStatement]
    rw [checkLetStatement_of_ne_nil tc name value hv]
    refine ⟨Get_Set_same _ _ _, fun m hm => ?_, rfl⟩
    dsimp only
    rw [Get_Set_other _ _ _ _ hm, checkExpression_env]
  · intro y ty h
    simp only [TypeChecker.checkExpression]
    exact checkIdentifier_bound tc y ty h
  · decide

theorem let_binds_inferred_type_witness :
    (TypeChecker.New.checkStatement
        (.LetStatement (str "x") (.StringLiteral (str "s")))).2.env.Get (str "x") =
      ((TypeChecker.New.checkExpression (.StringLiteral (str "s"))).1, true) :=
  ((let_binds_inferred_type TypeChecker.New (str "x")).2.1 (.StringLiteral (str "s"))
    (fun h => Expression.noConfusion h)).1

/-! ### Blocks -/

theorem checkBlockStatement_checkAll (ss : List Statement) :
    ∀ (tc : TypeChecker) (lastType : Ty),
      (TypeChecker.checkBlockStatement tc lastType ss).2 = tc.checkAll ss := by
  induction ss with
  | nil => intro tc lt; rfl
  | cons s ss ih =>
    intro tc lt
    rw [TypeChecker.checkBlockStatement, TypeChecker.checkAll]
    exact ih _ _

/-- C19 (as amended): a block opens no scope.  Checking a block statement
leaves the checker as checking the block's statements one after the other in
the enclosing sequence does, so after `let x = 5;` and a block that contains
`let x = "s";` the name `x` resolves to `string`, every other name resolves as
before and no diagnostic is added. -/
theorem block_let_rebinds_enclosing_name (tc : TypeChecker) (x s : GoString) (tok : Token)
    (v : Int) :
    (∀ ss : List Statement, (tc.checkStatement (.BlockStatement ss)).2 = tc.checkAll ss) ∧
    (tc.checkAll [.LetStatement x (.IntegerLiteral tok v),
        .BlockStatement [.LetStatement x (.StringLiteral s)]]).env.Get x =
      (.basic (str "string"), true) ∧
    (∀ m, m ≠ x →
      (tc.checkAll [.LetStatement x (.IntegerLiteral tok v),
        .BlockStatement [.LetStatement x (.StringLiteral s)]]).env.Get m = tc.env.Get m) ∧
    (tc.checkAll [.LetStatement x (.IntegerLiteral tok v),
        .BlockStatement [.LetStatement x (.StringLiteral s)]]).errors = tc.errors := by
  have hb : ∀ ss : List Statement,
      (tc.checkStatement (.BlockStatement ss)).2 = tc.checkAll ss := by
    intro ss
    rw [TypeChecker.checkStatement]
    exact checkBlockStatement_checkAll ss tc .nil
  have e : tc.checkAll [.LetStatement x (.IntegerLiteral tok v),
        .BlockStatement [.LetStatement x (.StringLiteral s)]] =
      { errors := tc.errors,
        env := (tc.env.Set x (.basic (str "number"))).Set x (.basic (str "string")) } := by
    simp only [TypeChecker.checkAll, TypeChecker.checkStatement,
      TypeChecker.checkBlockStatement, TypeChecker.checkLetStatement,
      TypeChecker.checkExpression]
  rw [e]
  refine ⟨hb, Get_Set_same _ _ _, fun m hm => ?_, rfl⟩
  dsimp only
  rw [Get_Set_other _ _ _ _ hm, Get_Set_other _ _ _ _ hm]

theorem block_let_rebinds_enclosing_name_witness :
    (TypeChecker.New.checkAll [.LetStatement (str "x") (.IntegerLiteral ⟨.INT, str "5", 1, 9⟩ 5),
        .BlockStatement [.LetStatement (str "x") (.StringLiteral (str "s"))]]).env.Get (str "y") =
      TypeChecker.New.env.Get (str "y") :=
  (block_let_rebinds_enclosing_name TypeChecker.New (str "x") (str "s")
    ⟨.INT, str "5", 1, 9⟩ 5).2.2.1 (str "y") (by decide)

/-- C19 (counterexample): after `let x = 5;` and the block `{ let x = "s"; }`
a fresh checker resolves `x` to `string`, not to `number`. -/
theorem block_shadowing_not_scope_local :
    (TypeChecker.New.checkAll [.LetStatement (str "x") (.IntegerLiteral ⟨.INT, str "5", 1, 9⟩ 5),
        .BlockStatement [.LetStatement (str "x") (.StringLiteral (str "s"))]]).env.Get (str "x") =
      (.basic (str "string"), true) ∧
    (TypeChecker.New.checkAll [.LetStatement (str "x") (.IntegerLiteral ⟨.INT, str "5", 1, 9⟩ 5),
        .BlockStatement [.LetStatement (str "x") (.StringLiteral (str "s"))]]).env.Get (str "x") ≠
      (.basic (str "number"), true) := by
  decide

/-! ### Diagnostics are appended in source order -/

theorem checkExpression_errors (errs : List GoString) (env : TypeEnvironment) (e : Expression) :
    (TypeChecker.checkExpression ⟨errs, env⟩ e) =
      ((TypeChecker.checkExpression ⟨[], env⟩ e).1,
       ⟨errs ++ (TypeChecker.checkExpression ⟨[], env⟩ e).2.errors,
        (TypeChecker.checkExpression ⟨[], env⟩ e).2.env⟩) := by
  cases e <;> simp only [TypeChecker.checkExpression, TypeChecker.addError, List.append_nil,
    List.nil_append]
  case Identifier v =>
    unfold TypeChecker.checkIdentifier
    dsimp only
    rcases hg : env.Get v with ⟨val, ok⟩
    cases ok <;> simp [TypeChecker.addError]

theorem checkLetStatement_errors (errs : List GoString) (env : TypeEnvironment)
    (name : GoString) (e : Expression) :
    (TypeChecker.checkLetStatement ⟨errs, env⟩ name e) =
      ((TypeChecker.checkLetStatement ⟨[], env⟩ name e).1,
       ⟨errs ++ (TypeChecker.checkLetStatement ⟨[], env⟩ name e).2.errors,
        (TypeChecker.checkLetStatement ⟨[], env⟩ name e).2.env⟩) := by
  by_cases h : e = .nil
  · subst h
    simp [TypeChecker.checkLetStatement]
  · rw [checkLetStatement_of_ne_nil _ _ _ h, checkLetStatement_of_ne_nil _ _ _ h,
      checkExpression_errors errs env e]

theorem checkReturnStatement_errors (errs : List GoString) (env : TypeEnvironment)
    (e : Expression) :
    (TypeChecker.checkReturnStatement ⟨errs, env⟩ e) =
      ((TypeChecker.checkReturnStatement ⟨[], env⟩ e).1,
       ⟨errs ++ (TypeChecker.checkReturnStatement ⟨[], env⟩ e).2.errors,
        (TypeChecker.checkReturnStatement ⟨[], env⟩ e).2.env⟩) := by
  cases e <;> first
    | (simp only [TypeChecker.checkReturnStatement]; exact checkExpression_errors errs env _)
    | simp [TypeChecker.checkReturnStatement]

mutual
theorem checkStatement_errors (errs : List GoString) (env : TypeEnvironment) :
    ∀ s : Statement,
    (TypeChecker.checkStatement ⟨errs, env⟩ s) =
      ((TypeChecker.checkStatement ⟨[], env⟩ s).1,
       ⟨errs ++ (TypeChecker.checkStatement ⟨[], env⟩ s).2.errors,
        (TypeChecker.checkStatement ⟨[], env⟩ s).2.env⟩)
  | .LetStatement name value => by
    simp only [TypeChecker.checkStatement]
    exact checkLetStatement_errors errs env name value
  | .ReturnStatement rv => by
    simp only [TypeChecker.checkStatement]
    exact checkReturnStatement_errors errs env rv
  | .ExpressionStatement e => by
    simp only [TypeChecker.checkStatement]
    exact checkExpression_errors errs env e
  | .BlockStatement ss => by
    simp only [TypeChecker.checkStatement]
    exact checkBlockStatement_errors errs env .nil ss
  | .Other => by
    simp [TypeChecker.checkStatement]
theorem checkBlockStatement_errors (errs : List GoString) (env : TypeEnvironment) (lt : Ty) :
    ∀ ss : List Statement,
    (TypeChecker.checkBlockStatement ⟨errs, env⟩ lt ss) =
      ((TypeChecker.checkBlockStatement ⟨[], env⟩ lt ss).1,
       ⟨errs ++ (TypeChecker.checkBlockStatement ⟨[], env⟩ lt ss).2.errors,
        (TypeChecker.checkBlockStatement ⟨[], env⟩ lt ss).2.env⟩)
  | [] => by simp [TypeChecker.checkBlockStatement]
  | s :: ss => by
    rw [TypeChecker.checkBlockStatement, TypeChecker.checkBlockStatement]
    rw [checkStatement_errors errs env s,
      checkBlockStatement_errors _ _ _ ss]
    conv_rhs => rw [checkBlockStatement_errors _ _ _ ss]
    simp [List.append_assoc]
end

theorem checkAll_errors (ss : List Statement) :
    ∀ (errs : List GoString) (env : TypeEnvironment),
      TypeChecker.checkAll ⟨errs, env⟩ ss =
        ⟨errs ++ (TypeChecker.checkAll ⟨[], env⟩ ss).errors,
         (TypeChecker.checkAll ⟨[], env⟩ ss).env⟩ := by
  induction ss with
  | nil => intro errs env; simp [TypeChecker.checkAll]
  | cons s ss ih =>
    intro errs env
    rw [TypeChecker.checkAll, TypeChecker.checkAll, checkStatement_errors errs env s]
    dsimp only
    rw [ih]
    conv_rhs => rw [ih]
    simp [List.append_assoc]

theorem checkAll_append (p q : List Statement) :
    ∀ tc : TypeChecker, tc.checkAll (p ++ q) = (tc.checkAll p).checkAll q := by
  induction p with
  | nil => intro tc; rfl
  | cons s p ih =>
    intro tc
    rw [List.cons_append, TypeChecker.checkAll, TypeChecker.checkAll]
    exact ih _

theorem New_Get_any (name : GoString) : NewTypeEnvironment.Get name = (.nil, false) := rfl

theorem checkAll_unbound_identifiers (names : List GoString) :
    ∀ errs : List GoString,
      TypeChecker.checkAll ⟨errs, NewTypeEnvironment⟩
          (names.map (fun n => Statement.ExpressionStatement (.Identifier n))) =
        ⟨errs ++ names.map (fun n => str "undefined variable: " ++ n), NewTypeEnvironment⟩ := by
  induction names with
  | nil => intro errs; simp [TypeChecker.checkAll]
  | cons n names ih =>
    intro errs
    rw [List.map_cons, TypeChecker.checkAll]
    simp only [TypeChecker.checkStatement, TypeChecker.checkExpression]
    rw [checkIdentifier_unbound ⟨errs, NewTypeEnvironment⟩ n (by rw [New_Get_any])]
    simp only [TypeChecker.addError]
    rw [ih]
    simp [List.append_assoc]

/-- C12: `Check` checks every statement and appends the diagnostics in source
order: for a fresh checker the diagnostics of `p ++ q` are those of `p` followed
by those that the statements of `q` produce in the environment `p` leaves; and
`k` expression statements naming unbound identifiers give exactly the `k`
diagnostics `undefined variable: n_i`, in order. -/
theorem diagnostics_in_source_order (p q : List Statement) :
    (TypeChecker.New.Check ⟨p ++ q⟩).1 =
      (TypeChecker.New.Check ⟨p⟩).1 ++
        (TypeChecker.Check ⟨[], (TypeChecker.New.Check ⟨p⟩).2.env⟩ ⟨q⟩).1 ∧
    (∀ names : List GoString,
      (TypeChecker.New.Check
          ⟨names.map (fun n => Statement.ExpressionStatement (.Identifier n))⟩).1 =
        names.map (fun n => str "undefined variable: " ++ n)) := by
  constructor
  · simp only [TypeChecker.Check]
    rw [checkAll_append]
    generalize TypeChecker.New.checkAll p = tc1
    obtain ⟨errs, env⟩ := tc1
    rw [checkAll_errors q errs env]
  · intro names
    simp only [TypeChecker.Check, TypeChecker.New]
    rw [checkAll_unbound_identifiers]
    rfl

/-! ### Code generation -/

theorem writeStatements_eq (p : List Statement) :
    ∀ out : GoString,
      writeStatements out p = out ++ (p.map (fun s => generateJSStatement s ++ str "\n")).flatten := by
  induction p with
  | nil => intro out; simp [writeStatements]
  | cons s p ih =>
    intro out
    rw [writeStatements, ih]
    simp [List.append_assoc]

theorem GenerateJavaScript_eq (p : List Statement) :
    GenerateJavaScript ⟨p⟩ = (p.map (fun s => generateJSStatement s ++ str "\n")).flatten := by
  unfold GenerateJavaScript
  rw [writeStatements_eq]
  rfl

theorem specExpression_sound (e : Expression) (txt : GoString)
    (h : specExpression e = some txt) : generateJSExpression e = txt := by
  cases e <;> simp only [specExpression, Option.some.injEq] at h <;>
    first | exact h | cases h

theorem specStatement_sound (s : Statement) (txt : GoString)
    (h : specStatement s = some txt) : generateJSStatement s = txt := by
  cases s with
  | LetStatement name value =>
    simp only [specStatement, Option.map_eq_some'] at h
    obtain ⟨e, he, rfl⟩ := h
    rw [generateJSStatement, specExpression_sound _ _ he]
  | ReturnStatement rv =>
    simp only [specStatement, Option.map_eq_some'] at h
    obtain ⟨e, he, rfl⟩ := h
    rw [generateJSStatement, specExpression_sound _ _ he]
  | ExpressionStatement ex =>
    simp only [specStatement, Option.map_eq_some'] at h
    obtain ⟨e, he, rfl⟩ := h
    rw [generateJSStatement, specExpression_sound _ _ he]
  | BlockStatement ss => simp [specStatement] at h
  | Other => simp [specStatement] at h

theorem specProgram_sound (p : List Statement) :
    ∀ out : GoString, specProgram p = some out → GenerateJavaScript ⟨p⟩ = out := by
  induction p with
  | nil =>
    intro out h
    simp only [specProgram, Option.some.injEq] at h
    subst h; rfl
  | cons s p ih =>
    intro out h
    rw [specProgram] at h
    cases hs : specStatement s with
    | none => rw [hs] at h; simp at h
    | some line =>
      cases hp : specProgram p with
      | none => rw [hs, hp] at h; simp at h
      | some rest =>
        rw [hs, hp] at h
        simp only [Option.some.injEq] at h
        subst h
        rw [GenerateJavaScript_eq, List.map_cons, List.flatten_cons,
          specStatement_sound s line hs, ← GenerateJavaScript_eq, ih rest hp]

/-- C14: `GenerateJavaScript` returns the renderings of the statements in
order, each followed by one newline; for let, return and expression statements
over integer literals, string literals and identifiers the rendering is the one
the specification gives; generation distributes over concatenation of programs;
and the tree of `let x = 5; let y = "hello"; let z = x; return z;` generates
exactly those four lines. -/
theorem generate_statement_lines (p q : List Statement) :
    GenerateJavaScript ⟨p ++ q⟩ = GenerateJavaScript ⟨p⟩ ++ GenerateJavaScript ⟨q⟩ ∧
    GenerateJavaScript ⟨p⟩ = (p.map (fun s => generateJSStatement s ++ str "\n")).flatten ∧
    (∀ out : GoString, specProgram p = some out → GenerateJavaScript ⟨p⟩ = out) ∧
    GenerateJavaScript
        ⟨[.LetStatement (str "x") (.IntegerLiteral ⟨.INT, str "5", 1, 9⟩ 5),
          .LetStatement (str "y") (.StringLiteral (str "hello")),
          .LetStatement (str "z") (.Identifier (str "x")),
          .ReturnStatement (.Identifier (str "z"))]⟩ =
      str "let x = 5;\nlet y = " ++ [34] ++ str "hello" ++ [34] ++
        str ";\nlet z = x;\nreturn z;\n" := by
  refine ⟨?_, GenerateJavaScript_eq p, specProgram_sound p, by decide⟩
  rw [GenerateJavaScript_eq, GenerateJavaScript_eq, GenerateJavaScript_eq, List.map_append,
    List.flatten_append]

theorem generate_statement_lines_witness :
    GenerateJavaScript ⟨[.ReturnStatement (.Identifier (str "z"))]⟩ = str "return z;\n" :=
  (generate_statement_lines [.ReturnStatement (.Identifier (str "z"))] []).2.2.1
    (str "return z;\n") (by decide)

/-- C15: an integer literal node generates the literal text of its token; a
string literal node with value `v` generates a double quote, `v` unchanged and a
double quote, also when `v` holds a double quote; the first token of the
single-quoted source `'hello'` is a `STRING` whose literal, as the value of a
string literal node, generates `"hello"`. -/
theorem literal_fidelity :
    (∀ (tok : Token) (v : Int), generateJSExpression (.IntegerLiteral tok v) = tok.Literal) ∧
    (∀ v : GoString, generateJSExpression (.StringLiteral v) = [34] ++ v ++ [34]) ∧
    generateJSExpression (.StringLiteral [97, 34, 98]) = [34, 97, 34, 98, 34] ∧
    (nthToken 0 (New (str "'hello'"))).Typ = .STRING ∧
    generateJSExpression (.StringLiteral (nthToken 0 (New (str "'hello'"))).Literal) =
      [34] ++ str "hello" ++ [34] :=
  ⟨fun _ _ => rfl, fun _ => rfl, by decide, by decide, by decide⟩

/-! ### The pipeline -/

theorem str_parse_errors_head (rest : GoString) :
    ¬ str "type error: " <+: str "parse errors: " ++ rest := by
  rintro ⟨t, ht⟩
  have e1 : str "type error: " = 116 :: str "ype error: " := by decide
  have e2 : str "parse errors: " = 112 :: str "arse errors: " := by decide
  rw [e1, e2] at ht
  simp only [List.cons_append, List.cons.injEq] at ht
  exact absurd ht.1 (by decide)

/-- C16: whenever the parser returns a non-empty list of errors, `Compile`
returns the empty output and the error `parse errors: ` followed by the
messages joined with `, `, whatever program the parser returned; the result
mentions neither the checker nor the generator, and the message does not start
with `type error: `. -/
theorem parse_errors_short_circuit (parse : Lexer → Program × List GoString)
    (input : GoString) (h : (parse (New input)).2 ≠ []) :
    Compile parse input =
      ([], some (str "parse errors: " ++ Join (parse (New input)).2 (str ", "))) ∧
    (∀ msg, (Compile parse input).2 = some msg → ¬ str "type error: " <+: msg) := by
  have hlen : (parse (New input)).2.length > 0 := List.length_pos.mpr h
  have e : Compile parse input =
      ([], some (str "parse errors: " ++ Join (parse (New input)).2 (str ", "))) := by
    unfold Compile
    dsimp only
    rw [if_pos hlen]
  refine ⟨e, ?_⟩
  intro msg hmsg
  rw [e] at hmsg
  simp only [Option.some.injEq] at hmsg
  subst hmsg
  exact str_parse_errors_head _

theorem parse_errors_short_circuit_witness :
    Compile (fun _ => (⟨[.LetStatement (str "x") (.Identifier (str "y"))]⟩,
        [str "no prefix parse function", str "expected ;"])) (str "let x = ;") =
      ([], some (str "parse errors: no prefix parse function, expected ;")) :=
  (parse_errors_short_circuit
    (fun _ => (⟨[.LetStatement (str "x") (.Identifier (str "y"))]⟩,
        [str "no prefix parse function", str "expected ;"])) (str "let x = ;")
    (fun h => List.noConfusion h)).1

/-- C17: when the parser returns no errors, `Compile` returns the empty
output and the error `type error: ` followed by the first diagnostic alone if
`Check` returns any, and otherwise no error and exactly the text of
`GenerateJavaScript`; so, for every parser, a non-empty output comes only
without an error. -/
theorem type_error_or_output (parse : Lexer → Program × List GoString) (input : GoString) :
    ((parse (New input)).2 = [] →
      (∀ (d0 : GoString) (ds : List GoString),
        (TypeChecker.New.Check (parse (New input)).1).1 = d0 :: ds →
        Compile parse input = ([], some (str "type error: " ++ d0))) ∧
      ((TypeChecker.New.Check (parse (New input)).1).1 = [] →
        Compile parse input = (GenerateJavaScript (parse (New input)).1, none))) ∧
    ((Compile parse input).1 ≠ [] → (Compile parse input).2 = none) := by
  constructor
  · intro hp
    constructor
    · intro d0 ds hd
      unfold Compile
      dsimp only
      rw [hp, hd]
      simp
    · intro hd
      unfold Compile
      dsimp only
      rw [hp, hd]
      simp
  · unfold Compile
    dsimp only
    split_ifs <;> simp

theorem type_error_or_output_witness :
    Compile (fun _ => (⟨[.LetStatement (str "x") (.Identifier (str "y")),
        .ExpressionStatement (.Identifier (str "w"))]⟩, [])) (str "let x = y; w;") =
      ([], some (str "type error: " ++ str "undefined variable: y")) :=
  (type_error_or_output (fun _ => (⟨[.LetStatement (str "x") (.Identifier (str "y")),
        .ExpressionStatement (.Identifier (str "w"))]⟩, [])) (str "let x = y; w;")).1 rfl
    |>.1 (str "undefined variable: y") [str "undefined variable: w"] (by decide)

/-! ### Token positions -/

/-- C18 (evaluation): on the source newline, two blanks, `ab;` the identifier
carries line 2, column 3, the position of its first byte, but the `;` after it
carries line 0, column 0; so do a `;` and a `#` that are the whole input.  The
arms of the switch that build the token with a composite literal drop the
`Line` and `Column` saved before the switch. -/
theorem punctuation_token_has_no_position :
    nthToken 0 (New (str "\n  ab;")) = ⟨.IDENT, str "ab", 2, 3⟩ ∧
    nthToken 1 (New (str "\n  ab;")) = ⟨.SEMICOLON, str ";", 0, 0⟩ ∧
    nthToken 0 (New (str ";")) = ⟨.SEMICOLON, str ";", 0, 0⟩ ∧
    nthToken 0 (New (str "#")) = ⟨.ILLEGAL, str "#", 0, 0⟩ := by
  decide

/-! ### Unterminated block comments -/

theorem NextToken_eof {l : Lexer} (h : l.ch = 0) :
    NextToken l =
      ({ Typ := .EOF, Literal := [], Line := l.line, Column := l.column }, readChar l) := by
  apply NextToken_of_scanToken (n := 0) (by rw [h]; decide)
    (fun e => absurd (h.symm.trans e.1) (by decide))
    (fun e => absurd (h.symm.trans e.1) (by decide))
  unfold scanToken
  rw [h, classify_zero]

theorem blockLoop_unterminated (c : GoString) :
    ∀ (pre : GoString) (l : Lexer) (n : Nat),
      StandsAt l pre c → ¬ [42, 47] <:+: c → c.length < n →
      ∃ m, blockLoop n l = some m ∧ m.ch = 0 := by
  induction c with
  | nil =>
    intro pre l n hat _ hn
    obtain ⟨n, rfl⟩ : ∃ k, n = k + 1 := ⟨n - 1, by simp at hn; omega⟩
    exact ⟨l, by rw [blockLoop, if_pos hat.1], hat.1⟩
  | cons y c ih =>
    intro pre l n hat hinf hn
    obtain ⟨n, rfl⟩ : ∃ k, n = k + 1 := ⟨n - 1, by simp at hn; omega⟩
    have hat' : At l pre y c := hat
    by_cases h0 : l.ch = 0
    · exact ⟨l, by rw [blockLoop, if_pos h0], h0⟩
    · have hnot : ¬(l.ch = 42 ∧ peekChar l = 47) := by
        rintro ⟨e1, e2⟩
        rw [hat'.2.2.2] at e1
        cases c with
        | nil =>
          rw [At_peekChar_nil hat'] at e2
          exact absurd e2 (by decide)
        | cons z t =>
          rw [At_peekChar hat'] at e2
          subst e1 e2
          exact hinf ⟨[], t, rfl⟩
      rw [blockLoop, if_neg h0, if_neg hnot]
      exact ih (pre ++ [y]) (readChar l) n (StandsAt_readChar hat')
        (fun ⟨s, t, hst⟩ => hinf ⟨y :: s, t, by rw [← hst]; rfl⟩)
        (by simp at hn; omega)

theorem blockLoop_runs_to_end (c : GoString) :
    ∀ (pre : GoString) (l : Lexer) (n : Nat),
      StandsAt l pre c → ¬ [42, 47] <:+: c → (∀ b ∈ c, b ≠ 0) → c.length < n →
      ∃ m, blockLoop n l = some m ∧ atEnd m := by
  induction c with
  | nil =>
    intro pre l n hat _ _ hn
    obtain ⟨n, rfl⟩ : ∃ k, n = k + 1 := ⟨n - 1, by simp at hn; omega⟩
    exact ⟨l, by rw [blockLoop, if_pos hat.1], hat⟩
  | cons y c ih =>
    intro pre l n hat hinf hnul hn
    obtain ⟨n, rfl⟩ : ∃ k, n = k + 1 := ⟨n - 1, by simp at hn; omega⟩
    have hat' : At l pre y c := hat
    have h0 : ¬ l.ch = 0 := by
      rw [hat'.2.2.2]
      exact hnul y (List.mem_cons_self y c)
    have hnot : ¬(l.ch = 42 ∧ peekChar l = 47) := by
      rintro ⟨e1, e2⟩
      rw [hat'.2.2.2] at e1
      cases c with
      | nil =>
        rw [At_peekChar_nil hat'] at e2
        exact absurd e2 (by decide)
      | cons z t =>
        rw [At_peekChar hat'] at e2
        subst e1 e2
        exact hinf ⟨[], t, rfl⟩
    rw [blockLoop, if_neg h0, if_neg hnot]
    exact ih (pre ++ [y]) (readChar l) n (StandsAt_readChar hat')
      (fun ⟨s, t, hst⟩ => hinf ⟨y :: s, t, by rw [← hst]; rfl⟩)
      (fun b hb => hnul b (List.mem_cons_of_mem y hb))
      (by simp at hn; omega)

theorem afterCalls_fixed {l m : Lexer} (h1 : (NextToken l).2 = m) (h2 : (NextToken m).2 = m)
    (k : Nat) : afterCalls (k + 1) l = m := by
  induction k with
  | zero => rw [afterCalls_succ]; exact h1
  | succ k ih => rw [afterCalls_succ, ih]; exact h2

/-- C20 (as amended): an unterminated block comment without NUL bytes runs to
the end of the input.  For every comment text `c` that contains neither `*/` nor
a NUL byte, on the input `/*` followed by `c`: `skipBlockComment` stops past the
last byte of the input; the first call of `NextToken` produces `EOF` with an
empty literal and leaves the lexer there; every call returns `EOF`, so no
`SLASH` and no `ILLEGAL` token is produced; and the tokens up to the first `EOF`
are that `EOF` alone. -/
theorem unterminated_block_comment_of_no_NUL (c : GoString) (h : ¬ str "*/" <:+: c)
    (hnul : ∀ b ∈ c, b ≠ 0) :
    (∃ m : Lexer,
      skipBlockComment (c.length + 1) (New (str "/*" ++ c)) = some m ∧
      m.ch = 0 ∧ (str "/*" ++ c).length ≤ m.readPosition ∧
      NextTokenFuel (fuelBound (New (str "/*" ++ c))) (New (str "/*" ++ c)) =
        some ({ Typ := .EOF, Literal := [], Line := m.line, Column := m.column }, m) ∧
      ∀ k : Nat, afterCalls (k + 1) (New (str "/*" ++ c)) = m) ∧
    (∀ k : Nat, (nthToken k (New (str "/*" ++ c))).Typ = .EOF ∧
      (nthToken k (New (str "/*" ++ c))).Literal = []) ∧
    tokens (str "/*" ++ c) = [(.EOF, [])] := by
  have s3 : str "/*" = [47, 42] := by decide
  have s4 : str "*/" = [42, 47] := by decide
  have s5 : ([47, 42] : GoString) ++ c = 47 :: 42 :: c := rfl
  rw [s4] at h
  rw [s3, s5]
  have hat : At (New (47 :: 42 :: c)) [] 47 (42 :: c) := At_New 47 (42 :: c)
  have hs : StandsAt (readChar (readChar (New (47 :: 42 :: c)))) ([] ++ [47] ++ [42]) c :=
    StandsAt_readChar (At_readChar_cons hat)
  obtain ⟨m, hm, hend⟩ := blockLoop_runs_to_end c _ _ (c.length + 1) hs h hnul (by omega)
  have hsk : skipBlockComment (c.length + 1) (New (47 :: 42 :: c)) = some m := hm
  have hin : m.input = 47 :: 42 :: c := by
    rw [(blockLoop_props hm).1, readChar_input, readChar_input, New_input]
  have hnt : NextToken (New (47 :: 42 :: c)) = NextToken m :=
    NextToken_block_comment hat.2.2.2 (At_peekChar hat) hsk
  have hm1 : NextToken m =
      ({ Typ := .EOF, Literal := [], Line := m.line, Column := m.column }, m) :=
    NextToken_at_end m hend.1 hend.2
  have hfix : ∀ k : Nat, afterCalls (k + 1) (New (47 :: 42 :: c)) = m :=
    afterCalls_fixed (by rw [hnt, hm1]) (by rw [hm1])
  have hty : (NextToken (New (47 :: 42 :: c))).1.Typ = .EOF ∧
      (NextToken (New (47 :: 42 :: c))).1.Literal = [] := by
    rw [hnt, hm1]; exact ⟨rfl, rfl⟩
  have hall : ∀ k : Nat, (nthToken k (New (47 :: 42 :: c))).Typ = .EOF ∧
      (nthToken k (New (47 :: 42 :: c))).Literal = [] := by
    intro k
    cases k with
    | zero =>
      exact hty
    | succ k =>
      show (NextToken (afterCalls (k + 1) (New (47 :: 42 :: c)))).1.Typ = .EOF ∧
        (NextToken (afterCalls (k + 1) (New (47 :: 42 :: c)))).1.Literal = []
      rw [hfix k, hm1]; exact ⟨rfl, rfl⟩
  refine ⟨⟨m, hsk, hend.1, ?_, ?_, hfix⟩, hall, ?_⟩
  · have := hend.2
    rw [hin] at this
    exact this
  · rw [NextTokenFuel_fuelBound, hnt, hm1]
  · show tokensFrom ((47 :: 42 :: c).length + 1) (New (47 :: 42 :: c)) = [(.EOF, [])]
    rw [tokensFrom, if_pos hty.1, hty.1, hty.2]

set_option maxRecDepth 100000 in
theorem unterminated_block_comment_of_no_NUL_witness :
    (nthToken 3 (New (str "/*" ++ str " a * / b"))).Typ = .EOF ∧
    tokens (str "/*" ++ str " a * / b") = [(.EOF, [])] :=
  ⟨((unterminated_block_comment_of_no_NUL (str " a * / b") (by decide) (by decide)).2.1 3).1,
    (unterminated_block_comment_of_no_NUL (str " a * / b") (by decide) (by decide)).2.2⟩

/-- C20 (counterexample): with a NUL byte in the comment text the comment does
not run to the end of the input.  The texts NUL `/` and NUL `#` contain no `*/`;
after `/*` the first token is `EOF`, but the loop of `skipBlockComment` has
stopped on the NUL, the lexer then stands on the byte after it, and the second
call returns `SLASH`, respectively `ILLEGAL`. -/
theorem unterminated_block_comment_with_NUL :
    ¬ str "*/" <:+: ([0, 47] : GoString) ∧
    (nthToken 0 (New (str "/*" ++ [0, 47]))).Typ = .EOF ∧
    (afterCalls 1 (New (str "/*" ++ [0, 47]))).ch = 47 ∧
    (nthToken 1 (New (str "/*" ++ [0, 47]))).Typ = .SLASH ∧
    ¬ str "*/" <:+: ([0, 35] : GoString) ∧
    (nthToken 0 (New (str "/*" ++ [0, 35]))).Typ = .EOF ∧
    (nthToken 1 (New (str "/*" ++ [0, 35]))).Typ = .ILLEGAL := by
  decide

/-! ### The type a statement yields -/

theorem checkBlockStatement_snoc (ss : List Statement) (s : Statement) :
    ∀ (tc : TypeChecker) (lastType : Ty),
      TypeChecker.checkBlockStatement tc lastType (ss ++ [s]) =
        (tc.checkAll ss).checkStatement s := by
  induction ss with
  | nil =>
    intro tc lt
    rw [List.nil_append, TypeChecker.checkBlockStatement, TypeChecker.checkBlockStatement,
      TypeChecker.checkAll]
  | cons a ss ih =>
    intro tc lt
    rw [List.cons_append, TypeChecker.checkBlockStatement, TypeChecker.checkAll]
    exact ih _ _

theorem checkExpression_sixTags (tc : TypeChecker) (h : EnvTagged tc.env) (e : Expression) :
    (tc.checkExpression e).1 ∈ sixTags := by
  cases e <;> simp only [TypeChecker.checkExpression] <;> try decide
  case Identifier v =>
    unfold TypeChecker.checkIdentifier
    rcases hg : tc.env.Get v with ⟨val, ok⟩
    cases ok
    · show Ty.basic (str "unknown") ∈ sixTags
      decide
    · exact h v val hg

theorem EnvTagged_Set {env : TypeEnvironment} (h : EnvTagged env) (n : GoString) {t : Ty}
    (ht : t ∈ sixTags) : EnvTagged (env.Set n t) := by
  intro m ty hm
  by_cases e : m = n
  · subst e
    rw [Get_Set_same] at hm
    cases hm
    exact ht
  · rw [Get_Set_other _ _ _ _ e] at hm
    exact h m ty hm

theorem EnvTagged_New : EnvTagged NewTypeEnvironment := by
  intro m ty hm
  rw [New_Get_any] at hm
  cases hm

/-- A statement that is no block yields one of the six tags and keeps the
environment tagged. -/
theorem checkStatement_sixTags_of_not_block (tc : TypeChecker) (h : EnvTagged tc.env)
    (s : Statement) (hs : ∀ ss, s ≠ .BlockStatement ss) :
    (tc.checkStatement s).1 ∈ sixTags ∧ EnvTagged (tc.checkStatement s).2.env := by
  cases s with
  | LetStatement name value =>
    simp only [TypeChecker.checkStatement]
    by_cases hv : value = .nil
    · subst hv
      simp only [TypeChecker.checkLetStatement]
      exact ⟨by decide, EnvTagged_Set h name (by decide)⟩
    · rw [checkLetStatement_of_ne_nil tc name value hv]
      refine ⟨checkExpression_sixTags tc h value, ?_⟩
      dsimp only
      rw [checkExpression_env]
      exact EnvTagged_Set h name (checkExpression_sixTags tc h value)
  | ReturnStatement rv =>
    simp only [TypeChecker.checkStatement]
    by_cases hv : rv = .nil
    · subst hv
      simp only [TypeChecker.checkReturnStatement]
      exact ⟨by decide, h⟩
    · have e : tc.checkReturnStatement rv = tc.checkExpression rv := by
        cases rv <;> first | exact absurd rfl hv | rfl
      rw [e, checkExpression_env]
      exact ⟨checkExpression_sixTags tc h rv, h⟩
  | ExpressionStatement e =>
    simp only [TypeChecker.checkStatement]
    rw [checkExpression_env]
    exact ⟨checkExpression_sixTags tc h e, h⟩
  | BlockStatement ss => exact absurd rfl (hs ss)
  | Other =>
    simp only [TypeChecker.checkStatement]
    exact ⟨by decide, h⟩

/-- C21 (evaluation): the empty block.  From every checker `checkStatement`
yields the nil `Type` for the block `{}`, which is none of the six tags, and so
does a block whose last statement is an empty block; a block with a last
statement yields what that statement yields after the statements before it. -/
theorem empty_block_yields_nil_type (tc : TypeChecker) :
    (tc.checkStatement (.BlockStatement [])).1 = .nil ∧
    (tc.checkStatement (.BlockStatement [])).1 ∉ sixTags ∧
    (tc.checkStatement (.BlockStatement [.LetStatement (str "x") .nil,
        .BlockStatement []])).1 = .nil ∧
    (∀ (ss : List Statement) (s : Statement),
      (tc.checkStatement (.BlockStatement (ss ++ [s]))).1 =
        ((tc.checkAll ss).checkStatement s).1) := by
  have h0 : (tc.checkStatement (.BlockStatement [])).1 = .nil := by
    simp only [TypeChecker.checkStatement, TypeChecker.checkBlockStatement]
  refine ⟨h0, by rw [h0]; decide, ?_, ?_⟩
  · simp only [TypeChecker.checkStatement, TypeChecker.checkBlockStatement]
  · intro ss s
    rw [TypeChecker.checkStatement, checkBlockStatement_snoc]

/-! ### Where the lexer stands -/

theorem Positioned_New (input : GoString) : Positioned (New input) := by
  cases input with
  | nil => exact Or.inr New_nil_atEnd
  | cons c post => exact Or.inl ⟨[], c, post, At_New c post⟩

theorem atEnd_readChar {l : Lexer} (h : atEnd l) : readChar l = l :=
  readChar_at_end l h.1 h.2

theorem Positioned_readChar {l : Lexer} (h : Positioned l) : Positioned (readChar l) := by
  rcases h with ⟨pre, c, post, hat⟩ | he
  · cases post with
    | nil => exact Or.inr (At_readChar_nil hat).1
    | cons c' post => exact Or.inl ⟨pre ++ [c], c', post, At_readChar_cons hat⟩
  · rw [atEnd_readChar he]; exact Or.inr he

theorem Positioned_readWhile (cond : Byte → Bool) {n : Nat} {l r : Lexer}
    (h : Positioned l) (e : readWhile cond n l = some r) : Positioned r := by
  induction n generalizing l with
  | zero => simp [readWhile] at e
  | succ n ih =>
    rw [readWhile] at e
    split_ifs at e
    · exact ih (Positioned_readChar h) e
    · cases e; exact h

theorem Positioned_blockLoop {n : Nat} {l r : Lexer}
    (h : Positioned l) (e : blockLoop n l = some r) : Positioned r := by
  induction n generalizing l with
  | zero => simp [blockLoop] at e
  | succ n ih =>
    rw [blockLoop] at e
    split_ifs at e
    · cases e; exact h
    · cases e; exact Positioned_readChar (Positioned_readChar h)
    · exact ih (Positioned_readChar h) e

theorem Positioned_scanToken {n : Nat} {l : Lexer} {r : Token × Lexer}
    (h : Positioned l) (e : scanToken n l = some r) : Positioned r.2 := by
  unfold scanToken at e
  cases hcl : classify l.ch <;> rw [hcl] at e <;> simp only [] at e
  case quote =>
    unfold readString at e
    simp only [] at e
    cases hr : readWhile (notQuote l.ch) n (readChar l) with
    | none => rw [hr] at e; cases e
    | some l1 =>
      rw [hr] at e; cases e
      exact Positioned_readChar (Positioned_readWhile _ (Positioned_readChar h) hr)
  case letter =>
    unfold readIdentifier at e
    simp only [] at e
    cases hr : readWhile isLetter n l with
    | none => rw [hr] at e; cases e
    | some l1 => rw [hr] at e; cases e; exact Positioned_readWhile _ h hr
  case digit =>
    unfold readNumber at e
    simp only [] at e
    cases hr : readWhile isDigit n l with
    | none => rw [hr] at e; cases e
    | some l1 => rw [hr] at e; cases e; exact Positioned_readWhile _ h hr
  all_goals
    cases e
    exact Positioned_readChar h

/-- Every result of `NextToken` is the result of one arm of the switch, run
from a state the lexer reaches by skipping whitespace and comments. -/
theorem NextTokenFuel_scan_state {n : Nat} {l : Lexer} {r : Token × Lexer}
    (hp : Positioned l) (h : NextTokenFuel n l = some r) :
    ∃ (l1 : Lexer) (m : Nat), Positioned l1 ∧ l1.input = l.input ∧
      scanToken m l1 = some r ∧ NextToken l1 = r := by
  induction n generalizing l with
  | zero => simp [NextTokenFuel] at h
  | succ n ih =>
    rw [NextTokenFuel_succ] at h
    cases hws : skipWhitespace n l with
    | none => rw [hws] at h; cases h
    | some l1 =>
      rw [hws] at h
      obtain ⟨w1, _, w3⟩ := readWhile_props _ hws
      have hp1 := Positioned_readWhile _ hp hws
      dsimp only at h
      split_ifs at h with h1 h2
      · cases hc : skipLineComment n l1 with
        | none => rw [hc] at h; cases h
        | some l2 =>
          rw [hc] at h
          have c1 := (readWhile_props _ hc).1
          rw [readChar_input] at c1
          obtain ⟨l3, m, p3, e, hs, hn⟩ :=
            ih (Positioned_readWhile _ (Positioned_readChar hp1) hc) h
          exact ⟨l3, m, p3, by rw [e, c1, w1], hs, hn⟩
      · cases hc : skipBlockComment n l1 with
        | none => rw [hc] at h; cases h
        | some l2 =>
          rw [hc] at h
          have c1 := (blockLoop_props hc).1
          rw [readChar_input, readChar_input] at c1
          obtain ⟨l3, m, p3, e, hs, hn⟩ :=
            ih (Positioned_blockLoop (Positioned_readChar (Positioned_readChar hp1)) hc) h
          exact ⟨l3, m, p3, by rw [e, c1, w1], hs, hn⟩
      · exact ⟨l1, n, hp1, w1, h, NextToken_of_scanToken w3 h1 h2 h⟩

theorem Positioned_NextToken {l : Lexer} (h : Positioned l) : Positioned (NextToken l).2 := by
  obtain ⟨l1, m, p1, _, hs, _⟩ := NextTokenFuel_scan_state h (NextTokenFuel_fuelBound l)
  exact Positioned_scanToken p1 hs

theorem Positioned_afterCalls (input : GoString) (k : Nat) :
    Positioned (afterCalls k (New input)) := by
  induction k with
  | zero => exact Positioned_New input
  | succ k ih => rw [afterCalls_succ]; exact Positioned_NextToken ih

/-! ### A run that reaches the end of the input -/

theorem At_readWhile_to_end (cond : Byte → Bool) (h0 : cond 0 = false) (post : GoString) :
    ∀ (pre : GoString) (x : Byte) (l : Lexer) (n : Nat),
      At l pre x post → (∀ b ∈ x :: post, cond b = true) → post.length + 2 ≤ n →
      ∃ l', readWhile cond n l = some l' ∧ l'.input = l.input ∧
        l'.position = pre.length + post.length := by
  induction post with
  | nil =>
    intro pre x l n hat hall hn
    obtain ⟨n, rfl⟩ : ∃ k, n = k + 2 := ⟨n - 2, by simp at hn; omega⟩
    obtain ⟨he, hi, hpos⟩ := At_readChar_nil hat
    refine ⟨readChar l, ?_, hi, by rw [hpos, hat.2.1]; rfl⟩
    rw [readWhile, hat.2.2.2, if_pos (hall x (List.mem_cons_self _ _)), readWhile, he.1, h0]
    rfl
  | cons c post ih =>
    intro pre x l n hat hall hn
    obtain ⟨n, rfl⟩ : ∃ k, n = k + 1 := ⟨n - 1, by simp at hn; omega⟩
    rw [readWhile, hat.2.2.2, if_pos (hall x (List.mem_cons_self _ _))]
    obtain ⟨l', hl', hi, hpos⟩ := ih (pre ++ [x]) c (readChar l) n (At_readChar_cons hat)
      (fun b hb => hall b (List.mem_cons_of_mem _ hb)) (by simp at hn ⊢; omega)
    refine ⟨l', hl', by rw [hi, readChar_input], ?_⟩
    rw [hpos]
    simp only [List.length_append, List.length_cons, List.length_nil]
    omega

theorem slice_to_last (pre : GoString) (x : Byte) (post : GoString) :
    slice (pre ++ x :: post) pre.length (pre.length + post.length) = (x :: post).dropLast := by
  unfold slice
  rw [List.drop_left, Nat.add_sub_cancel_left, List.dropLast_eq_take]
  simp

theorem dropWhile_head_false (cond : Byte → Bool) (s : GoString) (y : Byte) (t : GoString)
    (h : s.dropWhile cond = y :: t) : cond y = false := by
  induction s with
  | nil => simp at h
  | cons a s ih =>
    by_cases ha : cond a = true
    · rw [List.dropWhile_cons_of_pos ha] at h
      exact ih h
    · rw [List.dropWhile_cons_of_neg ha] at h
      cases h
      simpa using ha

theorem takeWhile_all (cond : Byte → Bool) (s : GoString) :
    ∀ b ∈ s.takeWhile cond, cond b = true :=
  fun _ hb => List.mem_takeWhile_imp hb

theorem dropWhile_nil_all (cond : Byte → Bool) (s : GoString) (h : s.dropWhile cond = []) :
    s.takeWhile cond = s ∧ ∀ b ∈ s, cond b = true := by
  have e := List.takeWhile_append_dropWhile cond s
  rw [h, List.append_nil] at e
  exact ⟨e, fun b hb => takeWhile_all cond s b (by rw [e]; exact hb)⟩

/-- The identifier arm, from a lexer standing on a letter. -/
theorem NextToken_letter_run {l : Lexer} {pre post : GoString} {x : Byte}
    (hat : At l pre x post) (hcl : classify x = .letter) :
    (NextToken l).1.Literal = runLiteral isLetter (x :: post) ∧
    (NextToken l).1.Typ = lookupIdent (runLiteral isLetter (x :: post)) := by
  unfold runLiteral
  cases hd : (x :: post).dropWhile isLetter with
  | nil =>
    rw [if_pos rfl]
    obtain ⟨ht, hall⟩ := dropWhile_nil_all isLetter _ hd
    rw [ht]
    obtain ⟨hsp, h47⟩ := (classify_letter_digit_aux x).1 hcl
    obtain ⟨l1, hl1, hi, hpos⟩ := At_readWhile_to_end isLetter isLetter_zero post pre x l
      (post.length + 2) hat hall (le_refl _)
    have hch := hat.2.2.2
    have hnt : NextToken l =
        ({ Typ := lookupIdent (x :: post).dropLast, Literal := (x :: post).dropLast,
           Line := l.line, Column := l.column }, l1) := by
      apply NextToken_of_scanToken (n := post.length + 2) (by rw [hch]; exact hsp)
        (fun e => h47 (hch.symm.trans e.1)) (fun e => h47 (hch.symm.trans e.1))
      unfold scanToken
      rw [hch, hcl]
      dsimp only
      unfold readIdentifier
      dsimp only
      rw [hl1]
      dsimp only
      have hs : slice l1.input l.position l1.position = (x :: post).dropLast := by
        rw [hi, hat.1, hat.2.1, hpos]
        exact slice_to_last pre x post
      rw [hs]
    rw [hnt]
    exact ⟨rfl, rfl⟩
  | cons y t =>
    rw [if_neg (fun e => List.noConfusion e)]
    have hy := dropWhile_head_false isLetter _ y t hd
    have hsplit : x :: post = (x :: post).takeWhile isLetter ++ y :: t := by
      rw [← hd, List.takeWhile_append_dropWhile]
    obtain ⟨l1, _, hnt⟩ := NextToken_identifier ((x :: post).takeWhile isLetter) hat hcl hsplit
      (takeWhile_all isLetter _) hy
    rw [hnt]
    exact ⟨rfl, rfl⟩

/-- The number arm, from a lexer standing on a digit. -/
theorem NextToken_digit_run {l : Lexer} {pre post : GoString} {x : Byte}
    (hat : At l pre x post) (hcl : classify x = .digit) :
    (NextToken l).1.Literal = runLiteral isDigit (x :: post) ∧
    (NextToken l).1.Typ = .INT := by
  unfold runLiteral
  cases hd : (x :: post).dropWhile isDigit with
  | nil =>
    rw [if_pos rfl]
    obtain ⟨ht, hall⟩ := dropWhile_nil_all isDigit _ hd
    rw [ht]
    obtain ⟨hsp, h47⟩ := (classify_letter_digit_aux x).2.1 hcl
    obtain ⟨l1, hl1, hi, hpos⟩ := At_readWhile_to_end isDigit isDigit_zero post pre x l
      (post.length + 2) hat hall (le_refl _)
    have hch := hat.2.2.2
    have hnt : NextToken l =
        ({ Typ := .INT, Literal := (x :: post).dropLast,
           Line := l.line, Column := l.column }, l1) := by
      apply NextToken_of_scanToken (n := post.length + 2) (by rw [hch]; exact hsp)
        (fun e => h47 (hch.symm.trans e.1)) (fun e => h47 (hch.symm.trans e.1))
      unfold scanToken
      rw [hch, hcl]
      dsimp only
      unfold readNumber
      dsimp only
      rw [hl1]
      dsimp only
      have hs : slice l1.input l.position l1.position = (x :: post).dropLast := by
        rw [hi, hat.1, hat.2.1, hpos]
        exact slice_to_last pre x post
      rw [hs]
    rw [hnt]
    exact ⟨rfl, rfl⟩
  | cons y t =>
    rw [if_neg (fun e => List.noConfusion e)]
    have hy := dropWhile_head_false isDigit _ y t hd
    have hsplit : x :: post = (x :: post).takeWhile isDigit ++ y :: t := by
      rw [← hd, List.takeWhile_append_dropWhile]
    obtain ⟨l1, _, hnt⟩ := NextToken_number ((x :: post).takeWhile isDigit) hat hcl hsplit
      (takeWhile_all isDigit _) hy
    rw [hnt]
    exact ⟨rfl, rfl⟩

/-! ### Identifier, keyword and number literals -/

set_option maxRecDepth 100000 in
theorem classify_punct_not_ident : ∀ c : Byte,
    ∀ t ∈ identKinds ++ [TokenType.INT], classify c ≠ .punct t := by
  decide

theorem lookupIdent_ne_INT (s : GoString) : lookupIdent s ≠ .INT := by
  unfold lookupIdent
  split_ifs <;> exact fun e => TokenType.noConfusion e

/-- The arm of the switch that returned an identifier, keyword or number. -/
theorem scanToken_kind {n : Nat} {l : Lexer} {r : Token × Lexer}
    (h : scanToken n l = some r) :
    (r.1.Typ ∈ identKinds → classify l.ch = .letter) ∧
    (r.1.Typ = .INT → classify l.ch = .digit) := by
  unfold scanToken at h
  cases hcl : classify l.ch <;> rw [hcl] at h <;> simp only [] at h
  case punct t =>
    cases h
    dsimp only
    constructor
    · intro ht
      exact absurd hcl (classify_punct_not_ident l.ch t (List.mem_append_left _ ht))
    · intro ht
      exact absurd hcl (classify_punct_not_ident l.ch t (by rw [ht]; decide))
  case quote =>
    unfold readString at h
    simp only [] at h
    cases hr : readWhile (notQuote l.ch) n (readChar l) with
    | none => rw [hr] at h; cases h
    | some l1 =>
      rw [hr] at h; cases h
      refine ⟨fun ht => ?_, fun ht => TokenType.noConfusion ht⟩
      dsimp only at ht
      revert ht
      decide
  case letter =>
    unfold readIdentifier at h
    simp only [] at h
    cases hr : readWhile isLetter n l with
    | none => rw [hr] at h; cases h
    | some l1 =>
      rw [hr] at h; cases h
      exact ⟨fun _ => rfl, fun ht => absurd ht (lookupIdent_ne_INT _)⟩
  case digit =>
    unfold readNumber at h
    simp only [] at h
    cases hr : readWhile isDigit n l with
    | none => rw [hr] at h; cases h
    | some l1 =>
      rw [hr] at h; cases h
      refine ⟨fun ht => ?_, fun _ => rfl⟩
      dsimp only at ht
      revert ht
      decide
  all_goals
    cases h
    refine ⟨fun ht => ?_, fun ht => TokenType.noConfusion ht⟩
    dsimp only at ht
    revert ht
    decide

theorem At_of_Positioned {l : Lexer} (h : Positioned l) (hne : l.ch ≠ 0) :
    ∃ (pre : GoString) (x : Byte) (post : GoString), At l pre x post := by
  rcases h with h | he
  · exact h
  · exact absurd he.1 hne

/-- C23: every identifier, keyword or number token that a call of `NextToken`
on a lexer over `input` returns was scanned from a lexer standing on a letter
(respectively digit) `x` of the input, `input = pre ++ x :: post`, and its
literal is `runLiteral` of the remaining input `x :: post`: the maximal run of
letters (digits) when another byte follows the run, and the run without its last
byte when the run reaches the end of the input.  No assumption on NUL bytes is
needed. -/
theorem run_literal_drops_last_byte_at_end (input : GoString) (k : Nat) :
    ((nthToken k (New input)).Typ ∈ identKinds →
      ∃ (l1 : Lexer) (pre : GoString) (x : Byte) (post : GoString),
        input = pre ++ x :: post ∧ At l1 pre x post ∧ isLetter x = true ∧
        NextToken l1 = NextToken (afterCalls k (New input)) ∧
        (nthToken k (New input)).Literal = runLiteral isLetter (x :: post) ∧
        (nthToken k (New input)).Typ = lookupIdent (runLiteral isLetter (x :: post))) ∧
    ((nthToken k (New input)).Typ = .INT →
      ∃ (l1 : Lexer) (pre : GoString) (x : Byte) (post : GoString),
        input = pre ++ x :: post ∧ At l1 pre x post ∧ isDigit x = true ∧
        NextToken l1 = NextToken (afterCalls k (New input)) ∧
        (nthToken k (New input)).Literal = runLiteral isDigit (x :: post)) ∧
    (∀ (cond : Byte → Bool) (s : GoString),
      (s.dropWhile cond ≠ [] → runLiteral cond s = s.takeWhile cond) ∧
      (s.dropWhile cond = [] →
        s.takeWhile cond = s ∧ runLiteral cond s = s.dropLast)) := by
  have hp := Positioned_afterCalls input k
  obtain ⟨l1, m, p1, hin, hs, hnt⟩ :=
    NextTokenFuel_scan_state hp (NextTokenFuel_fuelBound (afterCalls k (New input)))
  rw [afterCalls_input, New_input] at hin
  obtain ⟨hkl, hkd⟩ := scanToken_kind hs
  refine ⟨?_, ?_, ?_⟩
  · intro ht
    have hcl := hkl ht
    obtain ⟨pre, x, post, hat⟩ := At_of_Positioned p1
      (classify_ne_zero _ (by rw [hcl]; exact fun e => CharClass.noConfusion e))
    rw [hat.2.2.2] at hcl
    obtain ⟨e1, e2⟩ := NextToken_letter_run hat hcl
    rw [hnt] at e1 e2
    exact ⟨l1, pre, x, post, by rw [← hin, hat.1], hat, classify_letter x hcl, hnt, e1, e2⟩
  · intro ht
    have hcl := hkd ht
    obtain ⟨pre, x, post, hat⟩ := At_of_Positioned p1
      (classify_ne_zero _ (by rw [hcl]; exact fun e => CharClass.noConfusion e))
    rw [hat.2.2.2] at hcl
    obtain ⟨e1, _⟩ := NextToken_digit_run hat hcl
    rw [hnt] at e1
    exact ⟨l1, pre, x, post, by rw [← hin, hat.1], hat, classify_digit x hcl, hnt, e1⟩
  · intro cond s
    unfold runLiteral
    constructor
    · intro hne
      rw [if_neg hne]
    · intro he
      rw [if_pos he, (dropWhile_nil_all cond s he).1]
      exact ⟨rfl, rfl⟩

set_option maxRecDepth 100000 in
theorem run_literal_drops_last_byte_at_end_witness :
    ∃ (l1 : Lexer) (pre : GoString) (x : Byte) (post : GoString),
      str "5 ab" = pre ++ x :: post ∧ At l1 pre x post ∧ isLetter x = true ∧
      NextToken l1 = NextToken (afterCalls 1 (New (str "5 ab"))) ∧
      (nthToken 1 (New (str "5 ab"))).Literal = runLiteral isLetter (x :: post) ∧
      (nthToken 1 (New (str "5 ab"))).Typ = lookupIdent (runLiteral isLetter (x :: post)) :=
  (run_literal_drops_last_byte_at_end (str "5 ab") 1).1 (by decide)

/-! ### Index expressions never panic -/

theorem indexGo_of_lt (s : GoString) (i : Nat) (h : i < s.length) :
    indexGo s i = .ok (s.getD i 0) := by
  unfold indexGo
  rw [List.getD_eq_getElem?_getD, List.getElem?_eq_getElem h]
  rfl

theorem readCharGo_ok (l : Lexer) : readCharGo l = .ok (readChar l) := by
  unfold readCharGo readChar
  split_ifs with h
  · rfl
  · rw [indexGo_of_lt _ _ (by omega)]

theorem peekCharGo_ok (l : Lexer) : peekCharGo l = .ok (peekChar l) := by
  unfold peekCharGo peekChar
  split_ifs with h
  · rfl
  · rw [indexGo_of_lt _ _ (by omega)]

theorem andThen_ok {α β : Type} (a : α) (f : α → Option (Run β)) :
    (Run.ok a).andThen f = f a := rfl

theorem andThenLoop_ok {α β : Type} (a : α) (f : α → Option (Run β)) :
    andThenLoop (some (Run.ok a)) f = f a := rfl

theorem andThenLoop_none {α β : Type} (f : α → Option (Run β)) :
    andThenLoop (none : Option (Run α)) f = none := rfl

theorem readWhileGo_ok (cond : Byte → Bool) (n : Nat) :
    ∀ l : Lexer, readWhileGo cond n l = (readWhile cond n l).map Run.ok := by
  induction n with
  | zero => intro l; rfl
  | succ n ih =>
    intro l
    rw [readWhileGo, readWhile]
    split_ifs
    · rw [readCharGo_ok, andThen_ok, ih]
    · rfl

theorem skipLineCommentGo_ok (n : Nat) (l : Lexer) :
    skipLineCommentGo n l = (skipLineComment n l).map Run.ok := by
  unfold skipLineCommentGo skipLineComment
  rw [readCharGo_ok, andThen_ok, readWhileGo_ok]

theorem blockLoopGo_ok (n : Nat) :
    ∀ l : Lexer, blockLoopGo n l = (blockLoop n l).map Run.ok := by
  induction n with
  | zero => intro l; rfl
  | succ n ih =>
    intro l
    rw [blockLoopGo, blockLoop]
    by_cases h0 : l.ch = 0
    · rw [if_pos h0, if_pos h0]; rfl
    · rw [if_neg h0, if_neg h0]
      by_cases h42 : l.ch = 42
      · rw [if_pos h42, peekCharGo_ok, andThen_ok]
        by_cases hp : peekChar l = 47
        · rw [if_pos hp, if_pos ⟨h42, hp⟩, readCharGo_ok, andThen_ok, readCharGo_ok, andThen_ok]
          rfl
        · rw [if_neg hp, if_neg (fun e => hp e.2), readCharGo_ok, andThen_ok, ih]
      · rw [if_neg h42, if_neg (fun e => h42 e.1), readCharGo_ok, andThen_ok, ih]

theorem skipBlockCommentGo_ok (n : Nat) (l : Lexer) :
    skipBlockCommentGo n l = (skipBlockComment n l).map Run.ok := by
  unfold skipBlockCommentGo skipBlockComment
  rw [readCharGo_ok, andThen_ok, readCharGo_ok, andThen_ok, blockLoopGo_ok]

/-! ### The positions stay in order -/

theorem WellFormed_New (input : GoString) : WellFormed (New input) := by
  unfold WellFormed New readChar
  dsimp only
  split_ifs <;> dsimp only <;> omega

theorem WellFormed_readChar {l : Lexer} (h : WellFormed l) :
    WellFormed (readChar l) ∧ l.position ≤ (readChar l).position ∧
      (readChar l).input = l.input := by
  unfold WellFormed at *
  unfold readChar
  by_cases h1 : l.readPosition ≥ l.input.length
  · rw [if_pos h1]; exact ⟨h, le_refl _, rfl⟩
  · rw [if_neg h1]
    dsimp only
    by_cases h2 : l.input.getD l.readPosition 0 = 10
    · rw [if_pos h2]; exact ⟨⟨by dsimp only; omega, by dsimp only; omega⟩, by dsimp only; omega, rfl⟩
    · rw [if_neg h2]; exact ⟨⟨by dsimp only; omega, by dsimp only; omega⟩, by dsimp only; omega, rfl⟩

theorem WellFormed_readWhile (cond : Byte → Bool) {n : Nat} :
    ∀ {l r : Lexer}, WellFormed l → readWhile cond n l = some r →
      WellFormed r ∧ l.position ≤ r.position ∧ r.input = l.input := by
  induction n with
  | zero => intro l r _ e; exact absurd e (by simp [readWhile])
  | succ n ih =>
    intro l r h e
    rw [readWhile] at e
    split_ifs at e
    · obtain ⟨w1, p1, i1⟩ := WellFormed_readChar h
      obtain ⟨w2, p2, i2⟩ := ih w1 e
      exact ⟨w2, le_trans p1 p2, i2.trans i1⟩
    · cases e; exact ⟨h, le_refl _, rfl⟩

theorem WellFormed_blockLoop {n : Nat} :
    ∀ {l r : Lexer}, WellFormed l → blockLoop n l = some r → WellFormed r := by
  induction n with
  | zero => intro l r _ e; exact absurd e (by simp [blockLoop])
  | succ n ih =>
    intro l r h e
    rw [blockLoop] at e
    split_ifs at e
    · cases e; exact h
    · cases e; exact (WellFormed_readChar (WellFormed_readChar h).1).1
    · exact ih (WellFormed_readChar h).1 e

theorem sliceGo_ok (s : GoString) {i j : Nat} (h1 : i ≤ j) (h2 : j ≤ s.length) :
    sliceGo s i j = .ok (slice s i j) := by
  unfold sliceGo
  rw [if_pos ⟨h1, h2⟩]

theorem readIdentifierGo_ok (n : Nat) {l : Lexer} (h : WellFormed l) :
    readIdentifierGo n l = (readIdentifier n l).map Run.ok := by
  unfold readIdentifierGo readIdentifier
  dsimp only
  rw [readWhileGo_ok]
  cases e : readWhile isLetter n l with
  | none => rfl
  | some l1 =>
    obtain ⟨w, p, i⟩ := WellFormed_readWhile isLetter h e
    rw [Option.map_some', andThenLoop_ok, sliceGo_ok _ p w.2]
    rfl

theorem readNumberGo_ok (n : Nat) {l : Lexer} (h : WellFormed l) :
    readNumberGo n l = (readNumber n l).map Run.ok := by
  unfold readNumberGo readNumber
  dsimp only
  rw [readWhileGo_ok]
  cases e : readWhile isDigit n l with
  | none => rfl
  | some l1 =>
    obtain ⟨w, p, i⟩ := WellFormed_readWhile isDigit h e
    rw [Option.map_some', andThenLoop_ok, sliceGo_ok _ p w.2]
    rfl

theorem readStringGo_ok (n : Nat) (quote : Byte) {l : Lexer} (h : WellFormed l) :
    readStringGo n quote l = (readString n quote l).map Run.ok := by
  unfold readStringGo readString
  dsimp only
  rw [readCharGo_ok, andThen_ok, readWhileGo_ok]
  cases e : readWhile (notQuote quote) n (readChar l) with
  | none => rfl
  | some l1 =>
    obtain ⟨w, p, i⟩ := WellFormed_readWhile (notQuote quote) (WellFormed_readChar h).1 e
    rw [Option.map_some', andThenLoop_ok, sliceGo_ok _ p w.2]
    rfl

theorem returnAfterReadChar_ok (tok : Token) (l : Lexer) :
    returnAfterReadChar tok l = some (.ok (tok, readChar l)) := by
  unfold returnAfterReadChar
  rw [readCharGo_ok, andThen_ok]

theorem WellFormed_scanToken {n : Nat} {l : Lexer} {r : Token × Lexer}
    (h : WellFormed l) (e : scanToken n l = some r) : WellFormed r.2 := by
  have hr := (WellFormed_readChar h).1
  unfold scanToken at e
  dsimp only at e
  cases hcl : classify l.ch <;> rw [hcl] at e <;> dsimp only at e
  · cases e; exact hr
  · cases e; exact hr
  · unfold readString at e
    dsimp only at e
    cases e1 : readWhile (notQuote l.ch) n (readChar l) with
    | none => rw [e1] at e; cases e
    | some l1 =>
      rw [e1] at e; cases e
      exact (WellFormed_readChar (WellFormed_readWhile _ hr e1).1).1
  · cases e; exact hr
  · unfold readIdentifier at e
    dsimp only at e
    cases e1 : readWhile isLetter n l with
    | none => rw [e1] at e; cases e
    | some l1 => rw [e1] at e; cases e; exact (WellFormed_readWhile _ h e1).1
  · unfold readNumber at e
    dsimp only at e
    cases e1 : readWhile isDigit n l with
    | none => rw [e1] at e; cases e
    | some l1 => rw [e1] at e; cases e; exact (WellFormed_readWhile _ h e1).1
  · cases e; exact hr

theorem WellFormed_skipLineComment {n : Nat} {l r : Lexer} (h : WellFormed l)
    (e : skipLineComment n l = some r) : WellFormed r :=
  (WellFormed_readWhile notEol (WellFormed_readChar h).1 e).1

theorem WellFormed_skipBlockComment {n : Nat} {l r : Lexer} (h : WellFormed l)
    (e : skipBlockComment n l = some r) : WellFormed r :=
  WellFormed_blockLoop (WellFormed_readChar (WellFormed_readChar h).1).1 e

theorem WellFormed_NextTokenFuel {n : Nat} :
    ∀ {l : Lexer} {r : Token × Lexer}, WellFormed l → NextTokenFuel n l = some r →
      WellFormed r.2 := by
  induction n with
  | zero => intro l r _ e; exact absurd e (by simp [NextTokenFuel])
  | succ n ih =>
    intro l0 r h e
    rw [NextTokenFuel_succ] at e
    cases hws : skipWhitespace n l0 with
    | none => rw [hws] at e; cases e
    | some l =>
      rw [hws] at e
      dsimp only at e
      have hl : WellFormed l := (WellFormed_readWhile isSpace h hws).1
      split_ifs at e
      · cases e1 : skipLineComment n l with
        | none => rw [e1] at e; cases e
        | some l2 => rw [e1] at e; exact ih (WellFormed_skipLineComment hl e1) e
      · cases e1 : skipBlockComment n l with
        | none => rw [e1] at e; cases e
        | some l2 => rw [e1] at e; exact ih (WellFormed_skipBlockComment hl e1) e
      · exact WellFormed_scanToken hl e

theorem WellFormed_NextToken {l : Lexer} (h : WellFormed l) : WellFormed (NextToken l).2 := by
  have e := NextTokenFuel_fuelBound l
  exact WellFormed_NextTokenFuel h e

theorem WellFormed_afterCalls (input : GoString) (k : Nat) :
    WellFormed (afterCalls k (New input)) := by
  induction k with
  | zero => exact WellFormed_New input
  | succ k ih => rw [afterCalls_succ]; exact WellFormed_NextToken ih

/-! ### The checked `NextToken` agrees with `NextToken` -/

theorem dispatch_class {α : Type} (c : Byte) (pu : TokenType → α)
    (sl q1 q2 eo le di il : α) :
    (if c = 61 then pu .ASSIGN
      else if c = 43 then pu .PLUS
      else if c = 45 then pu .MINUS
      else if c = 33 then pu .BANG
      else if c = 42 then pu .ASTERISK
      else if c = 47 then sl
      else if c = 60 then pu .LT
      else if c = 62 then pu .GT
      else if c = 44 then pu .COMMA
      else if c = 59 then pu .SEMICOLON
      else if c = 58 then pu .COLON
      else if c = 40 then pu .LPAREN
      else if c = 41 then pu .RPAREN
      else if c = 123 then pu .LBRACE
      else if c = 125 then pu .RBRACE
      else if c = 46 then pu .DOT
      else if c = 34 then q1
      else if c = 39 then q2
      else if c = 0 then eo
      else if isLetter c then le
      else if isDigit c then di
      else il) =
    (match classify c with
      | .punct t => pu t
      | .slash => sl
      | .quote => if c = 34 then q1 else q2
      | .eof => eo
      | .letter => le
      | .digit => di
      | .illegal => il) := by
  have h := dispatch_eq c 0 pu sl sl sl q1 q2 eo le di il
  have h47 : ¬ ((0 : Byte) = 47) := by decide
  have h42 : ¬ ((0 : Byte) = 42) := by decide
  have e47 : ¬ (c = 47 ∧ (0 : Byte) = 47) := fun e => h47 e.2
  have e42 : ¬ (c = 47 ∧ (0 : Byte) = 42) := fun e => h42 e.2
  rw [if_neg h47, if_neg h42, if_neg e47, if_neg e42] at h
  exact h

theorem stringArmGo_ok (n : Nat) (quote : Byte) (tok : Token) {l : Lexer}
    (h : WellFormed l) :
    stringArmGo n quote tok l =
      (match readString n quote l with
        | none => none
        | some (s, l2) => some ({ tok with Typ := .STRING, Literal := s }, readChar l2)).map
        Run.ok := by
  unfold stringArmGo
  rw [readStringGo_ok n quote h]
  cases readString n quote l with
  | none => rfl
  | some r => rw [Option.map_some', andThenLoop_ok, returnAfterReadChar_ok]; rfl

theorem identifierArmGo_ok (n : Nat) (tok : Token) {l : Lexer} (h : WellFormed l) :
    identifierArmGo n tok l =
      (match readIdentifier n l with
        | none => none
        | some (s, l2) => some ({ tok with Literal := s, Typ := lookupIdent s }, l2)).map
        Run.ok := by
  unfold identifierArmGo
  rw [readIdentifierGo_ok n h]
  cases readIdentifier n l with
  | none => rfl
  | some r => rfl

theorem numberArmGo_ok (n : Nat) (tok : Token) {l : Lexer} (h : WellFormed l) :
    numberArmGo n tok l =
      (match readNumber n l with
        | none => none
        | some (s, l2) => some ({ tok with Typ := .INT, Literal := s }, l2)).map Run.ok := by
  unfold numberArmGo
  rw [readNumberGo_ok n h]
  cases readNumber n l with
  | none => rfl
  | some r => rfl

theorem NextTokenGoFuel_ok (n : Nat) :
    ∀ l : Lexer, WellFormed l → NextTokenGoFuel n l = (NextTokenFuel n l).map Run.ok := by
  induction n with
  | zero => intro l _; rfl
  | succ n ih =>
    intro l0 h0
    rw [NextTokenGoFuel, NextTokenFuel_succ]
    unfold skipWhitespaceGo
    rw [readWhileGo_ok]
    cases hws : skipWhitespace n l0 with
    | none =>
      have : readWhile isSpace n l0 = none := hws
      rw [this]; rfl
    | some l =>
      have hws2 : readWhile isSpace n l0 = some l := hws
      have hl : WellFormed l := (WellFormed_readWhile isSpace h0 hws2).1
      rw [hws2, Option.map_some', andThenLoop_ok]
      dsimp only
      refine (dispatch_class l.ch
        (fun t => returnAfterReadChar
          ({ Typ := t, Literal := string l.ch, Line := 0, Column := 0 } : Token) l)
        _ _ _ _ _ _ _).trans ?_
      by_cases h47 : l.ch = 47
      · have hcl : classify l.ch = .slash := by rw [h47]; rfl
        rw [hcl]
        dsimp only
        unfold slashArmGo
        rw [peekCharGo_ok, andThen_ok]
        by_cases hp : peekChar l = 47
        · rw [if_pos hp, if_pos ⟨h47, hp⟩, skipLineCommentGo_ok]
          cases e1 : skipLineComment n l with
          | none => rfl
          | some l2 =>
            rw [Option.map_some', andThenLoop_ok]
            exact ih l2 (WellFormed_skipLineComment hl e1)
        · have e47 : ¬ (l.ch = 47 ∧ peekChar l = 47) := fun e => hp e.2
          rw [if_neg hp, if_neg e47, andThen_ok]
          by_cases hq : peekChar l = 42
          · rw [if_pos hq, if_pos ⟨h47, hq⟩, skipBlockCommentGo_ok]
            cases e1 : skipBlockComment n l with
            | none => rfl
            | some l2 =>
              rw [Option.map_some', andThenLoop_ok]
              exact ih l2 (WellFormed_skipBlockComment hl e1)
          · have e42 : ¬ (l.ch = 47 ∧ peekChar l = 42) := fun e => hq e.2
            rw [if_neg hq, if_neg e42, returnAfterReadChar_ok]
            unfold scanToken
            rw [hcl]
            rfl
      · have e47 : ¬ (l.ch = 47 ∧ peekChar l = 47) := fun e => h47 e.1
        have e42 : ¬ (l.ch = 47 ∧ peekChar l = 42) := fun e => h47 e.1
        rw [if_neg e47, if_neg e42]
        unfold scanToken
        cases hcl : classify l.ch with
        | slash => exact absurd (((classify_letter_digit_aux l.ch).2.2.1) hcl) h47
        | punct t =>
          dsimp only
          rw [returnAfterReadChar_ok]
          rfl
        | quote =>
          dsimp only
          rcases classify_quote _ hcl with hq | hq
          · rw [if_pos hq, stringArmGo_ok n 34 _ hl, hq]
          · have hn : ¬ (l.ch = 34) := by rw [hq]; decide
            rw [if_neg hn, stringArmGo_ok n 39 _ hl, hq]
        | eof =>
          dsimp only
          rw [returnAfterReadChar_ok]
          rfl
        | letter =>
          dsimp only
          rw [identifierArmGo_ok n _ hl]
        | digit =>
          dsimp only
          rw [numberArmGo_ok n _ hl]
        | illegal =>
          dsimp only
          rw [returnAfterReadChar_ok]
          rfl

theorem NextTokenGoFuel_enough (l : Lexer) (h : WellFormed l) (extra : Nat) :
    NextTokenGoFuel (fuelBound l + extra) l = some (.ok (NextToken l)) := by
  rw [NextTokenGoFuel_ok _ l h,
    NextTokenFuel_mono (NextTokenFuel_fuelBound l) (Nat.le_add_right _ extra)]
  rfl

theorem NextTokenGoFuel_no_panic (l : Lexer) (h : WellFormed l) (n : Nat) :
    NextTokenGoFuel n l ≠ some .panic := by
  rw [NextTokenGoFuel_ok n l h]
  cases NextTokenFuel n l with
  | none => intro e; cases e
  | some r => intro e; cases e

set_option maxRecDepth 100000 in
theorem readIdentifierGo_panics_out_of_order :
    readIdentifierGo 1 { input := str "ab", position := 3, readPosition := 3, ch := 0,
                         line := 1, column := 0 } = some .panic := by
  decide

/-! ### C22: the tokenizer never panics -/

/-- C22: the tokenizer never fails.  For every input and every number `k` of
earlier `NextToken` calls: `New` does not panic; the next call, run over the
checked index and slice expressions, panics under no step budget and, given the
budget `fuelBound` or more, returns exactly the result of `NextToken`; the
lexer's position is at most its read position and at most the input length.
Every `readChar` and `peekChar` is in bounds in every state; and from every
state with its positions in that order, `readIdentifier`, `readNumber` and
`readString` end at a position that is at least the saved start position and at
most the input length, so that their slice is in bounds. -/
theorem tokenizer_never_panics (input : GoString) (k : Nat) :
    NewGo input = .ok (New input) ∧
    (∀ n : Nat, NextTokenGoFuel n (afterCalls k (New input)) ≠ some .panic) ∧
    (∀ extra : Nat,
      NextTokenGoFuel (fuelBound (afterCalls k (New input)) + extra) (afterCalls k (New input)) =
        some (.ok (NextToken (afterCalls k (New input))))) ∧
    ((afterCalls k (New input)).position ≤ (afterCalls k (New input)).readPosition ∧
      (afterCalls k (New input)).position ≤ input.length) ∧
    (∀ l : Lexer, readCharGo l = .ok (readChar l) ∧ peekCharGo l = .ok (peekChar l)) ∧
    (∀ (l : Lexer) (n : Nat) (r : GoString × Lexer), WellFormed l →
      (readIdentifier n l = some r →
        l.position ≤ r.2.position ∧ r.2.position ≤ r.2.input.length ∧
          readIdentifierGo n l = some (.ok r)) ∧
      (readNumber n l = some r →
        l.position ≤ r.2.position ∧ r.2.position ≤ r.2.input.length ∧
          readNumberGo n l = some (.ok r)) ∧
      (∀ quote : Byte, readString n quote l = some r →
        (readChar l).position ≤ r.2.position ∧ r.2.position ≤ r.2.input.length ∧
          readStringGo n quote l = some (.ok r))) := by
  have hw := WellFormed_afterCalls input k
  refine ⟨readCharGo_ok _, NextTokenGoFuel_no_panic _ hw, NextTokenGoFuel_enough _ hw,
    ⟨hw.1, ?_⟩, fun l => ⟨readCharGo_ok l, peekCharGo_ok l⟩, ?_⟩
  · have := hw.2
    rw [afterCalls_input, New_input] at this
    exact this
  · intro l n r h
    refine ⟨fun e => ?_, fun e => ?_, fun quote e => ?_⟩
    · have eg := readIdentifierGo_ok n h
      rw [e] at eg
      unfold readIdentifier at e
      dsimp only at e
      cases e1 : readWhile isLetter n l with
      | none => rw [e1] at e; cases e
      | some l1 =>
        rw [e1] at e; cases e
        obtain ⟨w, p, _⟩ := WellFormed_readWhile isLetter h e1
        exact ⟨p, w.2, eg⟩
    · have eg := readNumberGo_ok n h
      rw [e] at eg
      unfold readNumber at e
      dsimp only at e
      cases e1 : readWhile isDigit n l with
      | none => rw [e1] at e; cases e
      | some l1 =>
        rw [e1] at e; cases e
        obtain ⟨w, p, _⟩ := WellFormed_readWhile isDigit h e1
        exact ⟨p, w.2, eg⟩
    · have eg := readStringGo_ok n quote h
      rw [e] at eg
      unfold readString at e
      dsimp only at e
      cases e1 : readWhile (notQuote quote) n (readChar l) with
      | none => rw [e1] at e; cases e
      | some l1 =>
        rw [e1] at e; cases e
        obtain ⟨w, p, _⟩ := WellFormed_readWhile (notQuote quote) (WellFormed_readChar h).1 e1
        exact ⟨p, w.2, eg⟩

set_option maxRecDepth 100000 in
theorem tokenizer_never_panics_witness :
    WellFormed (New (str "ab")) ∧
    readIdentifier 4 (New (str "ab")) =
      some (str "a", { input := str "ab", position := 1, readPosition := 2, ch := 0,
                       line := 1, column := 2 }) ∧
    (New (str "ab")).position ≤ 1 ∧ 1 ≤ (str "ab").length ∧
    readIdentifierGo 4 (New (str "ab")) =
      some (.ok (str "a", { input := str "ab", position := 1, readPosition := 2, ch := 0,
                            line := 1, column := 2 })) :=
  ⟨WellFormed_New _, by decide,
    ((tokenizer_never_panics (str "ab") 0).2.2.2.2.2 (New (str "ab")) 4
      (str "a", { input := str "ab", position := 1, readPosition := 2, ch := 0,
                  line := 1, column := 2 }) (WellFormed_New _)).1 (by decide)⟩

end TsGo
